import Mathlib

/-!
Verification of the MD2 collision-search engine (Rogier–Chauvaud T-table
attack) from `src/main.rs` and `src/lib.rs`.

The 19×49 byte table is embedded as a `List (List Nat)`; all byte values are
`Nat`s kept below 256, with wrapping arithmetic written out as `% 256`.  The
MD2 S-box and its inverse are external inputs of the engine and are passed
around as functions `Nat → Nat`.
-/

namespace MD2Coll

/-! ## Definitions -/

/-! ### List access primitives

`lGetD d l i` reads index `i` with default `d`; `lSet l i v` writes index `i`
and is the identity when `i` is out of range.  These model indexing into the
Rust fixed-size arrays. -/

def lGetD {α : Type} (d : α) : List α → Nat → α
  | [], _ => d
  | x :: _, 0 => x
  | _ :: xs, i + 1 => lGetD d xs i

def lSet {α : Type} : List α → Nat → α → List α
  | [], _, _ => []
  | _ :: xs, 0, v => v :: xs
  | x :: xs, i + 1, v => x :: lSet xs i v

/-! ### The T-table -/

/-- The 19×49 working table of the attack. -/
abbrev Tbl : Type := List (List Nat)

/-- Read cell `(r, c)`; missing cells read as `0`. -/
def get2 (s : Tbl) (r c : Nat) : Nat := lGetD 0 (lGetD [] s r) c

/-- Write cell `(r, c)`. -/
def set2 (s : Tbl) (r c v : Nat) : Tbl := lSet s r (lSet (lGetD [] s r) c v)

/-- `let mut state = [[0u8; 49]; 19]` -/
def initTbl : Tbl := List.replicate 19 (List.replicate 49 0)

/-- The table has its nominal 19×49 shape. -/
def Shape (s : Tbl) : Prop := s.length = 19 ∧ ∀ row ∈ s, row.length = 49

/-- All stored bytes are below 256. -/
def Bdd (s : Tbl) : Prop := ∀ row ∈ s, ∀ x ∈ row, x < 256

/-! ### Embedding of `create_initial_state` (src/main.rs)

Phase A fills rows `1..=rows` of T1, copies the row's last byte to columns 32
and 48, and seeds the next row's t value; phase B backfills the T2/T3
triangles with the inverse S-box. -/

/-- The shared inner fill `state[row][i] = SBOX[state[row][i-1]] ^ state[row-1][i]`
over a given column range (cols `1..17` in the prefill, `1..49` in the walker). -/
def fillCols (sbox : Nat → Nat) (row : Nat) (s : Tbl) (cols : List Nat) : Tbl :=
  cols.foldl (fun s i => set2 s row i (Nat.xor (sbox (get2 s row (i - 1))) (get2 s (row - 1) i))) s

/-- One iteration (one `row`) of phase A of `create_initial_state`. -/
def phaseARow (sbox : Nat → Nat) (s : Tbl) (row : Nat) : Tbl :=
  let s1 := fillCols sbox row s (List.range' 1 16)
  let s2 := set2 s1 row 32 (get2 s1 row 16)
  let s3 := set2 s2 row 48 (get2 s2 row 16)
  set2 s3 (row + 1) 0 ((get2 s3 row 48 + row + 255) % 256)

/-- Phase A: rows `1..=rows` of the zero table. -/
def phaseA (sbox : Nat → Nat) (rows : Nat) : Tbl :=
  (List.range' 1 rows).foldl (phaseARow sbox) initTbl

/-- One write pair of the triangle loop: `values[row][32-col-1]` and
`values[row][48-col-1]` via the inverse S-box. -/
def triStep (sboxi : Nat → Nat) (col : Nat) (s : Tbl) (row : Nat) : Tbl :=
  let s1 := set2 s row (32 - col - 1)
    (sboxi (Nat.xor (get2 s row (32 - col)) (get2 s (row - 1) (32 - col))))
  set2 s1 row (48 - col - 1)
    (sboxi (Nat.xor (get2 s1 row (48 - col)) (get2 s1 (row - 1) (48 - col))))

/-- The inner triangle loop: `row` from `rows` down to `2 + col`. -/
def triCol (sboxi : Nat → Nat) (rows : Nat) (s : Tbl) (col : Nat) : Tbl :=
  ((List.range' (2 + col) (rows + 1 - (2 + col))).reverse).foldl (triStep sboxi col) s

/-- Phase B: the T2/T3 triangles, `col` from `0` to `rows - 1`. -/
def phaseB (sboxi : Nat → Nat) (rows : Nat) (s : Tbl) : Tbl :=
  (List.range rows).foldl (triCol sboxi rows) s

/-- `create_initial_state(k)` from `src/main.rs`. -/
def createInitialState (sbox sboxi : Nat → Nat) (k : Nat) : Tbl :=
  phaseB sboxi (16 - k) (phaseA sbox (16 - k))

/-! ### Embedding of the candidate walker (src/main.rs `find_collisions`) -/

/-- `copy_memory(state[row].slice_mut(start, start + b.len()), b)`. -/
def writeBytes (row : Nat) : Tbl → Nat → List Nat → Tbl
  | s, _, [] => s
  | s, start, x :: xs => writeBytes row (set2 s row start x) (start + 1) xs

/-- The two trial-byte writes at the head of the search loop: `b` goes to
columns `17..17+k` and `33..33+k` of row `rows`. -/
def writeTrial (rows : Nat) (s : Tbl) (b : List Nat) : Tbl :=
  writeBytes rows (writeBytes rows s 17 b) 33 b

/-- One row of the forward walk: fill cols `1..49`, then the next t value. -/
def fwdRow (sbox : Nat → Nat) (s : Tbl) (row : Nat) : Tbl :=
  let s1 := fillCols sbox row s (List.range' 1 48)
  set2 s1 (row + 1) 0 ((get2 s1 row 48 + row + 255) % 256)

/-- The forward walk: rows `rows+1` to `17`. -/
def fwdFill (sbox : Nat → Nat) (rows : Nat) (s : Tbl) : Tbl :=
  (List.range' (rows + 1) (17 - rows)).foldl (fwdRow sbox) s

/-- The bucket key `Vec::from_fn(17 - rows, |row| state[rows + 2 + row][0])`. -/
def keyOf (s : Tbl) (rows : Nat) : List Nat :=
  (List.range (17 - rows)).map (fun i => get2 s (rows + 2 + i) 0)

/-- One row of the upward walk:
`state[row-1][col] = S[state[row][col-1]] ^ state[row][col]` for
`col` in `17..(32 - row + 2)`. -/
def bwdRow (sbox : Nat → Nat) (s : Tbl) (row : Nat) : Tbl :=
  (List.range' 17 (34 - row - 17)).foldl
    (fun s col => set2 s (row - 1) col
      (Nat.xor (sbox (get2 s row (col - 1))) (get2 s row col))) s

/-- The upward walk: rows `rows` down to `1`. -/
def bwdFill (sbox : Nat → Nat) (rows : Nat) (s : Tbl) : Tbl :=
  ((List.range' 1 rows).reverse).foldl (bwdRow sbox) s

/-- The recovered original message `state[0].slice(17, 33)`. -/
def msgOf (s : Tbl) : List Nat :=
  (List.range' 17 16).map (get2 s 0)

/-! ### Embedding of the byte counter (`increase` in src/main.rs and
`ByteRange::next` in src/lib.rs) -/

/-- The counter's scan, written on the reversed (little-endian) vector: the
rightmost non-255 byte is incremented and everything right of it zeroed. -/
def incRev : List Nat → Option (List Nat)
  | [] => none
  | x :: xs => if x = 255 then (incRev xs).map (fun ys => 0 :: ys) else some ((x + 1) :: xs)

/-- `increase` from `src/main.rs`; `none` when all bytes are 255 (the Rust
function returns `false` and leaves the buffer unchanged). -/
def increase (b : List Nat) : Option (List Nat) :=
  (incRev b.reverse).map List.reverse

/-- The trial vectors consumed by the main `loop`: starts at `b`; each
iteration uses the current vector and then calls `increase`, stopping when it
fails.  `fuel` bounds the iteration count. -/
def trialSeq : List Nat → Nat → List (List Nat)
  | _, 0 => []
  | b, n + 1 =>
    b :: (match increase b with
          | some b' => trialSeq b' n
          | none => [])

/-- All trial vectors of the `k`-byte search (fuel `256^k` is exactly enough). -/
def trialList (k : Nat) : List (List Nat) := trialSeq (List.replicate k 0) (256 ^ k)

/-- The state of lib.rs's `ByteRange` iterator. -/
structure BRState where
  current : List Nat
  done : Bool

/-- `ByteRange::next`: if some byte is not 255 the pre-increment vector is
emitted and the cursor bumped; otherwise the terminal vector is emitted once
(`done` flag) and every later call yields nothing. -/
def brNext (st : BRState) : Option (List Nat) × BRState :=
  match increase st.current with
  | some c' => (some st.current, ⟨c', st.done⟩)
  | none => if st.done then (none, st) else (some st.current, ⟨st.current, true⟩)

/-- The values emitted by `n` successive calls of `ByteRange::next`. -/
def brEmit : BRState → Nat → List (List Nat)
  | _, 0 => []
  | st, n + 1 =>
    match brNext st with
    | (some v, st') => v :: brEmit st' n
    | (none, st') => brEmit st' n

/-! ### Embedding of the collision collector -/

/-- Fingerprint-indexed buckets; the `HashMap` is embedded as an association
list in first-insertion order. -/
abbrev KMap := List (List Nat × List (List Nat))

/-- The `entry` update used by both `find_collisions` (src/main.rs) and
`insert` (src/lib.rs tests): append to the bucket, creating it if absent. -/
def insertMap : KMap → List Nat → List Nat → KMap
  | [], key, b => [(key, [b])]
  | (k', vs) :: rest, key, b =>
    if k' = key then (k', vs ++ [b]) :: rest else (k', vs) :: insertMap rest key b

/-- `count` from `src/lib.rs`: `fold(0, |count, msgs| count + msgs.len() - 1)`. -/
def countMap (m : KMap) : Nat :=
  m.foldl (fun acc e => acc + e.2.length - 1) 0

/-- One iteration of the search loop of `find_collisions`: write the trial,
walk forward, record the trial under its key. -/
def trialStep (sbox : Nat → Nat) (rows : Nat) (p : Tbl × KMap) (b : List Nat) :
    Tbl × KMap :=
  let s := fwdFill sbox rows (writeTrial rows p.1 b)
  (s, insertMap p.2 (keyOf s rows) b)

/-- The complete search loop over all `256^k` trials. -/
def trialLoop (sbox : Nat → Nat) (rows k : Nat) (s0 : Tbl) : Tbl × KMap :=
  (trialList k).foldl (trialStep sbox rows) (s0, [])

/-- Recovery of one stored trial's original message: restore the trial bytes,
walk upward, read `state[0][17..33]`.  The shared table is threaded through. -/
def recoverMsg (sbox : Nat → Nat) (rows : Nat) (p : Tbl × List (List Nat))
    (b : List Nat) : Tbl × List (List Nat) :=
  let s := bwdFill sbox rows (writeTrial rows p.1 b)
  (s, p.2 ++ [msgOf s])

/-- Recovery of one bucket (`collision.iter().map(...)`). -/
def recoverBucket (sbox : Nat → Nat) (rows : Nat)
    (p : Tbl × List (List (List Nat))) (bs : List (List Nat)) :
    Tbl × List (List (List Nat)) :=
  let q := bs.foldl (recoverMsg sbox rows) (p.1, [])
  (q.1, p.2 ++ [q.2])

/-- `find_collisions(state, k)` from `src/main.rs`: enumerate all trials,
bucket them by key, and turn every bucket of size ≥ 2 into its list of
recovered 16-byte messages. -/
def findCollisions (sbox sboxi : Nat → Nat) (k : Nat) : List (List (List Nat)) :=
  let rows := 16 - k
  let s0 := createInitialState sbox sboxi k
  let p := trialLoop sbox rows k s0
  ((((p.2.filter (fun e => decide (1 < e.2.length))).map Prod.snd).foldl
      (recoverBucket sbox rows) (p.1, [])).2)

/-! ### The MD2 compression oracle and `decompress` (src/lib.rs) -/

/-- Modelled from the spec: one MD2 round over the 48-byte block,
`x[j] ^= SBOX[t]; t = x[j]` (the round body visible in lib.rs `compress`). -/
def mdRound (sbox : Nat → Nat) : Nat → List Nat → List Nat
  | _, [] => []
  | t, y :: ys =>
    let y' := Nat.xor y (sbox t)
    y' :: mdRound sbox y' ys

/-- Modelled from the spec: `j` MD2 rounds from the initial 48-byte block with
`t = 0`; after round `j` the carry becomes `x[47] + j` (mod 256).  Returns the
carry entering the next round together with the block. -/
def mdRounds (sbox : Nat → Nat) (x0 : List Nat) : Nat → Nat × List Nat
  | 0 => (0, x0)
  | j + 1 =>
    let p := mdRounds sbox x0 j
    let x' := mdRound sbox p.1 p.2
    ((lGetD 0 x' 47 + j) % 256, x')

/-- Modelled from the spec: the external verification oracle
`md2_compress(initial, message)` of the `rust-md2` crate (absent from src/) —
the RFC 1319 compression function without the checksum round: 18 rounds over
`state ‖ msg ‖ (state ⊕ msg)`, returning the first 16 bytes. -/
def md2_compress (sbox : Nat → Nat) (st msg : List Nat) : List Nat :=
  ((mdRounds sbox (st ++ msg ++ List.zipWith Nat.xor st msg) 18).2).take 16

/-- The inner column rollback of `decompress`:
`for col in range(1, 48).rev() { x[col] ^= SBOX[x[col-1]] }`. -/
def rollCols (sbox : Nat → Nat) (x : List Nat) : List Nat :=
  ((List.range' 1 47).reverse).foldl
    (fun x col => lSet x col (Nat.xor (lGetD 0 x col) (sbox (lGetD 0 x (col - 1))))) x

/-- One iteration of `decompress`'s outer loop (rolling back one round). -/
def rollRound (sbox : Nat → Nat) (x : List Nat) (row : Nat) : List Nat :=
  let x1 := rollCols sbox x
  let t := (lGetD 0 x1 47 + row + 255) % 256
  lSet x1 0 (Nat.xor (lGetD 0 x1 0) (sbox t))

/-- The outer loop of `decompress`: `row` from `iteration - 1` down to `0`. -/
def decompressLoop (sbox : Nat → Nat) : List Nat → Nat → List Nat
  | x, 0 => x
  | x, r + 1 => decompressLoop sbox (rollRound sbox x r) r

/-- `decompress(state, iteration)` from `src/lib.rs`: roll the 48-byte block
back `iteration` full rounds and return `x[16..32]`. -/
def decompress (sbox : Nat → Nat) (x : List Nat) (iteration : Nat) : List Nat :=
  ((decompressLoop sbox x iteration).drop 16).take 16

/-! ### Specification-side helpers -/

/-- Little-endian base-256 digits of `n` (`k` of them). -/
def natToBytesLE : Nat → Nat → List Nat
  | 0, _ => []
  | k + 1, n => n % 256 :: natToBytesLE k (n / 256)

/-- The `n`-th `k`-byte vector in lexicographic (big-endian) order. -/
def natToBytes (k n : Nat) : List Nat := (natToBytesLE k n).reverse

/-- Byte-valued function on all of `Nat` (the external S-boxes). -/
def ByteFun (f : Nat → Nat) : Prop := ∀ x, f x < 256

/-- All entries of a vector are bytes. -/
def ByteVec (b : List Nat) : Prop := ∀ x ∈ b, x < 256

/-- Cells written by the phase-A iteration for `row`. -/
def phaseARowW (row r c : Nat) : Prop :=
  (r = row ∧ ((1 ≤ c ∧ c ≤ 16) ∨ c = 32 ∨ c = 48)) ∨ (r = row + 1 ∧ c = 0)

/-- Everything phase A guarantees about its result. -/
structure PhaseAFacts (sbox : Nat → Nat) (m : Nat) (s : Tbl) : Prop where
  shape : Shape s
  zero : ∀ r c, (∀ row, 1 ≤ row → row ≤ m → ¬ phaseARowW row r c) → get2 s r c = 0
  t1 : ∀ r c, 1 ≤ r → r ≤ m → 1 ≤ c → c ≤ 16 →
       get2 s r c = Nat.xor (sbox (get2 s r (c - 1))) (get2 s (r - 1) c)
  eq32 : ∀ r, 1 ≤ r → r ≤ m → get2 s r 32 = get2 s r 16
  eq48 : ∀ r, 1 ≤ r → r ≤ m → get2 s r 48 = get2 s r 16
  tcol : ∀ r, 2 ≤ r → r ≤ m + 1 → get2 s r 0 = (get2 s (r - 1) 48 + r + 254) % 256

/-- The first `j` iterations of phase B. -/
def phaseBN (sboxi : Nat → Nat) (rows j : Nat) (s : Tbl) : Tbl :=
  (List.range j).foldl (triCol sboxi rows) s

/-- Cells written by the first `j` iterations of phase B (closed form). -/
def phaseBW (rows j r c : Nat) : Prop :=
  2 ≤ r ∧ r ≤ rows ∧
    ((32 - j ≤ c ∧ c ≤ 31 ∧ 33 - r ≤ c) ∨ (48 - j ≤ c ∧ c ≤ 47 ∧ 49 - r ≤ c))

structure PhaseBNFacts (sboxi : Nat → Nat) (rows j : Nat) (sA s : Tbl) : Prop where
  shape : Shape s
  frame : ∀ r c, ¬ phaseBW rows j r c → get2 s r c = get2 sA r c
  tri2 : ∀ i r, i < j → 2 + i ≤ r → r ≤ rows →
    get2 s r (32 - i - 1) = sboxi (Nat.xor (get2 s r (32 - i)) (get2 s (r - 1) (32 - i)))
  tri3 : ∀ i r, i < j → 2 + i ≤ r → r ≤ rows →
    get2 s r (48 - i - 1) = sboxi (Nat.xor (get2 s r (48 - i)) (get2 s (r - 1) (48 - i)))

/-! ### The prefilled state: combined characterization -/

/-- Everything `create_initial_state` guarantees, stated on the final table. -/
structure PrefillFacts (sbox sboxi : Nat → Nat) (rows : Nat) (s : Tbl) : Prop where
  shape : Shape s
  t1 : ∀ r c, 1 ≤ r → r ≤ rows → 1 ≤ c → c ≤ 16 →
    get2 s r c = Nat.xor (sbox (get2 s r (c - 1))) (get2 s (r - 1) c)
  eq32 : ∀ r, 1 ≤ r → r ≤ rows → get2 s r 32 = get2 s r 16
  eq48 : ∀ r, 1 ≤ r → r ≤ rows → get2 s r 48 = get2 s r 16
  tcol : ∀ r, 2 ≤ r → r ≤ rows + 1 → get2 s r 0 = (get2 s (r - 1) 48 + r + 254) % 256
  row0 : ∀ c, get2 s 0 c = 0
  tcol1 : get2 s 1 0 = 0
  zeroT2 : ∀ r c, 1 ≤ r → r ≤ rows → 17 ≤ c → c ≤ 32 - r → get2 s r c = 0
  zeroT3 : ∀ r c, 1 ≤ r → r ≤ rows → 33 ≤ c → c ≤ 48 - r → get2 s r c = 0
  high : ∀ r c, rows + 1 ≤ r → ¬(r = rows + 1 ∧ c = 0) → get2 s r c = 0
  tri2 : ∀ col r, col < rows → 2 + col ≤ r → r ≤ rows →
    get2 s r (32 - col - 1) = sboxi (Nat.xor (get2 s r (32 - col)) (get2 s (r - 1) (32 - col)))
  tri3 : ∀ col r, col < rows → 2 + col ≤ r → r ≤ rows →
    get2 s r (48 - col - 1) = sboxi (Nat.xor (get2 s r (48 - col)) (get2 s (r - 1) (48 - col)))

/-- Cells written by the trial write. -/
def trialW (rows : Nat) (len : Nat) (r c : Nat) : Prop :=
  r = rows ∧ ((17 ≤ c ∧ c < 17 + len) ∨ (33 ≤ c ∧ c < 33 + len))

/-- Cells written by one forward-walk row. -/
def fwdRowW (row r c : Nat) : Prop :=
  (r = row ∧ 1 ≤ c ∧ c ≤ 48) ∨ (r = row + 1 ∧ c = 0)

/-- The first `j` rows of the forward walk. -/
def fwdN (sbox : Nat → Nat) (rows j : Nat) (s : Tbl) : Tbl :=
  (List.range' (rows + 1) j).foldl (fwdRow sbox) s

/-- Cells written by the first `j` rows of the forward walk. -/
def fwdW (rows j r c : Nat) : Prop :=
  (rows + 1 ≤ r ∧ r ≤ rows + j ∧ 1 ≤ c ∧ c ≤ 48) ∨
  (rows + 2 ≤ r ∧ r ≤ rows + j + 1 ∧ c = 0)

structure FwdNFacts (sbox : Nat → Nat) (rows j : Nat) (s0 s : Tbl) : Prop where
  shape : Shape s
  frame : ∀ r c, ¬ fwdW rows j r c → get2 s r c = get2 s0 r c
  recur : ∀ r c, rows + 1 ≤ r → r ≤ rows + j → 1 ≤ c → c ≤ 48 →
    get2 s r c = Nat.xor (sbox (get2 s r (c - 1))) (get2 s (r - 1) c)
  tcolF : ∀ r, rows + 1 ≤ r → r ≤ rows + j →
    get2 s (r + 1) 0 = (get2 s r 48 + r + 255) % 256

/-- The backward walk over rows `m` down to `1`. -/
def bwdN (sbox : Nat → Nat) (m : Nat) (s : Tbl) : Tbl :=
  ((List.range' 1 m).reverse).foldl (bwdRow sbox) s

structure BwdNFacts (sbox : Nat → Nat) (m : Nat) (s0 s : Tbl) : Prop where
  shape : Shape s
  frame : ∀ r c, ¬(r < m ∧ 17 ≤ c ∧ c ≤ 32 - r) → get2 s r c = get2 s0 r c
  recur : ∀ row c, 1 ≤ row → row ≤ m → 17 ≤ c → c ≤ 33 - row →
    get2 s (row - 1) c = Nat.xor (sbox (get2 s row (c - 1))) (get2 s row c)

/-! ### Lexicographic order and injectivity of the enumeration -/

/-- Little-endian base-256 value of a byte vector (specification helper). -/
def toNatLE : List Nat → Nat
  | [] => 0
  | x :: xs => x + 256 * toNatLE xs

/-- The identity permutation on bytes, used as a concrete S-box instance. -/
def byteId : Nat → Nat := fun x => x % 256

/-! ### Engine operations on the shared table -/

/-- One trial operation of `find_collisions` on the shared mutable table:
a forward walk or a message recovery, each preceded by its trial write. -/
inductive WalkOp where
  | fwd (b : List Nat)
  | bwd (b : List Nat)

def applyOp (sbox : Nat → Nat) (rows : Nat) (s : Tbl) : WalkOp → Tbl
  | .fwd b => fwdFill sbox rows (writeTrial rows s b)
  | .bwd b => bwdFill sbox rows (writeTrial rows s b)

def applyOps (sbox : Nat → Nat) (rows : Nat) (s : Tbl) (ops : List WalkOp) : Tbl :=
  ops.foldl (applyOp sbox rows) s

/-- The trial bytes of an operation. -/
def WalkOp.bytes : WalkOp → List Nat
  | .fwd b => b
  | .bwd b => b

/-- A well-formed operation: `k` trial bytes, all below 256. -/
def OpOk (k : Nat) (op : WalkOp) : Prop := op.bytes.length = k ∧ ByteVec op.bytes

/-- Cells no engine operation ever writes (for trials of length `k`). -/
def opImmune (rows k r c : Nat) : Prop :=
  ¬ fwdW rows (17 - rows) r c ∧ ¬(r < rows ∧ 17 ≤ c ∧ c ≤ 32 - r) ∧ ¬ trialW rows k r c

/-- A table state the engine can be in: well-shaped, byte-valued, and agreeing
with the prefilled state on every cell no operation writes. -/
structure StateOk (sbox sboxi : Nat → Nat) (k : Nat) (s : Tbl) : Prop where
  shape : Shape s
  bdd : Bdd s
  agree : ∀ r c, opImmune (16 - k) k r c →
    get2 s r c = get2 (createInitialState sbox sboxi k) r c

/-! ### The compression trajectory -/

/-- The 48-byte block after `j` MD2 rounds (specification helper). -/
def trajX (sbox : Nat → Nat) (x0 : List Nat) (j : Nat) : List Nat := (mdRounds sbox x0 j).2

/-- The carry entering round `j`. -/
def trajT (sbox : Nat → Nat) (x0 : List Nat) (j : Nat) : Nat := (mdRounds sbox x0 j).1

/-- Everything the upward-trajectory argument needs of a table. -/
structure BwdReady (sbox : Nat → Nat) (rows : Nat) (W : Tbl) : Prop where
  shape : Shape W
  bdd : Bdd W
  t1 : ∀ r c, 1 ≤ r → r ≤ rows → 1 ≤ c → c ≤ 16 →
    get2 W r c = Nat.xor (sbox (get2 W r (c - 1))) (get2 W (r - 1) c)
  eq32 : ∀ r, 1 ≤ r → r ≤ rows → get2 W r 32 = get2 W r 16
  eq48 : ∀ r, 1 ≤ r → r ≤ rows → get2 W r 48 = get2 W r 16
  tcol : ∀ r, 2 ≤ r → r ≤ rows + 1 → get2 W r 0 = (get2 W (r - 1) 48 + r + 254) % 256
  tcol1 : get2 W 1 0 = 0
  row0 : ∀ c, c ≤ 16 → get2 W 0 c = 0
  t2 : ∀ r c, 1 ≤ r → r ≤ rows → 17 ≤ c → c ≤ 32 →
    get2 W r c = Nat.xor (sbox (get2 W r (c - 1))) (get2 W (r - 1) c)

/-- The initial 48-byte block determined by a recovered message (zero initial
state, so the third sub-block equals the message). -/
def x0Of (W : Tbl) : List Nat := List.replicate 16 0 ++ msgOf W ++ msgOf W

/-! ### The digest of a recovered message, read off the canonical table -/

/-- The canonical forward-walked table of trial `b`: the trial written into
the freshly prefilled state and walked forward (determinism reduces every
fingerprint computed on the shared table to this table). -/
def canonF (sbox sboxi : Nat → Nat) (k : Nat) (b : List Nat) : Tbl :=
  fwdFill sbox (16 - k) (writeTrial (16 - k) (createInitialState sbox sboxi k) b)

/-- The 48-byte slice `state[r][1..49]` of a table row. -/
def rowSlice (s : Tbl) (r : Nat) : List Nat := (List.range' 1 48).map (get2 s r)

/-- The first 16 bytes of the 18th MD2 round read off a walked table: row 17
is the block before the final round and `state[18][0]` its entering t. -/
def finalRound (sbox : Nat → Nat) (F : Tbl) : List Nat :=
  (mdRound sbox (get2 F 18 0) (rowSlice F 17)).take 16

/-! ## Theorems -/

theorem lGetD_nil {α : Type} (d : α) (i : Nat) : lGetD d [] i = d := rfl

theorem length_lSet {α : Type} (l : List α) (i : Nat) (v : α) :
    (lSet l i v).length = l.length := by
  induction l generalizing i with
  | nil => rfl
  | cons x xs ih =>
    cases i with
    | zero => rfl
    | succ j => simp [lSet, ih]

theorem lSet_of_ge {α : Type} (l : List α) (i : Nat) (v : α) (h : l.length ≤ i) :
    lSet l i v = l := by
  induction l generalizing i with
  | nil => rfl
  | cons x xs ih =>
    cases i with
    | zero => simp at h
    | succ j =>
      simp only [List.length_cons, Nat.succ_le_succ_iff] at h
      simp [lSet, ih j h]

theorem lGetD_lSet_eq {α : Type} (d : α) (l : List α) (i : Nat) (v : α)
    (h : i < l.length) : lGetD d (lSet l i v) i = v := by
  induction l generalizing i with
  | nil => simp at h
  | cons x xs ih =>
    cases i with
    | zero => rfl
    | succ j =>
      simp only [List.length_cons, Nat.succ_lt_succ_iff] at h
      simpa [lSet, lGetD] using ih j h

theorem lGetD_lSet_ne {α : Type} (d : α) (l : List α) (i j : Nat) (v : α)
    (h : i ≠ j) : lGetD d (lSet l i v) j = lGetD d l j := by
  induction l generalizing i j with
  | nil => rfl
  | cons x xs ih =>
    cases i with
    | zero =>
      cases j with
      | zero => exact absurd rfl h
      | succ j' => rfl
    | succ i' =>
      cases j with
      | zero => rfl
      | succ j' =>
        have : i' ≠ j' := fun hh => h (by simp [hh])
        simpa [lSet, lGetD] using ih i' j' this

theorem mem_lSet {α : Type} (l : List α) (i : Nat) (v x : α)
    (h : x ∈ lSet l i v) : x = v ∨ x ∈ l := by
  induction l generalizing i with
  | nil => simp [lSet] at h
  | cons y ys ih =>
    cases i with
    | zero =>
      rcases List.mem_cons.mp h with h1 | h1
      · exact Or.inl h1
      · exact Or.inr (List.mem_cons_of_mem _ h1)
    | succ j =>
      rcases List.mem_cons.mp h with h1 | h1
      · exact Or.inr (h1 ▸ List.mem_cons_self _ _)
      · rcases ih j h1 with h2 | h2
        · exact Or.inl h2
        · exact Or.inr (List.mem_cons_of_mem _ h2)

theorem lGetD_eq_default_or_mem {α : Type} (d : α) (l : List α) (i : Nat) :
    lGetD d l i = d ∨ lGetD d l i ∈ l := by
  induction l generalizing i with
  | nil => exact Or.inl rfl
  | cons x xs ih =>
    cases i with
    | zero => exact Or.inr (List.mem_cons_self _ _)
    | succ j =>
      rcases ih j with h | h
      · exact Or.inl h
      · exact Or.inr (List.mem_cons_of_mem _ h)

theorem shape_initTbl : Shape initTbl := by
  constructor
  · simp [initTbl]
  · intro row hrow
    simp [initTbl] at hrow
    simp [hrow]

theorem bdd_initTbl : Bdd initTbl := by
  intro row hrow x hx
  simp [initTbl] at hrow
  subst hrow
  simp at hx
  omega

theorem lGetD_mem {α : Type} (d : α) (l : List α) (i : Nat) (h : i < l.length) :
    lGetD d l i ∈ l := by
  induction l generalizing i with
  | nil => simp at h
  | cons x xs ih =>
    cases i with
    | zero => exact List.mem_cons_self _ _
    | succ j =>
      simp only [List.length_cons, Nat.succ_lt_succ_iff] at h
      exact List.mem_cons_of_mem _ (ih j h)

theorem shape_set2 {s : Tbl} (hs : Shape s) (r c v : Nat) : Shape (set2 s r c v) := by
  obtain ⟨hlen, hrows⟩ := hs
  by_cases hr : r < s.length
  · constructor
    · rw [set2, length_lSet, hlen]
    · intro row hrow
      rcases mem_lSet _ _ _ _ hrow with h | h
      · subst h
        rw [length_lSet]
        exact hrows _ (lGetD_mem _ _ _ hr)
      · exact hrows _ h
  · rw [set2, lSet_of_ge _ _ _ (Nat.le_of_not_lt hr)]
    exact ⟨hlen, hrows⟩

theorem bdd_set2 {s : Tbl} (hb : Bdd s) (r c : Nat) {v : Nat} (hv : v < 256) :
    Bdd (set2 s r c v) := by
  intro row hrow x hx
  rcases mem_lSet _ _ _ _ hrow with h | h
  · subst h
    rcases mem_lSet _ _ _ _ hx with h2 | h2
    · omega
    · rcases lGetD_eq_default_or_mem ([] : List Nat) s r with h3 | h3
      · rw [h3] at h2; exact absurd h2 (List.not_mem_nil x)
      · exact hb _ h3 _ h2
  · exact hb _ h _ hx

theorem get2_lt {s : Tbl} (hb : Bdd s) (r c : Nat) : get2 s r c < 256 := by
  rw [get2]
  rcases lGetD_eq_default_or_mem ([] : List Nat) s r with h | h
  · rw [h, lGetD_nil]; omega
  · rcases lGetD_eq_default_or_mem 0 (lGetD [] s r) c with h2 | h2
    · omega
    · exact hb _ h _ h2

theorem get2_set2_ne (s : Tbl) {r c r' c' : Nat} (v : Nat)
    (h : r ≠ r' ∨ c ≠ c') : get2 (set2 s r c v) r' c' = get2 s r' c' := by
  simp only [get2, set2]
  rcases h with h | h
  · rw [lGetD_lSet_ne _ _ _ _ _ h]
  · by_cases hr : r = r'
    · subst hr
      by_cases hlen : r < s.length
      · rw [lGetD_lSet_eq _ _ _ _ hlen, lGetD_lSet_ne _ _ _ _ _ h]
      · rw [lSet_of_ge _ _ _ (Nat.le_of_not_lt hlen)]
    · rw [lGetD_lSet_ne _ _ _ _ _ hr]

theorem get2_set2_eq {s : Tbl} (hs : Shape s) {r c : Nat} (v : Nat)
    (hr : r < 19) (hc : c < 49) : get2 (set2 s r c v) r c = v := by
  obtain ⟨hlen, hrows⟩ := hs
  have hr' : r < s.length := by omega
  simp only [get2, set2]
  rw [lGetD_lSet_eq _ _ _ _ hr', lGetD_lSet_eq]
  rw [hrows _ (lGetD_mem _ _ _ hr')]
  omega

/-! ### Generic lemmas about table-valued folds -/

theorem foldl_get2_frame {α : Type} (body : Tbl → α → Tbl) (l : List α)
    (P : Nat → Nat → Prop)
    (h : ∀ s i, i ∈ l → ∀ r c, P r c → get2 (body s i) r c = get2 s r c) :
    ∀ (s : Tbl) (r c : Nat), P r c → get2 (l.foldl body s) r c = get2 s r c := by
  induction l with
  | nil => intro s r c _; rfl
  | cons x xs ih =>
    intro s r c hP
    rw [List.foldl_cons]
    rw [ih (fun s i hi => h s i (List.mem_cons_of_mem _ hi)) _ _ _ hP]
    exact h s x (List.mem_cons_self _ _) r c hP

theorem foldl_pres {α : Type} (Q : Tbl → Prop) (body : Tbl → α → Tbl) (l : List α)
    (h : ∀ s i, i ∈ l → Q s → Q (body s i)) :
    ∀ s : Tbl, Q s → Q (l.foldl body s) := by
  induction l with
  | nil => intro s hQ; exact hQ
  | cons x xs ih =>
    intro s hQ
    rw [List.foldl_cons]
    exact ih (fun s i hi => h s i (List.mem_cons_of_mem _ hi)) _
      (h s x (List.mem_cons_self _ _) hQ)

/-! ### Frame and shape lemmas for the individual operations -/

theorem shape_writeBytes (row : Nat) (b : List Nat) :
    ∀ (s : Tbl) (start : Nat), Shape s → Shape (writeBytes row s start b) := by
  induction b with
  | nil => intro s start hs; exact hs
  | cons x xs ih => intro s start hs; exact ih _ _ (shape_set2 hs _ _ _)

theorem bdd_writeBytes (row : Nat) (b : List Nat) (hb : ByteVec b) :
    ∀ (s : Tbl) (start : Nat), Bdd s → Bdd (writeBytes row s start b) := by
  induction b with
  | nil => intro s start hs; exact hs
  | cons x xs ih =>
    intro s start hs
    exact ih (fun y hy => hb y (List.mem_cons_of_mem _ hy)) _ _
      (bdd_set2 hs _ _ (hb x (List.mem_cons_self _ _)))

theorem get2_writeBytes_frame (row : Nat) (b : List Nat) :
    ∀ (s : Tbl) (start r c : Nat), (r ≠ row ∨ c < start ∨ start + b.length ≤ c) →
      get2 (writeBytes row s start b) r c = get2 s r c := by
  induction b with
  | nil => intro s start r c _; rfl
  | cons x xs ih =>
    intro s start r c h
    have h' : r ≠ row ∨ c < start + 1 ∨ (start + 1) + xs.length ≤ c := by
      rcases h with h | h | h
      · exact Or.inl h
      · exact Or.inr (Or.inl (by omega))
      · simp only [List.length_cons] at h; exact Or.inr (Or.inr (by omega))
    rw [writeBytes, ih _ _ _ _ h']
    apply get2_set2_ne
    rcases h with h | h | h
    · exact Or.inl (fun hh => h hh.symm)
    · exact Or.inr (by omega)
    · exact Or.inr (by simp only [List.length_cons] at h; omega)

theorem get2_writeBytes_eq (row : Nat) (b : List Nat) :
    ∀ (s : Tbl) (start i : Nat), Shape s → row < 19 → start + b.length ≤ 49 →
      i < b.length → get2 (writeBytes row s start b) row (start + i) = lGetD 0 b i := by
  induction b with
  | nil => intro s start i _ _ _ hi; simp at hi
  | cons x xs ih =>
    intro s start i hs hrow hlen hi
    cases i with
    | zero =>
      rw [writeBytes, Nat.add_zero]
      rw [get2_writeBytes_frame _ _ _ _ _ _ (Or.inr (Or.inl (by omega)))]
      exact get2_set2_eq hs _ hrow (by simp only [List.length_cons] at hlen; omega)
    | succ j =>
      rw [writeBytes]
      have : start + (j + 1) = (start + 1) + j := by omega
      rw [this, ih _ _ _ (shape_set2 hs _ _ _) hrow
        (by simp only [List.length_cons] at hlen; omega)
        (by simp only [List.length_cons] at hi; omega)]
      rfl

theorem shape_fillCols (sbox : Nat → Nat) (row : Nat) (cols : List Nat) (s : Tbl)
    (hs : Shape s) : Shape (fillCols sbox row s cols) :=
  foldl_pres Shape _ cols (fun s _ _ hq => shape_set2 hq _ _ _) s hs

theorem bdd_fillCols (sbox : Nat → Nat) (hbox : ByteFun sbox) (row : Nat)
    (cols : List Nat) (s : Tbl) (hs : Bdd s) : Bdd (fillCols sbox row s cols) := by
  refine foldl_pres Bdd _ cols (fun s i _ hq => bdd_set2 hq _ _ ?_) s hs
  exact Nat.xor_lt_two_pow (n := 8) (hbox _) (get2_lt hq _ _)

theorem get2_fillCols_frame (sbox : Nat → Nat) (row : Nat) (cols : List Nat)
    (s : Tbl) (r c : Nat) (h : r ≠ row ∨ c ∉ cols) :
    get2 (fillCols sbox row s cols) r c = get2 s r c := by
  refine foldl_get2_frame _ cols (fun r c => r ≠ row ∨ c ∉ cols) ?_ s r c h
  intro s i hi r c hP
  apply get2_set2_ne
  rcases hP with h | h
  · exact Or.inl (fun hh => h hh.symm)
  · exact Or.inr (fun hh => h (hh ▸ hi))

theorem fillCols_snoc (sbox : Nat → Nat) (row : Nat) (s : Tbl) (l : List Nat) (a : Nat) :
    fillCols sbox row s (l ++ [a]) =
      set2 (fillCols sbox row s l) row a
        (Nat.xor (sbox (get2 (fillCols sbox row s l) row (a - 1)))
                 (get2 (fillCols sbox row s l) (row - 1) a)) := by
  simp [fillCols, List.foldl_append]

theorem range'_one_succ (m : Nat) : List.range' 1 (m + 1) = List.range' 1 m ++ [m + 1] := by
  rw [List.range'_concat]
  simp [Nat.add_comm]

/-- Characterization of the inner fill over columns `1..n`: in the final
state, every filled cell satisfies the forward recurrence (the `row - 1`
reads are unaffected because `1 ≤ row`). -/
theorem get2_fillCols_charn (sbox : Nat → Nat) (row n : Nat) (s : Tbl)
    (hs : Shape s) (hrow1 : 1 ≤ row) (hrow : row < 19) (hn : n ≤ 48) :
    ∀ c, 1 ≤ c → c ≤ n →
      get2 (fillCols sbox row s (List.range' 1 n)) row c
        = Nat.xor (sbox (get2 (fillCols sbox row s (List.range' 1 n)) row (c - 1)))
                  (get2 s (row - 1) c) := by
  induction n with
  | zero => intro c hc1 hc2; omega
  | succ m ih =>
    intro c hc1 hc2
    rw [range'_one_succ, fillCols_snoc]
    set sm : Tbl := fillCols sbox row s (List.range' 1 m) with hsm
    have hsmsh : Shape sm := shape_fillCols _ _ _ _ hs
    by_cases hcm : c = m + 1
    · subst hcm
      rw [get2_set2_eq hsmsh _ hrow (by omega)]
      congr 1
      · congr 1
        rw [get2_set2_ne _ _ (Or.inr (by omega))]
      · -- the `(row-1, m+1)` read was never written by the fold
        have := get2_fillCols_frame sbox row (List.range' 1 m) s (row - 1) (m + 1)
          (Or.inl (by omega))
        rw [← hsm] at this
        rw [this]
    · have hcm' : c ≤ m := by omega
      have heq := ih (by omega) c hc1 hcm'
      rw [get2_set2_ne _ _ (Or.inr (by omega)), get2_set2_ne _ _ (Or.inr (by omega))]
      exact heq

/-! ### Characterization of phase A of the prefill -/

theorem get2_initTbl (r c : Nat) : get2 initTbl r c = 0 := by
  rw [get2]
  rcases lGetD_eq_default_or_mem ([] : List Nat) initTbl r with h | h
  · rw [h, lGetD_nil]
  · have h2 : lGetD [] initTbl r = List.replicate 49 0 :=
      (List.mem_replicate.mp (show _ ∈ List.replicate 19 (List.replicate 49 0) from h)).2
    rw [h2]
    rcases lGetD_eq_default_or_mem 0 (List.replicate 49 0) c with h3 | h3
    · exact h3
    · exact (List.mem_replicate.mp h3).2

theorem phaseA_succ (sbox : Nat → Nat) (m : Nat) :
    phaseA sbox (m + 1) = phaseARow sbox (phaseA sbox m) (m + 1) := by
  rw [phaseA, phaseA, range'_one_succ, List.foldl_append, List.foldl_cons, List.foldl_nil]

theorem shape_phaseARow (sbox : Nat → Nat) (s : Tbl) (row : Nat) (hs : Shape s) :
    Shape (phaseARow sbox s row) :=
  shape_set2 (shape_set2 (shape_set2 (shape_fillCols _ _ _ _ hs) _ _ _) _ _ _) _ _ _

theorem shape_phaseA (sbox : Nat → Nat) (m : Nat) : Shape (phaseA sbox m) :=
  foldl_pres Shape _ _ (fun s i _ hq => shape_phaseARow sbox s i hq) _ shape_initTbl

theorem bdd_phaseARow (sbox : Nat → Nat) (hbox : ByteFun sbox) (s : Tbl) (row : Nat)
    (hb : Bdd s) : Bdd (phaseARow sbox s row) := by
  have h1 : Bdd (fillCols sbox row s (List.range' 1 16)) := bdd_fillCols sbox hbox _ _ _ hb
  have h2 := bdd_set2 h1 row 32 (get2_lt h1 row 16)
  have h3 := bdd_set2 h2 row 48 (get2_lt h2 row 16)
  exact bdd_set2 h3 (row + 1) 0 (Nat.mod_lt _ (by omega))

theorem bdd_phaseA (sbox : Nat → Nat) (hbox : ByteFun sbox) (m : Nat) :
    Bdd (phaseA sbox m) :=
  foldl_pres Bdd _ _ (fun s i _ hq => bdd_phaseARow sbox hbox s i hq) _ bdd_initTbl

theorem get2_phaseARow_frame (sbox : Nat → Nat) (s : Tbl) (row r c : Nat)
    (h : ¬ phaseARowW row r c) :
    get2 (phaseARow sbox s row) r c = get2 s r c := by
  rw [phaseARowW] at h
  have h16 : r ≠ row ∨ c ∉ List.range' 1 16 := by
    by_cases hr : r = row
    · right; intro hmem; rw [List.mem_range'_1] at hmem; omega
    · exact Or.inl hr
  have h32 : row ≠ r ∨ 32 ≠ c := by omega
  have h48 : row ≠ r ∨ 48 ≠ c := by omega
  have ht : row + 1 ≠ r ∨ 0 ≠ c := by omega
  show get2 (set2 _ (row + 1) 0 _) r c = get2 s r c
  rw [get2_set2_ne _ _ ht, get2_set2_ne _ _ h48, get2_set2_ne _ _ h32,
      get2_fillCols_frame _ _ _ _ _ _ h16]

set_option maxHeartbeats 2000000 in
theorem phaseA_facts (sbox : Nat → Nat) (m : Nat) (hm : m ≤ 17) :
    PhaseAFacts sbox m (phaseA sbox m) := by
  induction m with
  | zero =>
    refine ⟨shape_phaseA sbox 0, ?_, ?_, ?_, ?_, ?_⟩
    · intro r c _; exact get2_initTbl r c
    · intro r c h1 h2; omega
    · intro r h1 h2; omega
    · intro r h1 h2; omega
    · intro r h1 h2; omega
  | succ n ih =>
    obtain ⟨hsh, hzero, ht1, he32, he48, htc⟩ := ih (by omega)
    have hrow19 : n + 1 < 19 := by omega
    set sp : Tbl := phaseA sbox n with hsp
    set s1 : Tbl := fillCols sbox (n + 1) sp (List.range' 1 16) with hs1
    set s2 : Tbl := set2 s1 (n + 1) 32 (get2 s1 (n + 1) 16) with hs2
    set s3 : Tbl := set2 s2 (n + 1) 48 (get2 s2 (n + 1) 16) with hs3
    set s4 : Tbl := set2 s3 (n + 2) 0 ((get2 s3 (n + 1) 48 + (n + 1) + 255) % 256) with hs4
    have hstepR : phaseARow sbox sp (n + 1) = s4 := by rfl
    clear_value s4 s3 s2 s1 sp
    have hstep : phaseA sbox (n + 1) = s4 := by
      rw [phaseA_succ, ← hsp]
      exact hstepR
    rw [hstep]
    have hs1sh : Shape s1 := by rw [hs1]; exact shape_fillCols _ _ _ _ hsh
    have hs2sh : Shape s2 := by rw [hs2]; exact shape_set2 hs1sh _ _ _
    have hs3sh : Shape s3 := by rw [hs3]; exact shape_set2 hs2sh _ _ _
    have hs4sh : Shape s4 := by rw [hs4]; exact shape_set2 hs3sh _ _ _
    have hframe : ∀ r c, ¬ phaseARowW (n + 1) r c → get2 s4 r c = get2 sp r c := by
      intro r c hP
      have h := get2_phaseARow_frame sbox sp (n + 1) r c hP
      rw [hstepR] at h
      exact h
    have hrowread : ∀ c, c ≤ 16 → get2 s4 (n + 1) c = get2 s1 (n + 1) c := by
      intro c hc
      rw [hs4, get2_set2_ne _ _ (Or.inl (by omega)),
          hs3, get2_set2_ne _ _ (Or.inr (by omega)),
          hs2, get2_set2_ne _ _ (Or.inr (by omega))]
    have hlow : ∀ r c, r ≤ n → get2 s4 r c = get2 sp r c := by
      intro r c hr
      exact hframe r c (by rw [phaseARowW]; omega)
    refine ⟨hs4sh, ?_, ?_, ?_, ?_, ?_⟩
    · -- zero outside the written region
      intro r c hP
      have hcur : ¬ phaseARowW (n + 1) r c := hP (n + 1) (by omega) (by omega)
      rw [hframe r c hcur]
      exact hzero r c (fun row h1 h2 => hP row h1 (by omega))
    · -- T1 recurrence
      intro r c hr1 hr2 hc1 hc2
      by_cases hr : r = n + 1
      · subst hr
        have hchar := get2_fillCols_charn sbox (n + 1) 16 sp hsh (by omega) hrow19
          (by omega) c hc1 hc2
        rw [← hs1] at hchar
        rw [hrowread c hc2, hrowread (c - 1) (by omega), hchar]
        congr 1
        have hn1 : n + 1 - 1 = n := by omega
        rw [hn1]
        exact (hlow n c (by omega)).symm
      · have hr' : r ≤ n := by omega
        rw [hlow r c hr', hlow r (c - 1) hr', hlow (r - 1) c (by omega)]
        exact ht1 r c hr1 (by omega) hc1 hc2
    · -- column 32 equality
      intro r hr1 hr2
      by_cases hr : r = n + 1
      · subst hr
        rw [hrowread 16 (by omega)]
        rw [hs4, get2_set2_ne _ _ (Or.inl (by omega)),
            hs3, get2_set2_ne _ _ (Or.inr (by omega)),
            hs2, get2_set2_eq hs1sh _ hrow19 (by omega)]
      · have hr' : r ≤ n := by omega
        rw [hlow r 32 hr', hlow r 16 hr']
        exact he32 r hr1 (by omega)
    · -- column 48 equality
      intro r hr1 hr2
      by_cases hr : r = n + 1
      · subst hr
        rw [hrowread 16 (by omega)]
        rw [hs4, get2_set2_ne _ _ (Or.inl (by omega)),
            hs3, get2_set2_eq hs2sh _ hrow19 (by omega),
            hs2, get2_set2_ne _ _ (Or.inr (by omega))]
      · have hr' : r ≤ n := by omega
        rw [hlow r 48 hr', hlow r 16 hr']
        exact he48 r hr1 (by omega)
    · -- t column
      intro r hr1 hr2
      by_cases hr : r = n + 2
      · subst hr
        have hread : get2 s4 (n + 1) 48 = get2 s3 (n + 1) 48 := by
          rw [hs4, get2_set2_ne _ _ (Or.inl (by omega))]
        have hm1 : n + 2 - 1 = n + 1 := by omega
        rw [hm1, hread]
        conv_lhs => rw [hs4]
        rw [get2_set2_eq hs3sh _ (by omega) (by omega)]
        omega
      · have hr' : r ≤ n + 1 := by omega
        have hna : ¬ phaseARowW (n + 1) r 0 := by rw [phaseARowW]; omega
        have hnb : ¬ phaseARowW (n + 1) (r - 1) 48 := by rw [phaseARowW]; omega
        rw [hframe r 0 hna, hframe (r - 1) 48 hnb]
        exact htc r hr1 (by omega)

/-! ### Characterization of phase B (the T2/T3 triangles) -/

theorem shape_triStep (sboxi : Nat → Nat) (col : Nat) (s : Tbl) (row : Nat)
    (hs : Shape s) : Shape (triStep sboxi col s row) :=
  shape_set2 (shape_set2 hs _ _ _) _ _ _

theorem bdd_triStep (sboxi : Nat → Nat) (hbox : ByteFun sboxi) (col : Nat)
    (s : Tbl) (row : Nat) (hb : Bdd s) : Bdd (triStep sboxi col s row) :=
  bdd_set2 (bdd_set2 hb _ _ (hbox _)) _ _ (hbox _)

theorem get2_triStep_frame (sboxi : Nat → Nat) (col : Nat) (s : Tbl) (row r c : Nat)
    (h : ¬(r = row ∧ (c = 32 - col - 1 ∨ c = 48 - col - 1))) :
    get2 (triStep sboxi col s row) r c = get2 s r c := by
  rw [triStep]
  rw [get2_set2_ne _ _ (by omega), get2_set2_ne _ _ (by omega)]

theorem get2_triStep_self (sboxi : Nat → Nat) (col : Nat) (s : Tbl) (hs : Shape s)
    (row : Nat) (hr1 : 1 ≤ row) (hr2 : row < 19) (hc : col ≤ 14) :
    get2 (triStep sboxi col s row) row (32 - col - 1)
      = sboxi (Nat.xor (get2 s row (32 - col)) (get2 s (row - 1) (32 - col)))
    ∧ get2 (triStep sboxi col s row) row (48 - col - 1)
      = sboxi (Nat.xor (get2 s row (48 - col)) (get2 s (row - 1) (48 - col))) := by
  constructor
  · rw [triStep]
    rw [get2_set2_ne _ _ (by omega)]
    exact get2_set2_eq hs _ hr2 (by omega)
  · rw [triStep]
    rw [get2_set2_eq (shape_set2 hs _ _ _) _ hr2 (by omega)]
    rw [get2_set2_ne _ _ (by omega), get2_set2_ne _ _ (by omega)]

/-- The inner triangle fold over any duplicate-free list of rows: every
processed row's two triangle cells are computed from the pre-fold state. -/
theorem get2_triStep_fold (sboxi : Nat → Nat) (col : Nat) (hc : col ≤ 14)
    (rl : List Nat) (hnd : rl.Nodup) :
    ∀ s : Tbl, Shape s → (∀ row ∈ rl, 1 ≤ row ∧ row < 19) →
      ∀ r ∈ rl,
        get2 (rl.foldl (triStep sboxi col) s) r (32 - col - 1)
          = sboxi (Nat.xor (get2 s r (32 - col)) (get2 s (r - 1) (32 - col)))
        ∧ get2 (rl.foldl (triStep sboxi col) s) r (48 - col - 1)
          = sboxi (Nat.xor (get2 s r (48 - col)) (get2 s (r - 1) (48 - col))) := by
  induction rl with
  | nil => intro s _ _ r hr; simp at hr
  | cons row rl' ih =>
    intro s hs hbounds r hr
    rw [List.foldl_cons]
    have hnd' : rl'.Nodup := hnd.of_cons
    have hrow_not : row ∉ rl' := (List.nodup_cons.mp hnd).1
    have hbounds' : ∀ row' ∈ rl', 1 ≤ row' ∧ row' < 19 :=
      fun row' h' => hbounds row' (List.mem_cons_of_mem _ h')
    have hrowb := hbounds row (List.mem_cons_self _ _)
    rcases List.mem_cons.mp hr with hr | hr
    · subst hr
      -- this row is written first and never touched again by the rest
      have hfr : ∀ c', (c' = 32 - col - 1 ∨ c' = 48 - col - 1) →
          get2 (rl'.foldl (triStep sboxi col) (triStep sboxi col s r)) r c'
            = get2 (triStep sboxi col s r) r c' := by
        intro c' hc'
        refine foldl_get2_frame _ rl' (fun r' c'' => r' = r ∧ (c'' = 32 - col - 1 ∨ c'' = 48 - col - 1)) ?_ _ _ _ ⟨rfl, hc'⟩
        intro s' i hi r' c'' hP
        apply get2_triStep_frame
        intro hcon
        exact hrow_not (by rw [← hcon.1, hP.1] at hi; exact hi)
      have hself := get2_triStep_self sboxi col s hs r hrowb.1 hrowb.2 hc
      exact ⟨by rw [hfr _ (Or.inl rfl)]; exact hself.1,
             by rw [hfr _ (Or.inr rfl)]; exact hself.2⟩
    · -- a later row: apply the induction hypothesis to the once-stepped state
      have hih := ih hnd' (triStep sboxi col s row) (shape_triStep _ _ _ _ hs) hbounds' r hr
      have hread : ∀ r' c', (c' = 32 - col ∨ c' = 48 - col) →
          get2 (triStep sboxi col s row) r' c' = get2 s r' c' := by
        intro r' c' hc'
        apply get2_triStep_frame
        intro hcon
        omega
      rw [hread r _ (Or.inl rfl), hread (r - 1) _ (Or.inl rfl),
          hread r _ (Or.inr rfl), hread (r - 1) _ (Or.inr rfl)] at hih
      exact hih

theorem shape_triCol (sboxi : Nat → Nat) (rows : Nat) (s : Tbl) (col : Nat)
    (hs : Shape s) : Shape (triCol sboxi rows s col) :=
  foldl_pres Shape _ _ (fun s i _ hq => shape_triStep sboxi col s i hq) _ hs

theorem bdd_triCol (sboxi : Nat → Nat) (hbox : ByteFun sboxi) (rows : Nat) (s : Tbl)
    (col : Nat) (hb : Bdd s) : Bdd (triCol sboxi rows s col) :=
  foldl_pres Bdd _ _ (fun s i _ hq => bdd_triStep sboxi hbox col s i hq) _ hb

theorem mem_triCol_list (rows col row : Nat) :
    row ∈ (List.range' (2 + col) (rows + 1 - (2 + col))).reverse ↔
      2 + col ≤ row ∧ row ≤ rows := by
  rw [List.mem_reverse, List.mem_range'_1]
  omega

theorem get2_triCol_frame (sboxi : Nat → Nat) (rows : Nat) (s : Tbl) (col r c : Nat)
    (h : ¬(2 + col ≤ r ∧ r ≤ rows ∧ (c = 32 - col - 1 ∨ c = 48 - col - 1))) :
    get2 (triCol sboxi rows s col) r c = get2 s r c := by
  rw [triCol]
  refine foldl_get2_frame _ _ (fun r' c' => ¬(2 + col ≤ r' ∧ r' ≤ rows ∧ (c' = 32 - col - 1 ∨ c' = 48 - col - 1))) ?_ s r c h
  intro s' i hi r' c' hP
  rw [mem_triCol_list] at hi
  apply get2_triStep_frame
  intro hcon
  exact hP ⟨by omega, by omega, hcon.2⟩

theorem get2_triCol_charn (sboxi : Nat → Nat) (rows : Nat) (s : Tbl) (hs : Shape s)
    (col : Nat) (hc : col ≤ 14) (hrows : rows ≤ 18) :
    ∀ r, 2 + col ≤ r → r ≤ rows →
      get2 (triCol sboxi rows s col) r (32 - col - 1)
        = sboxi (Nat.xor (get2 s r (32 - col)) (get2 s (r - 1) (32 - col)))
      ∧ get2 (triCol sboxi rows s col) r (48 - col - 1)
        = sboxi (Nat.xor (get2 s r (48 - col)) (get2 s (r - 1) (48 - col))) := by
  intro r h1 h2
  rw [triCol]
  refine get2_triStep_fold sboxi col hc _ ?_ s hs ?_ r ?_
  · exact List.nodup_reverse.mpr (List.nodup_range' _ _)
  · intro row hrow
    rw [mem_triCol_list] at hrow
    omega
  · rw [mem_triCol_list]
    omega

theorem phaseB_eq_phaseBN (sboxi : Nat → Nat) (rows : Nat) (s : Tbl) :
    phaseB sboxi rows s = phaseBN sboxi rows rows s := rfl

theorem phaseBN_succ (sboxi : Nat → Nat) (rows j : Nat) (s : Tbl) :
    phaseBN sboxi rows (j + 1) s = triCol sboxi rows (phaseBN sboxi rows j s) j := by
  rw [phaseBN, phaseBN, List.range_succ, List.foldl_append, List.foldl_cons, List.foldl_nil]

theorem phaseBN_facts (sboxi : Nat → Nat) (rows : Nat) (hrows : rows ≤ 15)
    (sA : Tbl) (hsA : Shape sA) (j : Nat) (hj : j ≤ 15) :
    PhaseBNFacts sboxi rows j sA (phaseBN sboxi rows j sA) := by
  induction j with
  | zero =>
    refine ⟨hsA, fun r c _ => rfl, ?_, ?_⟩
    · intro i r hi; omega
    · intro i r hi; omega
  | succ n ih =>
    obtain ⟨hsh, hframe, htri2, htri3⟩ := ih (by omega)
    rw [phaseBN_succ]
    set sj : Tbl := phaseBN sboxi rows n sA with hsj
    clear_value sj
    have hn14 : n ≤ 14 := by omega
    have hsh' : Shape (triCol sboxi rows sj n) := shape_triCol _ _ _ _ hsh
    -- the new column's cells never coincide with older columns' cells
    have hcolfr : ∀ r c, ¬(2 + n ≤ r ∧ r ≤ rows ∧ (c = 32 - n - 1 ∨ c = 48 - n - 1)) →
        get2 (triCol sboxi rows sj n) r c = get2 sj r c :=
      fun r c h => get2_triCol_frame sboxi rows sj n r c h
    refine ⟨hsh', ?_, ?_, ?_⟩
    · -- frame
      intro r c hP
      rw [phaseBW] at hP
      rw [hcolfr r c (by omega)]
      exact hframe r c (by rw [phaseBW]; omega)
    · -- T2 triangle equations
      intro i r hi h2 h3
      by_cases hin : i = n
      · subst hin
        have hchar := (get2_triCol_charn sboxi rows sj hsh i hn14 (by omega) r h2 h3).1
        rw [hchar]
        congr 1
        rw [hcolfr r (32 - i) (by omega), hcolfr (r - 1) (32 - i) (by omega)]
      · have hi' : i < n := by omega
        rw [hcolfr r (32 - i - 1) (by omega),
            hcolfr r (32 - i) (by omega), hcolfr (r - 1) (32 - i) (by omega)]
        exact htri2 i r hi' h2 h3
    · -- T3 triangle equations
      intro i r hi h2 h3
      by_cases hin : i = n
      · subst hin
        have hchar := (get2_triCol_charn sboxi rows sj hsh i hn14 (by omega) r h2 h3).2
        rw [hchar]
        congr 1
        rw [hcolfr r (48 - i) (by omega), hcolfr (r - 1) (48 - i) (by omega)]
      · have hi' : i < n := by omega
        rw [hcolfr r (48 - i - 1) (by omega),
            hcolfr r (48 - i) (by omega), hcolfr (r - 1) (48 - i) (by omega)]
        exact htri3 i r hi' h2 h3

theorem createInitialState_eq (sbox sboxi : Nat → Nat) (k : Nat) :
    createInitialState sbox sboxi k = phaseBN sboxi (16 - k) (16 - k) (phaseA sbox (16 - k)) := rfl

theorem shape_createInitialState (sbox sboxi : Nat → Nat) (k : Nat) :
    Shape (createInitialState sbox sboxi k) := by
  rw [createInitialState_eq, phaseBN]
  exact foldl_pres Shape _ _ (fun s i _ hq => shape_triCol sboxi _ s i hq) _
    (shape_phaseA sbox (16 - k))

theorem bdd_createInitialState (sbox sboxi : Nat → Nat) (hbox : ByteFun sbox)
    (hboxi : ByteFun sboxi) (k : Nat) : Bdd (createInitialState sbox sboxi k) := by
  rw [createInitialState_eq, phaseBN]
  exact foldl_pres Bdd _ _ (fun s i _ hq => bdd_triCol sboxi hboxi _ s i hq) _
    (bdd_phaseA sbox hbox (16 - k))

theorem prefill_facts (sbox sboxi : Nat → Nat) (k : Nat) (hk1 : 1 ≤ k) (hk2 : k ≤ 14) :
    PrefillFacts sbox sboxi (16 - k) (createInitialState sbox sboxi k) := by
  set rows : Nat := 16 - k with hrowsdef
  have hrows1 : 2 ≤ rows := by omega
  have hrows2 : rows ≤ 15 := by omega
  have hA := phaseA_facts sbox rows (by omega)
  obtain ⟨hsh, hzero, ht1, he32, he48, htc⟩ := hA
  have hB := phaseBN_facts sboxi rows hrows2 (phaseA sbox rows) hsh rows (by omega)
  obtain ⟨hsh', hframe, htri2, htri3⟩ := hB
  rw [createInitialState_eq, ← hrowsdef]
  set s : Tbl := phaseBN sboxi rows rows (phaseA sbox rows) with hs
  clear_value s
  -- cells outside the triangles keep their phase-A values
  have hfr : ∀ r c, ¬ phaseBW rows rows r c → get2 s r c = get2 (phaseA sbox rows) r c :=
    hframe
  refine ⟨hsh', ?_, ?_, ?_, ?_, ?_, ?_, ?_, ?_, ?_, ?_, ?_⟩
  · -- T1 recurrence
    intro r c h1 h2 h3 h4
    rw [hfr r c (by rw [phaseBW]; omega), hfr r (c - 1) (by rw [phaseBW]; omega),
        hfr (r - 1) c (by rw [phaseBW]; omega)]
    exact ht1 r c h1 h2 h3 h4
  · -- column 32 equality
    intro r h1 h2
    rw [hfr r 32 (by rw [phaseBW]; omega), hfr r 16 (by rw [phaseBW]; omega)]
    exact he32 r h1 h2
  · -- column 48 equality
    intro r h1 h2
    rw [hfr r 48 (by rw [phaseBW]; omega), hfr r 16 (by rw [phaseBW]; omega)]
    exact he48 r h1 h2
  · -- t column
    intro r h1 h2
    rw [hfr r 0 (by rw [phaseBW]; omega), hfr (r - 1) 48 (by rw [phaseBW]; omega)]
    exact htc r h1 h2
  · -- row 0 is all zeros
    intro c
    rw [hfr 0 c (by rw [phaseBW]; omega)]
    exact hzero 0 c (fun row hr1 hr2 => by rw [phaseARowW]; omega)
  · -- t value of row 1 is zero
    rw [hfr 1 0 (by rw [phaseBW]; omega)]
    exact hzero 1 0 (fun row hr1 hr2 => by rw [phaseARowW]; omega)
  · -- T2 cells left of the triangle are zero
    intro r c h1 h2 h3 h4
    rw [hfr r c (by rw [phaseBW]; omega)]
    exact hzero r c (fun row hr1 hr2 => by rw [phaseARowW]; omega)
  · -- T3 cells left of the triangle are zero
    intro r c h1 h2 h3 h4
    rw [hfr r c (by rw [phaseBW]; omega)]
    exact hzero r c (fun row hr1 hr2 => by rw [phaseARowW]; omega)
  · -- rows above `rows` are zero except the t value of row `rows + 1`
    intro r c h1 h2
    rw [hfr r c (by rw [phaseBW]; omega)]
    exact hzero r c (fun row hr1 hr2 => by rw [phaseARowW]; omega)
  · -- T2 triangle equations
    intro col r h1 h2 h3
    exact htri2 col r (by omega) h2 h3
  · -- T3 triangle equations
    intro col r h1 h2 h3
    exact htri3 col r (by omega) h2 h3

/-! ### Characterization of the trial write -/

theorem shape_writeTrial (rows : Nat) (s : Tbl) (b : List Nat) (hs : Shape s) :
    Shape (writeTrial rows s b) :=
  shape_writeBytes _ _ _ _ (shape_writeBytes _ _ _ _ hs)

theorem bdd_writeTrial (rows : Nat) (s : Tbl) (b : List Nat) (hb : ByteVec b)
    (hs : Bdd s) : Bdd (writeTrial rows s b) :=
  bdd_writeBytes _ _ hb _ _ (bdd_writeBytes _ _ hb _ _ hs)

theorem get2_writeTrial_frame (rows : Nat) (s : Tbl) (b : List Nat) (r c : Nat)
    (h : ¬ trialW rows b.length r c) :
    get2 (writeTrial rows s b) r c = get2 s r c := by
  rw [trialW] at h
  rw [writeTrial, get2_writeBytes_frame _ _ _ _ _ _ (by omega),
      get2_writeBytes_frame _ _ _ _ _ _ (by omega)]

theorem get2_writeTrial_eq17 (rows : Nat) (s : Tbl) (b : List Nat) (i : Nat)
    (hs : Shape s) (hrow : rows < 19) (hlen : b.length ≤ 16) (hi : i < b.length) :
    get2 (writeTrial rows s b) rows (17 + i) = lGetD 0 b i := by
  rw [writeTrial, get2_writeBytes_frame _ _ _ _ _ _ (by omega)]
  exact get2_writeBytes_eq rows b s 17 i hs hrow (by omega) hi

theorem get2_writeTrial_eq33 (rows : Nat) (s : Tbl) (b : List Nat) (i : Nat)
    (hs : Shape s) (hrow : rows < 19) (hlen : b.length ≤ 16) (hi : i < b.length) :
    get2 (writeTrial rows s b) rows (33 + i) = lGetD 0 b i := by
  rw [writeTrial]
  exact get2_writeBytes_eq rows b _ 33 i (shape_writeBytes _ _ _ _ hs) hrow (by omega) hi

/-! ### Characterization of the forward walk -/

theorem shape_fwdRow (sbox : Nat → Nat) (s : Tbl) (row : Nat) (hs : Shape s) :
    Shape (fwdRow sbox s row) :=
  shape_set2 (shape_fillCols _ _ _ _ hs) _ _ _

theorem bdd_fwdRow (sbox : Nat → Nat) (hbox : ByteFun sbox) (s : Tbl) (row : Nat)
    (hb : Bdd s) : Bdd (fwdRow sbox s row) :=
  bdd_set2 (bdd_fillCols _ hbox _ _ _ hb) _ _ (Nat.mod_lt _ (by omega))

theorem get2_fwdRow_frame (sbox : Nat → Nat) (s : Tbl) (row r c : Nat)
    (h : ¬ fwdRowW row r c) :
    get2 (fwdRow sbox s row) r c = get2 s r c := by
  rw [fwdRowW] at h
  have hfill : r ≠ row ∨ c ∉ List.range' 1 48 := by
    by_cases hr : r = row
    · right; intro hmem; rw [List.mem_range'_1] at hmem; omega
    · exact Or.inl hr
  show get2 (set2 _ (row + 1) 0 _) r c = get2 s r c
  rw [get2_set2_ne _ _ (by omega), get2_fillCols_frame _ _ _ _ _ _ hfill]

theorem fwdRow_def (sbox : Nat → Nat) (s : Tbl) (row : Nat) :
    fwdRow sbox s row
      = set2 (fillCols sbox row s (List.range' 1 48)) (row + 1) 0
          ((get2 (fillCols sbox row s (List.range' 1 48)) row 48 + row + 255) % 256) := rfl

theorem get2_fwdRow_charn (sbox : Nat → Nat) (s : Tbl) (hs : Shape s) (row : Nat)
    (h1 : 1 ≤ row) (h2 : row < 18) :
    (∀ c, 1 ≤ c → c ≤ 48 → get2 (fwdRow sbox s row) row c
       = Nat.xor (sbox (get2 (fwdRow sbox s row) row (c - 1))) (get2 s (row - 1) c))
    ∧ get2 (fwdRow sbox s row) (row + 1) 0
       = (get2 (fwdRow sbox s row) row 48 + row + 255) % 256 := by
  rw [fwdRow_def]
  constructor
  · intro c hc1 hc2
    have hchar := get2_fillCols_charn sbox row 48 s hs h1 (by omega) (by omega) c hc1 hc2
    rw [get2_set2_ne _ _ (Or.inl (by omega)), get2_set2_ne _ _ (Or.inl (by omega)), hchar]
  · rw [get2_set2_eq (shape_fillCols _ _ _ _ hs) _ (by omega) (by omega),
        get2_set2_ne _ _ (Or.inl (by omega))]

theorem fwdFill_eq_fwdN (sbox : Nat → Nat) (rows : Nat) (s : Tbl) :
    fwdFill sbox rows s = fwdN sbox rows (17 - rows) s := rfl

theorem fwdN_succ (sbox : Nat → Nat) (rows j : Nat) (s : Tbl) :
    fwdN sbox rows (j + 1) s = fwdRow sbox (fwdN sbox rows j s) (rows + 1 + j) := by
  rw [fwdN, fwdN, List.range'_concat, List.foldl_append, List.foldl_cons, List.foldl_nil]
  simp

set_option maxHeartbeats 1600000 in
theorem fwdN_facts (sbox : Nat → Nat) (rows : Nat) (h1 : 1 ≤ rows) (j : Nat)
    (hj : rows + j ≤ 17) (s0 : Tbl) (hs0 : Shape s0) :
    FwdNFacts sbox rows j s0 (fwdN sbox rows j s0) := by
  induction j with
  | zero =>
    refine ⟨hs0, fun r c _ => rfl, ?_, ?_⟩
    · intro r c hr1 hr2; omega
    · intro r hr1 hr2; omega
  | succ n ih =>
    obtain ⟨hsh, hframe, hrec, htc⟩ := ih (by omega)
    rw [fwdN_succ]
    set sj : Tbl := fwdN sbox rows n s0 with hsj
    clear_value sj
    set row : Nat := rows + 1 + n with hrow
    have hrow1 : 1 ≤ row := by omega
    have hrow2 : row < 18 := by omega
    have hcharn := get2_fwdRow_charn sbox sj hsh row hrow1 hrow2
    have hfr : ∀ r c, ¬ fwdRowW row r c → get2 (fwdRow sbox sj row) r c = get2 sj r c :=
      fun r c h => get2_fwdRow_frame sbox sj row r c h
    refine ⟨shape_fwdRow _ _ _ hsh, ?_, ?_, ?_⟩
    · -- frame
      intro r c hP
      rw [fwdW] at hP
      rw [hfr r c (by rw [fwdRowW]; omega)]
      exact hframe r c (by rw [fwdW]; omega)
    · -- forward recurrence
      intro r c hr1 hr2 hc1 hc2
      by_cases hrr : r = row
      · subst hrr
        rw [hfr (row - 1) c (by rw [fwdRowW]; omega)]
        exact hcharn.1 c hc1 hc2
      · have hr' : r ≤ rows + n := by omega
        rw [hfr r c (by rw [fwdRowW]; omega), hfr r (c - 1) (by rw [fwdRowW]; omega),
            hfr (r - 1) c (by rw [fwdRowW]; omega)]
        exact hrec r c hr1 hr' hc1 hc2
    · -- t column of the walked rows
      intro r hr1 hr2
      by_cases hrr : r = row
      · subst hrr
        exact hcharn.2
      · have hr' : r ≤ rows + n := by omega
        rw [hfr (r + 1) 0 (by rw [fwdRowW]; omega), hfr r 48 (by rw [fwdRowW]; omega)]
        exact htc r hr1 hr'

/-! ### Characterization of the backward (upward) walk -/

theorem shape_bwdRow (sbox : Nat → Nat) (s : Tbl) (row : Nat) (hs : Shape s) :
    Shape (bwdRow sbox s row) :=
  foldl_pres Shape _ _ (fun s i _ hq => shape_set2 hq _ _ _) _ hs

theorem bdd_bwdRow (sbox : Nat → Nat) (hbox : ByteFun sbox) (s : Tbl) (row : Nat)
    (hb : Bdd s) : Bdd (bwdRow sbox s row) := by
  refine foldl_pres Bdd _ _ (fun s i _ hq => bdd_set2 hq _ _ ?_) _ hb
  exact Nat.xor_lt_two_pow (n := 8) (hbox _) (get2_lt hq _ _)

theorem get2_bwdRow_frame (sbox : Nat → Nat) (s : Tbl) (row r c : Nat) (hrow : 1 ≤ row)
    (h : ¬(r + 1 = row ∧ 17 ≤ c ∧ c ≤ 33 - row)) :
    get2 (bwdRow sbox s row) r c = get2 s r c := by
  rw [bwdRow]
  refine foldl_get2_frame _ _ (fun r' c' => ¬(r' + 1 = row ∧ 17 ≤ c' ∧ c' ≤ 33 - row)) ?_ s r c h
  intro s' i hi r' c' hP
  rw [List.mem_range'_1] at hi
  apply get2_set2_ne
  by_cases hr : row - 1 = r'
  · right
    intro hc
    subst hc
    exact hP ⟨by omega, by omega, by omega⟩
  · exact Or.inl hr

/-- One backward row: every written cell is the inverted recurrence applied to
the pre-state (the reads live on row `row`, the writes on row `row - 1`). -/
theorem get2_bwdRow_charn (sbox : Nat → Nat) (s : Tbl) (hs : Shape s) (row : Nat)
    (h1 : 1 ≤ row) (h2 : row ≤ 16) :
    ∀ c, 17 ≤ c → c ≤ 33 - row →
      get2 (bwdRow sbox s row) (row - 1) c
        = Nat.xor (sbox (get2 s row (c - 1))) (get2 s row c) := by
  have key : ∀ (cl : List Nat), cl.Nodup → (∀ c' ∈ cl, c' < 49) →
      ∀ s : Tbl, Shape s →
      ∀ c ∈ cl,
        get2 (cl.foldl (fun s col => set2 s (row - 1) col
            (Nat.xor (sbox (get2 s row (col - 1))) (get2 s row col))) s) (row - 1) c
          = Nat.xor (sbox (get2 s row (c - 1))) (get2 s row c) := by
    intro cl
    induction cl with
    | nil => intro _ _ s _ c hc; simp at hc
    | cons col cl' ih =>
      intro hnd hbnd s hs c hc
      rw [List.foldl_cons]
      have hnd' : cl'.Nodup := hnd.of_cons
      have hcol_not : col ∉ cl' := (List.nodup_cons.mp hnd).1
      rcases List.mem_cons.mp hc with hc | hc
      · subst hc
        have hfr : get2 (cl'.foldl (fun s col => set2 s (row - 1) col
              (Nat.xor (sbox (get2 s row (col - 1))) (get2 s row col)))
              (set2 s (row - 1) c
              (Nat.xor (sbox (get2 s row (c - 1))) (get2 s row c)))) (row - 1) c
            = get2 (set2 s (row - 1) c
              (Nat.xor (sbox (get2 s row (c - 1))) (get2 s row c))) (row - 1) c := by
          refine foldl_get2_frame _ cl' (fun r' c' => r' = row - 1 ∧ c' = c) ?_ _ _ _ ⟨rfl, rfl⟩
          intro s' i hi r' c' hP
          apply get2_set2_ne
          right
          intro hcc
          exact hcol_not (by rw [hcc, hP.2] at hi; exact hi)
        rw [hfr, get2_set2_eq hs _ (by omega) (hbnd c (List.mem_cons_self _ _))]
      · have hih := ih hnd' (fun c' h' => hbnd c' (List.mem_cons_of_mem _ h'))
          (set2 s (row - 1) col (Nat.xor (sbox (get2 s row (col - 1))) (get2 s row col)))
          (shape_set2 hs _ _ _) c hc
        rw [hih, get2_set2_ne _ _ (Or.inl (by omega)), get2_set2_ne _ _ (Or.inl (by omega))]
  intro c hc1 hc2
  rw [bwdRow]
  refine key _ (List.nodup_range' _ _) ?_ s hs c ?_
  · intro c' h'
    rw [List.mem_range'_1] at h'
    omega
  · rw [List.mem_range'_1]
    omega

theorem bwdFill_eq_bwdN (sbox : Nat → Nat) (rows : Nat) (s : Tbl) :
    bwdFill sbox rows s = bwdN sbox rows s := rfl

theorem bwdN_succ (sbox : Nat → Nat) (m : Nat) (s : Tbl) :
    bwdN sbox (m + 1) s = bwdN sbox m (bwdRow sbox s (m + 1)) := by
  rw [bwdN, bwdN, range'_one_succ, List.reverse_append]
  rfl

theorem bwdN_facts (sbox : Nat → Nat) (m : Nat) (hm : m ≤ 16) :
    ∀ s0 : Tbl, Shape s0 → BwdNFacts sbox m s0 (bwdN sbox m s0) := by
  induction m with
  | zero =>
    intro s0 hs0
    refine ⟨hs0, fun r c _ => rfl, ?_⟩
    intro row c hr1 hr2; omega
  | succ n ih =>
    intro s0 hs0
    rw [bwdN_succ]
    set s1 : Tbl := bwdRow sbox s0 (n + 1) with hs1
    have hs1sh : Shape s1 := shape_bwdRow _ _ _ hs0
    have hrowchar : ∀ c, 17 ≤ c → c ≤ 33 - (n + 1) →
        get2 s1 (n + 1 - 1) c
          = Nat.xor (sbox (get2 s0 (n + 1) (c - 1))) (get2 s0 (n + 1) c) :=
      get2_bwdRow_charn sbox s0 hs0 (n + 1) (by omega) (by omega)
    have hrowfr : ∀ r c, ¬(r + 1 = n + 1 ∧ 17 ≤ c ∧ c ≤ 33 - (n + 1)) →
        get2 s1 r c = get2 s0 r c :=
      fun r c h => get2_bwdRow_frame sbox s0 (n + 1) r c (by omega) h
    clear_value s1
    obtain ⟨hsh, hframe, hrec⟩ := ih (by omega) s1 hs1sh
    set sf : Tbl := bwdN sbox n s1 with hsf
    clear_value sf
    refine ⟨hsh, ?_, ?_⟩
    · -- frame
      intro r c hP
      rw [hframe r c (by omega), hrowfr r c (by omega)]
    · -- inverted recurrence
      intro row c hr1 hr2 hc1 hc2
      by_cases hrr : row = n + 1
      · subst hrr
        -- row n is written by the first step and untouched afterwards
        have ha : get2 sf (n + 1 - 1) c = get2 s1 (n + 1 - 1) c :=
          hframe _ c (by omega)
        have hb : get2 sf (n + 1) (c - 1) = get2 s1 (n + 1) (c - 1) :=
          hframe _ _ (by omega)
        have hcc : get2 sf (n + 1) c = get2 s1 (n + 1) c :=
          hframe _ _ (by omega)
        have hrd : get2 s1 (n + 1) (c - 1) = get2 s0 (n + 1) (c - 1) :=
          hrowfr _ _ (by omega)
        have hre : get2 s1 (n + 1) c = get2 s0 (n + 1) c :=
          hrowfr _ _ (by omega)
        rw [ha, hb, hcc, hrd, hre]
        exact hrowchar c hc1 hc2
      · exact hrec row c hr1 (by omega) hc1 hc2

/-! ### The byte counter: odometer lemmas -/

theorem natToBytesLE_length (k : Nat) : ∀ n, (natToBytesLE k n).length = k := by
  induction k with
  | zero => intro n; rfl
  | succ m ih => intro n; simp [natToBytesLE, ih]

theorem natToBytes_length (k n : Nat) : (natToBytes k n).length = k := by
  rw [natToBytes, List.length_reverse, natToBytesLE_length]

theorem natToBytesLE_lt (k : Nat) : ∀ n, ∀ x ∈ natToBytesLE k n, x < 256 := by
  induction k with
  | zero => intro n x hx; simp [natToBytesLE] at hx
  | succ m ih =>
    intro n x hx
    rw [natToBytesLE] at hx
    rcases List.mem_cons.mp hx with h | h
    · subst h; exact Nat.mod_lt _ (by omega)
    · exact ih _ x h

theorem natToBytes_lt (k n : Nat) : ∀ x ∈ natToBytes k n, x < 256 := by
  intro x hx
  rw [natToBytes, List.mem_reverse] at hx
  exact natToBytesLE_lt k n x hx

theorem natToBytesLE_zero (k : Nat) : natToBytesLE k 0 = List.replicate k 0 := by
  induction k with
  | zero => rfl
  | succ m ih => simp [natToBytesLE, ih, List.replicate_succ]

theorem natToBytes_zero (k : Nat) : natToBytes k 0 = List.replicate k 0 := by
  rw [natToBytes, natToBytesLE_zero, List.reverse_replicate]

theorem natToBytesLE_last (k : Nat) : natToBytesLE k (256 ^ k - 1) = List.replicate k 255 := by
  induction k with
  | zero => rfl
  | succ m ih =>
    have hp : 256 ^ (m + 1) = 256 ^ m * 256 := by rw [Nat.pow_succ]
    have hpos : 1 ≤ 256 ^ m := Nat.one_le_pow _ _ (by omega)
    rw [natToBytesLE]
    have h1 : (256 ^ (m + 1) - 1) % 256 = 255 := by omega
    have h2 : (256 ^ (m + 1) - 1) / 256 = 256 ^ m - 1 := by omega
    rw [h1, h2, ih, List.replicate_succ]

theorem incRev_replicate255 (k : Nat) : incRev (List.replicate k 255) = none := by
  induction k with
  | zero => rfl
  | succ m ih => simp [List.replicate_succ, incRev, ih]

theorem incRev_natToBytesLE (k : Nat) : ∀ n, n + 1 < 256 ^ k →
    incRev (natToBytesLE k n) = some (natToBytesLE k (n + 1)) := by
  induction k with
  | zero => intro n h; simp at h
  | succ m ih =>
    intro n h
    have hp : 256 ^ (m + 1) = 256 ^ m * 256 := by rw [Nat.pow_succ]
    rw [natToBytesLE, incRev]
    by_cases h255 : n % 256 = 255
    · have h1 : (n + 1) % 256 = 0 := by omega
      have h2 : (n + 1) / 256 = n / 256 + 1 := by omega
      have h3 : n / 256 + 1 < 256 ^ m := by
        have := Nat.div_add_mod n 256
        omega
      rw [if_pos h255, ih (n / 256) h3]
      rw [natToBytesLE, h1, h2]
      rfl
    · have hlt : n % 256 < 255 := by
        have := Nat.mod_lt n (y := 256) (by omega)
        omega
      have h1 : (n + 1) % 256 = n % 256 + 1 := by omega
      have h2 : (n + 1) / 256 = n / 256 := by omega
      rw [if_neg h255, natToBytesLE, h1, h2]

theorem increase_natToBytes (k n : Nat) (h : n + 1 < 256 ^ k) :
    increase (natToBytes k n) = some (natToBytes k (n + 1)) := by
  rw [increase, natToBytes, List.reverse_reverse, incRev_natToBytesLE k n h]
  rfl

theorem increase_natToBytes_last (k : Nat) :
    increase (natToBytes k (256 ^ k - 1)) = none := by
  rw [increase, natToBytes, List.reverse_reverse, natToBytesLE_last, incRev_replicate255]
  rfl

theorem trialSeq_succ_some (b b' : List Nat) (n : Nat) (h : increase b = some b') :
    trialSeq b (n + 1) = b :: trialSeq b' n := by
  rw [trialSeq, h]

theorem trialSeq_succ_none (b : List Nat) (n : Nat) (h : increase b = none) :
    trialSeq b (n + 1) = [b] := by
  rw [trialSeq, h]

/-- The trial sequence of the main loop is the complete lexicographic
enumeration of `count` vectors from `n`. -/
theorem trialSeq_natToBytes (k : Nat) : ∀ (count n : Nat), 1 ≤ count →
    n + count = 256 ^ k →
    trialSeq (natToBytes k n) count = (List.range' n count).map (natToBytes k) := by
  intro count
  induction count with
  | zero => intro n h; omega
  | succ m ih =>
    intro n _ hsum
    by_cases hm : m = 0
    · subst hm
      have hn : n = 256 ^ k - 1 := by
        have : 1 ≤ 256 ^ k := Nat.one_le_pow _ _ (by omega)
        omega
      subst hn
      rw [trialSeq_succ_none _ _ (increase_natToBytes_last k)]
      simp
    · have hlt : n + 1 < 256 ^ k := by omega
      rw [trialSeq_succ_some _ _ _ (increase_natToBytes k n hlt)]
      rw [ih (n + 1) (by omega) (by omega), List.range'_succ]
      rfl

theorem trialList_eq (k : Nat) :
    trialList k = (List.range (256 ^ k)).map (natToBytes k) := by
  rw [trialList, ← natToBytes_zero]
  have h1 : 1 ≤ 256 ^ k := Nat.one_le_pow _ _ (by omega)
  rw [trialSeq_natToBytes k (256 ^ k) 0 h1 (by omega), List.range_eq_range']

theorem trialList_length (k : Nat) : (trialList k).length = 256 ^ k := by
  rw [trialList_eq, List.length_map, List.length_range]

theorem mem_trialList (k : Nat) (b : List Nat) (hb : b ∈ trialList k) :
    b.length = k ∧ ByteVec b := by
  rw [trialList_eq, List.mem_map] at hb
  obtain ⟨n, _, rfl⟩ := hb
  exact ⟨natToBytes_length k n, natToBytes_lt k n⟩

/-! ### The `ByteRange` iterator stream -/

theorem brEmit_succ (st : BRState) (n : Nat) :
    brEmit st (n + 1) = (match brNext st with
      | (some v, st') => v :: brEmit st' n
      | (none, st') => brEmit st' n) := rfl

theorem brEmit_cons (st : BRState) (n : Nat) (v : List Nat) (st' : BRState)
    (h : brNext st = (some v, st')) : brEmit st (n + 1) = v :: brEmit st' n := by
  rw [brEmit_succ, h]

theorem brEmit_skip (st : BRState) (n : Nat) (st' : BRState)
    (h : brNext st = (none, st')) : brEmit st (n + 1) = brEmit st' n := by
  rw [brEmit_succ, h]

theorem brNext_some (st : BRState) (c' : List Nat) (h : increase st.current = some c') :
    brNext st = (some st.current, ⟨c', st.done⟩) := by
  simp only [brNext, h]

theorem brNext_term (st : BRState) (h : increase st.current = none) (hd : st.done = false) :
    brNext st = (some st.current, ⟨st.current, true⟩) := by
  simp only [brNext, h, hd]
  rfl

theorem brNext_stuck (st : BRState) (h : increase st.current = none) (hd : st.done = true) :
    brNext st = (none, st) := by
  simp only [brNext, h, hd]
  rfl

theorem brEmit_stopped (st : BRState) (hst : increase st.current = none)
    (hd : st.done = true) : ∀ m, brEmit st m = [] := by
  intro m
  induction m with
  | zero => rfl
  | succ n ih =>
    rw [brEmit_skip st n st (brNext_stuck st hst hd)]
    exact ih

theorem brEmit_natToBytes (k : Nat) : ∀ (count n m : Nat), 1 ≤ count →
    n + count = 256 ^ k →
    brEmit ⟨natToBytes k n, false⟩ (count + m)
      = (List.range' n count).map (natToBytes k) := by
  intro count
  induction count with
  | zero => intro n m h; omega
  | succ cnt ih =>
    intro n m _ hsum
    by_cases hc : cnt = 0
    · subst hc
      have hn : n = 256 ^ k - 1 := by
        have : 1 ≤ 256 ^ k := Nat.one_le_pow _ _ (by omega)
        omega
      subst hn
      have hlast := increase_natToBytes_last k
      have hnext := brNext_term ⟨natToBytes k (256 ^ k - 1), false⟩ hlast rfl
      have hstep : 0 + 1 + m = m + 1 := by omega
      rw [hstep, brEmit_cons _ _ _ _ hnext, brEmit_stopped _ hlast rfl]
      simp
    · have hlt : n + 1 < 256 ^ k := by omega
      have hnext := brNext_some ⟨natToBytes k n, false⟩ (natToBytes k (n + 1))
        (increase_natToBytes k n hlt)
      have hstep : cnt + 1 + m = (cnt + m) + 1 := by omega
      rw [hstep, brEmit_cons _ _ _ _ hnext]
      rw [ih (n + 1) m (by omega) (by omega), List.range'_succ]
      rfl

theorem toNatLE_natToBytesLE (k : Nat) : ∀ n, n < 256 ^ k →
    toNatLE (natToBytesLE k n) = n := by
  induction k with
  | zero =>
    intro n h
    simp only [Nat.pow_zero] at h
    interval_cases n
    rfl
  | succ m ih =>
    intro n h
    have hp : 256 ^ (m + 1) = 256 ^ m * 256 := by rw [Nat.pow_succ]
    have hdiv : n / 256 < 256 ^ m := by omega
    rw [natToBytesLE, toNatLE, ih _ hdiv]
    omega

theorem natToBytes_inj (k m n : Nat) (hm : m < 256 ^ k) (hn : n < 256 ^ k)
    (h : natToBytes k m = natToBytes k n) : m = n := by
  rw [natToBytes, natToBytes] at h
  have h2 := congrArg List.reverse h
  rw [List.reverse_reverse, List.reverse_reverse] at h2
  have h3 := congrArg toNatLE h2
  rw [toNatLE_natToBytesLE k m hm, toNatLE_natToBytesLE k n hn] at h3
  exact h3

theorem lex_append_last (xs : List Nat) (a b : Nat) (h : a < b) :
    List.Lex (· < ·) (xs ++ [a]) (xs ++ [b]) := by
  induction xs with
  | nil => exact List.Lex.rel h
  | cons x xs ih => exact List.Lex.cons ih

theorem lex_append_of_lex (a b : Nat) :
    ∀ {xs ys : List Nat}, List.Lex (· < ·) xs ys → xs.length = ys.length →
      List.Lex (· < ·) (xs ++ [a]) (ys ++ [b]) := by
  intro xs ys h
  induction h with
  | nil => intro hlen; simp at hlen
  | @rel x l1 y l2 hr => intro _; exact List.Lex.rel hr
  | @cons x l1 l2 h ih => intro hlen; exact List.Lex.cons (ih (by simpa using hlen))

theorem natToBytes_succ_be (k n : Nat) :
    natToBytes (k + 1) n = natToBytes k (n / 256) ++ [n % 256] := by
  rw [natToBytes, natToBytesLE, List.reverse_cons, natToBytes]

theorem natToBytes_lex (k : Nat) : ∀ m n, m < n → n < 256 ^ k →
    List.Lex (· < ·) (natToBytes k m) (natToBytes k n) := by
  induction k with
  | zero => intro m n h1 h2; omega
  | succ j ih =>
    intro m n h1 h2
    have hp : 256 ^ (j + 1) = 256 ^ j * 256 := by rw [Nat.pow_succ]
    rw [natToBytes_succ_be, natToBytes_succ_be]
    by_cases hq : m / 256 = n / 256
    · rw [hq]
      exact lex_append_last _ _ _ (by omega)
    · have hqlt : m / 256 < n / 256 := by omega
      refine lex_append_of_lex _ _ (ih _ _ hqlt (by omega)) ?_
      rw [natToBytes_length, natToBytes_length]

/-! ### Collector lemmas (`insertMap`, `countMap`) -/

theorem insertMap_cases (m : KMap) (key : List Nat) (b : List Nat) :
    ∀ e ∈ insertMap m key b,
      e ∈ m ∨ (e.1 = key ∧ ∃ vs, e.2 = vs ++ [b] ∧ ((key, vs) ∈ m ∨ vs = [])) := by
  induction m with
  | nil =>
    intro e he
    simp only [insertMap, List.mem_singleton] at he
    subst he
    exact Or.inr ⟨rfl, [], rfl, Or.inr rfl⟩
  | cons p rest ih =>
    intro e he
    rw [insertMap] at he
    by_cases hk : p.1 = key
    · rw [if_pos hk] at he
      rcases List.mem_cons.mp he with h | h
      · subst h
        exact Or.inr ⟨hk, p.2, rfl, Or.inl (by rw [← hk]; exact List.mem_cons_self _ _)⟩
      · exact Or.inl (List.mem_cons_of_mem _ h)
    · rw [if_neg hk] at he
      rcases List.mem_cons.mp he with h | h
      · exact Or.inl (h ▸ List.mem_cons_self _ _)
      · rcases ih e h with h2 | ⟨h2, vs, h3, h4⟩
        · exact Or.inl (List.mem_cons_of_mem _ h2)
        · refine Or.inr ⟨h2, vs, h3, ?_⟩
          rcases h4 with h4 | h4
          · exact Or.inl (List.mem_cons_of_mem _ h4)
          · exact Or.inr h4

/-- Buckets are never empty in any map built by insertions. -/
theorem insertMap_nonempty (entries : List (List Nat × List Nat)) :
    ∀ e ∈ entries.foldl (fun m p => insertMap m p.1 p.2) [], e.2 ≠ [] := by
  suffices h : ∀ m : KMap, (∀ e ∈ m, e.2 ≠ []) →
      ∀ e ∈ entries.foldl (fun m p => insertMap m p.1 p.2) m, e.2 ≠ [] by
    exact h [] (by intro e he; simp at he)
  induction entries with
  | nil => intro m hm e he; exact hm e he
  | cons p rest ih =>
    intro m hm e he
    rw [List.foldl_cons] at he
    refine ih (insertMap m p.1 p.2) ?_ e he
    intro e' he'
    rcases insertMap_cases m p.1 p.2 e' he' with h | ⟨_, vs, hv, _⟩
    · exact hm e' h
    · rw [hv]
      simp

theorem countMap_shift (m : KMap) : ∀ a : Nat, (∀ e ∈ m, e.2 ≠ []) →
    m.foldl (fun acc e => acc + e.2.length - 1) a
      = a + ((m.map (fun e => e.2.length - 1)).sum) := by
  induction m with
  | nil => intro a _; simp
  | cons p rest ih =>
    intro a hne
    rw [List.foldl_cons, List.map_cons, List.sum_cons]
    have hp : p.2 ≠ [] := hne p (List.mem_cons_self _ _)
    have hlen : 1 ≤ p.2.length := by
      cases hq : p.2 with
      | nil => exact absurd hq hp
      | cons x xs => simp [hq]
    rw [ih (a + p.2.length - 1) (fun e he => hne e (List.mem_cons_of_mem _ he))]
    omega

/-- **C5**: started from the all-zero `k`-byte vector, `ByteRange::next` emits
exactly `256^k` distinct byte vectors, each of length `k`, in strict
lexicographic order starting with the all-zero vector, emits the terminal
all-255 vector exactly once (it occurs, and the stream is duplicate-free),
and yields nothing on every call after exhaustion (extra calls `m` beyond
`256^k` add no output). -/
theorem C5_byte_counter (k : Nat) (hk : 1 ≤ k) (m : Nat) :
    brEmit ⟨List.replicate k 0, false⟩ (256 ^ k + m)
        = (List.range (256 ^ k)).map (natToBytes k)
    ∧ (brEmit ⟨List.replicate k 0, false⟩ (256 ^ k + m)).length = 256 ^ k
    ∧ (brEmit ⟨List.replicate k 0, false⟩ (256 ^ k + m)).Nodup
    ∧ (∀ v ∈ brEmit ⟨List.replicate k 0, false⟩ (256 ^ k + m), v.length = k)
    ∧ (brEmit ⟨List.replicate k 0, false⟩ (256 ^ k + m)).Pairwise (List.Lex (· < ·))
    ∧ (brEmit ⟨List.replicate k 0, false⟩ (256 ^ k + m)).headD [] = List.replicate k 0
    ∧ List.replicate k 255 ∈ brEmit ⟨List.replicate k 0, false⟩ (256 ^ k + m) := by
  have h1 : 1 ≤ 256 ^ k := Nat.one_le_pow _ _ (by omega)
  have hchar : brEmit ⟨List.replicate k 0, false⟩ (256 ^ k + m)
      = (List.range (256 ^ k)).map (natToBytes k) := by
    rw [← natToBytes_zero]
    rw [brEmit_natToBytes k (256 ^ k) 0 m h1 (by omega), List.range_eq_range']
  have hnd : ((List.range (256 ^ k)).map (natToBytes k)).Nodup := by
    refine List.Nodup.map_on ?_ (List.nodup_range _)
    intro x hx y hy hxy
    rw [List.mem_range] at hx hy
    exact natToBytes_inj k x y hx hy hxy
  rw [hchar]
  refine ⟨rfl, by simp, hnd, ?_, ?_, ?_, ?_⟩
  · intro v hv
    rw [List.mem_map] at hv
    obtain ⟨n, _, rfl⟩ := hv
    exact natToBytes_length k n
  · rw [List.pairwise_map]
    refine List.Pairwise.imp_of_mem ?_ (List.pairwise_lt_range _)
    intro a b ha hb hab
    rw [List.mem_range] at hb
    exact natToBytes_lex k a b hab hb
  · obtain ⟨M, hM⟩ : ∃ M, 256 ^ k = M + 1 := ⟨256 ^ k - 1, by omega⟩
    rw [hM, List.range_eq_range', List.range'_succ, List.map_cons, List.headD_cons,
        natToBytes_zero]
  · rw [List.mem_map]
    refine ⟨256 ^ k - 1, by rw [List.mem_range]; omega, ?_⟩
    rw [natToBytes, natToBytesLE_last, List.reverse_replicate]

theorem natSum_lens_eq_intSum (m : KMap) (hne : ∀ e ∈ m, e.2 ≠ []) :
    (((m.map (fun e => e.2.length - 1)).sum : Nat) : Int)
      = (m.map (fun e => max 0 ((e.2.length : Int) - 1))).sum := by
  induction m with
  | nil => simp
  | cons p rest ih =>
    have hp : p.2 ≠ [] := hne p (List.mem_cons_self _ _)
    have h1 : 1 ≤ p.2.length := List.length_pos.mpr hp
    have ih' := ih (fun e he => hne e (List.mem_cons_of_mem _ he))
    simp only [List.map_cons, List.sum_cons]
    have hmax : max 0 ((p.2.length : Int) - 1) = (p.2.length : Int) - 1 :=
      max_eq_right (by omega)
    rw [hmax, Nat.cast_add, Nat.cast_sub h1, ih']
    simp

/-- **C9**: for every collector state reachable by insertions, `count` returns
the sum over all buckets of `max(0, |bucket| - 1)`; buckets of size 1
contribute zero, and the subtraction never underflows because every bucket
created by an insertion holds at least one entry. -/
theorem C9_count_correct (entries : List (List Nat × List Nat)) :
    (∀ e ∈ entries.foldl (fun m p => insertMap m p.1 p.2) [], e.2 ≠ [])
    ∧ (countMap (entries.foldl (fun m p => insertMap m p.1 p.2) []) : Int)
        = ((entries.foldl (fun m p => insertMap m p.1 p.2) []).map
             (fun e => max 0 ((e.2.length : Int) - 1))).sum := by
  have hne := insertMap_nonempty entries
  refine ⟨hne, ?_⟩
  rw [countMap, countMap_shift _ 0 hne, Nat.zero_add]
  exact natSum_lens_eq_intSum _ hne

/-- **C3**: for every `k ∈ [1,14]` with `rows = 16 - k`, after the prefill
every row `r ∈ [1, rows]` satisfies `S[r][16] = S[r][32] = S[r][48]`; the
equality is preserved by every trial write, and a trial write touches only
columns `17..17+k` and `33..33+k` of row `rows`. -/
theorem C3_prefill_equalities (sbox sboxi : Nat → Nat) (k : Nat) (hk1 : 1 ≤ k)
    (hk2 : k ≤ 14) (r : Nat) (hr1 : 1 ≤ r) (hr2 : r ≤ 16 - k) :
    (get2 (createInitialState sbox sboxi k) r 16 = get2 (createInitialState sbox sboxi k) r 32
     ∧ get2 (createInitialState sbox sboxi k) r 32 = get2 (createInitialState sbox sboxi k) r 48)
    ∧ (∀ b : List Nat, b.length = k →
        get2 (writeTrial (16 - k) (createInitialState sbox sboxi k) b) r 16
           = get2 (writeTrial (16 - k) (createInitialState sbox sboxi k) b) r 32
         ∧ get2 (writeTrial (16 - k) (createInitialState sbox sboxi k) b) r 32
           = get2 (writeTrial (16 - k) (createInitialState sbox sboxi k) b) r 48)
    ∧ (∀ b : List Nat, b.length = k → ∀ r' c,
        ¬(r' = 16 - k ∧ ((17 ≤ c ∧ c < 17 + k) ∨ (33 ≤ c ∧ c < 33 + k))) →
        get2 (writeTrial (16 - k) (createInitialState sbox sboxi k) b) r' c
          = get2 (createInitialState sbox sboxi k) r' c) := by
  have hF := prefill_facts sbox sboxi k hk1 hk2
  have he32 := hF.eq32 r hr1 hr2
  have he48 := hF.eq48 r hr1 hr2
  have hfr : ∀ (b : List Nat), b.length = k → ∀ r' c,
      ¬(r' = 16 - k ∧ ((17 ≤ c ∧ c < 17 + k) ∨ (33 ≤ c ∧ c < 33 + k))) →
      get2 (writeTrial (16 - k) (createInitialState sbox sboxi k) b) r' c
        = get2 (createInitialState sbox sboxi k) r' c := by
    intro b hb r' c h
    refine get2_writeTrial_frame _ _ _ _ _ ?_
    rw [trialW, hb]
    exact h
  refine ⟨⟨he32.symm, by rw [he32, he48]⟩, ?_, hfr⟩
  intro b hb
  rw [hfr b hb r 16 (by omega), hfr b hb r 32 (by omega), hfr b hb r 48 (by omega)]
  exact ⟨he32.symm, by rw [he32, he48]⟩

/-- **C4**: after the forward walk completes the table for a trial, the
fingerprint is the ordered sequence of column-0 bytes of rows
`rows+2 .. 18`, and it has exactly `17 - rows` bytes. -/
theorem C4_fingerprint (sbox : Nat → Nat) (k : Nat) (hk1 : 1 ≤ k) (hk2 : k ≤ 14)
    (s : Tbl) (b : List Nat) :
    keyOf (fwdFill sbox (16 - k) (writeTrial (16 - k) s b)) (16 - k)
        = (List.range' (16 - k + 2) (17 - (16 - k))).map
            (fun r => get2 (fwdFill sbox (16 - k) (writeTrial (16 - k) s b)) r 0)
    ∧ (keyOf (fwdFill sbox (16 - k) (writeTrial (16 - k) s b)) (16 - k)).length
        = 17 - (16 - k) := by
  constructor
  · rw [keyOf, List.range'_eq_map_range, List.map_map]
    rfl
  · rw [keyOf, List.length_map, List.length_range]

/-- **C6**: in phase B of the prefill, the T3 triangle cell is computed from
T3's own columns: `S[row][48-col-1] = SBOXI[S[row][48-col] ^ S[row-1][48-col]]`. -/
theorem C6_t3_triangle (sbox sboxi : Nat → Nat) (k : Nat) (hk1 : 1 ≤ k) (hk2 : k ≤ 14)
    (col r : Nat) (hcol : col < 16 - k) (hr1 : 2 + col ≤ r) (hr2 : r ≤ 16 - k) :
    get2 (createInitialState sbox sboxi k) r (48 - col - 1)
      = sboxi (Nat.xor (get2 (createInitialState sbox sboxi k) r (48 - col))
                       (get2 (createInitialState sbox sboxi k) (r - 1) (48 - col))) :=
  (prefill_facts sbox sboxi k hk1 hk2).tri3 col r hcol hr1 hr2

/-! ### Shape-free frame lemmas for the two walks -/

theorem get2_fwdN_frame (sbox : Nat → Nat) (rows j : Nat) (s : Tbl) (r c : Nat)
    (h : ¬ fwdW rows j r c) : get2 (fwdN sbox rows j s) r c = get2 s r c := by
  rw [fwdN]
  refine foldl_get2_frame _ _ (fun r' c' => ¬ fwdW rows j r' c') ?_ s r c h
  intro s' i hi r' c' hP
  rw [List.mem_range'_1] at hi
  refine get2_fwdRow_frame sbox s' i r' c' ?_
  rw [fwdRowW]
  rw [fwdW] at hP
  omega

theorem get2_fwdFill_frame (sbox : Nat → Nat) (rows : Nat) (s : Tbl) (r c : Nat)
    (h : ¬ fwdW rows (17 - rows) r c) : get2 (fwdFill sbox rows s) r c = get2 s r c := by
  rw [fwdFill_eq_fwdN]
  exact get2_fwdN_frame sbox rows (17 - rows) s r c h

theorem get2_bwdN_frame (sbox : Nat → Nat) (m : Nat) (s : Tbl) (r c : Nat)
    (h : ¬(r < m ∧ 17 ≤ c ∧ c ≤ 32 - r)) : get2 (bwdN sbox m s) r c = get2 s r c := by
  rw [bwdN]
  refine foldl_get2_frame _ _ (fun r' c' => ¬(r' < m ∧ 17 ≤ c' ∧ c' ≤ 32 - r')) ?_ s r c h
  intro s' i hi r' c' hP
  rw [List.mem_reverse, List.mem_range'_1] at hi
  refine get2_bwdRow_frame sbox s' i r' c' (by omega) ?_
  omega

theorem get2_bwdFill_frame (sbox : Nat → Nat) (rows : Nat) (s : Tbl) (r c : Nat)
    (h : ¬(r < rows ∧ 17 ≤ c ∧ c ≤ 32 - r)) : get2 (bwdFill sbox rows s) r c = get2 s r c := by
  rw [bwdFill_eq_bwdN]
  exact get2_bwdN_frame sbox rows s r c h

/-- **C7 (amended)**: the forward walk mutates only columns 17..48 of row
`rows` together with rows above it; the backward walk mutates only columns
17..32 of rows `0..rows-1` together with the trial restore into columns
`17..17+k` and `33..33+k` of row `rows`; prefilled cells in columns 1..16 and
in column 0 (rows `0..rows+1`) are never overwritten by either walk. -/
theorem C7_walker_frames (sbox : Nat → Nat) (k : Nat) (hk1 : 1 ≤ k) (hk2 : k ≤ 14)
    (s : Tbl) (b : List Nat) (hb : b.length = k) :
    (∀ r c, ¬(r = 16 - k ∧ 17 ≤ c ∧ c ≤ 48) → r < 16 - k + 1 →
        get2 (fwdFill sbox (16 - k) (writeTrial (16 - k) s b)) r c = get2 s r c)
    ∧ (∀ r c, ¬(r < 16 - k ∧ 17 ≤ c ∧ c ≤ 32 - r) →
        ¬(r = 16 - k ∧ ((17 ≤ c ∧ c < 17 + k) ∨ (33 ≤ c ∧ c < 33 + k))) →
        get2 (bwdFill sbox (16 - k) (writeTrial (16 - k) s b)) r c = get2 s r c)
    ∧ (∀ r c, 1 ≤ r → r ≤ 16 - k → 1 ≤ c → c ≤ 16 →
        get2 (fwdFill sbox (16 - k) (writeTrial (16 - k) s b)) r c = get2 s r c
        ∧ get2 (bwdFill sbox (16 - k) (writeTrial (16 - k) s b)) r c = get2 s r c)
    ∧ (∀ r, r ≤ 16 - k + 1 →
        get2 (fwdFill sbox (16 - k) (writeTrial (16 - k) s b)) r 0 = get2 s r 0
        ∧ get2 (bwdFill sbox (16 - k) (writeTrial (16 - k) s b)) r 0 = get2 s r 0) := by
  have hwfr : ∀ r c, ¬ trialW (16 - k) b.length r c →
      get2 (writeTrial (16 - k) s b) r c = get2 s r c :=
    fun r c h => get2_writeTrial_frame _ _ _ _ _ h
  refine ⟨?_, ?_, ?_, ?_⟩
  · intro r c h1 h2
    rw [get2_fwdFill_frame _ _ _ _ _ (by rw [fwdW]; omega)]
    refine hwfr r c ?_
    rw [trialW, hb]
    omega
  · intro r c h1 h2
    rw [get2_bwdFill_frame _ _ _ _ _ h1]
    refine hwfr r c ?_
    rw [trialW, hb]
    omega
  · intro r c h1 h2 h3 h4
    constructor
    · rw [get2_fwdFill_frame _ _ _ _ _ (by rw [fwdW]; omega)]
      exact hwfr r c (by rw [trialW, hb]; omega)
    · rw [get2_bwdFill_frame _ _ _ _ _ (by omega)]
      exact hwfr r c (by rw [trialW, hb]; omega)
  · intro r h1
    constructor
    · rw [get2_fwdFill_frame _ _ _ _ _ (by rw [fwdW]; omega)]
      exact hwfr r 0 (by rw [trialW, hb]; omega)
    · rw [get2_bwdFill_frame _ _ _ _ _ (by omega)]
      exact hwfr r 0 (by rw [trialW, hb]; omega)

theorem byteId_byteFun : ByteFun byteId := fun x => Nat.mod_lt x (by omega)

theorem byteId_inverse : ∀ x, x < 256 → byteId (byteId x) = x := by
  intro x hx
  simp [byteId, Nat.mod_eq_of_lt hx]

set_option maxRecDepth 400000 in
/-- **C7 counterexample**: with the byte-identity S-box, `k = 1` and trial
`[1]`, the backward walk (which restores the trial bytes into row `rows`)
changes cell `(15, 33)` from 0 to 1 — a cell outside columns 17..32 of rows
`0..rows-1` — so the backward walk does not mutate only those cells. -/
theorem C7_counterexample :
    ¬ (∀ (r c : Nat), ¬(r < 16 - 1 ∧ 17 ≤ c ∧ c ≤ 32 - r) →
        get2 (bwdFill byteId (16 - 1)
            (writeTrial (16 - 1) (createInitialState byteId byteId 1) [1])) r c
          = get2 (createInitialState byteId byteId 1) r c) := by
  intro h
  exact absurd (h 15 33 (by omega)) (by decide)

theorem get2_applyOp_immune (sbox : Nat → Nat) (rows k : Nat) (s : Tbl) (op : WalkOp)
    (hop : OpOk k op) (r c : Nat) (h : opImmune rows k r c) :
    get2 (applyOp sbox rows s op) r c = get2 s r c := by
  obtain ⟨hf, hb, ht⟩ := h
  cases op with
  | fwd b =>
    have hlen : b.length = k := hop.1
    rw [applyOp, get2_fwdFill_frame _ _ _ _ _ hf,
        get2_writeTrial_frame _ _ _ _ _ (by rw [hlen]; exact ht)]
  | bwd b =>
    have hlen : b.length = k := hop.1
    rw [applyOp, get2_bwdFill_frame _ _ _ _ _ hb,
        get2_writeTrial_frame _ _ _ _ _ (by rw [hlen]; exact ht)]

theorem get2_applyOps_immune (sbox : Nat → Nat) (rows k : Nat) (ops : List WalkOp)
    (hops : ∀ op ∈ ops, OpOk k op) :
    ∀ (s : Tbl) (r c : Nat), opImmune rows k r c →
      get2 (applyOps sbox rows s ops) r c = get2 s r c := by
  induction ops with
  | nil => intro s r c _; rfl
  | cons op rest ih =>
    intro s r c h
    rw [applyOps, List.foldl_cons]
    have := ih (fun o ho => hops o (List.mem_cons_of_mem _ ho)) (applyOp sbox rows s op) r c h
    rw [applyOps] at this
    rw [this]
    exact get2_applyOp_immune sbox rows k s op (hops op (List.mem_cons_self _ _)) r c h

theorem shape_applyOp (sbox : Nat → Nat) (rows : Nat) (s : Tbl) (op : WalkOp)
    (hs : Shape s) : Shape (applyOp sbox rows s op) := by
  cases op with
  | fwd b =>
    rw [applyOp, fwdFill_eq_fwdN, fwdN]
    exact foldl_pres Shape _ _ (fun s i _ hq => shape_fwdRow sbox s i hq) _
      (shape_writeTrial _ _ _ hs)
  | bwd b =>
    rw [applyOp, bwdFill_eq_bwdN, bwdN]
    exact foldl_pres Shape _ _ (fun s i _ hq => shape_bwdRow sbox s i hq) _
      (shape_writeTrial _ _ _ hs)

theorem bdd_applyOp (sbox : Nat → Nat) (hbox : ByteFun sbox) (rows : Nat) (s : Tbl)
    (op : WalkOp) (hbv : ByteVec op.bytes) (hs : Bdd s) : Bdd (applyOp sbox rows s op) := by
  cases op with
  | fwd b =>
    rw [applyOp, fwdFill_eq_fwdN, fwdN]
    exact foldl_pres Bdd _ _ (fun s i _ hq => bdd_fwdRow sbox hbox s i hq) _
      (bdd_writeTrial _ _ _ hbv hs)
  | bwd b =>
    rw [applyOp, bwdFill_eq_bwdN, bwdN]
    exact foldl_pres Bdd _ _ (fun s i _ hq => bdd_bwdRow sbox hbox s i hq) _
      (bdd_writeTrial _ _ _ hbv hs)

theorem stateOk_initial (sbox sboxi : Nat → Nat) (hbox : ByteFun sbox)
    (hboxi : ByteFun sboxi) (k : Nat) :
    StateOk sbox sboxi k (createInitialState sbox sboxi k) :=
  ⟨shape_createInitialState sbox sboxi k,
   bdd_createInitialState sbox sboxi hbox hboxi k,
   fun _ _ _ => rfl⟩

theorem stateOk_applyOp (sbox sboxi : Nat → Nat) (hbox : ByteFun sbox) (k : Nat)
    {s : Tbl} (hs : StateOk sbox sboxi k s) (op : WalkOp) (hop : OpOk k op) :
    StateOk sbox sboxi k (applyOp sbox (16 - k) s op) := by
  refine ⟨shape_applyOp _ _ _ _ hs.shape, bdd_applyOp _ hbox _ _ _ hop.2 hs.bdd, ?_⟩
  intro r c h
  rw [get2_applyOp_immune sbox (16 - k) k s op hop r c h]
  exact hs.agree r c h

theorem stateOk_applyOps (sbox sboxi : Nat → Nat) (hbox : ByteFun sbox) (k : Nat)
    (ops : List WalkOp) (hops : ∀ op ∈ ops, OpOk k op) :
    ∀ {s : Tbl}, StateOk sbox sboxi k s →
      StateOk sbox sboxi k (applyOps sbox (16 - k) s ops) := by
  induction ops with
  | nil => intro s hs; exact hs
  | cons op rest ih =>
    intro s hs
    rw [applyOps, List.foldl_cons]
    exact ih (fun o ho => hops o (List.mem_cons_of_mem _ ho))
      (stateOk_applyOp sbox sboxi hbox k hs op (hops op (List.mem_cons_self _ _)))

/-! ### Pointwise access to the MD2 round -/

theorem mdRound_length (sbox : Nat → Nat) : ∀ (t : Nat) (x : List Nat),
    (mdRound sbox t x).length = x.length := by
  intro t x
  induction x generalizing t with
  | nil => rfl
  | cons y ys ih => simp [mdRound, ih]

theorem mdRound_lt (sbox : Nat → Nat) (hbox : ByteFun sbox) : ∀ (t : Nat) (x : List Nat),
    (∀ v ∈ x, v < 256) → ∀ v ∈ mdRound sbox t x, v < 256 := by
  intro t x
  induction x generalizing t with
  | nil => intro _ v hv; simp [mdRound] at hv
  | cons y ys ih =>
    intro hx v hv
    rw [mdRound] at hv
    rcases List.mem_cons.mp hv with h | h
    · subst h
      exact Nat.xor_lt_two_pow (n := 8) (hx y (List.mem_cons_self _ _)) (hbox t)
    · exact ih _ (fun w hw => hx w (List.mem_cons_of_mem _ hw)) v h

theorem mdRound_getD (sbox : Nat → Nat) : ∀ (x : List Nat) (t j : Nat), j < x.length →
    lGetD 0 (mdRound sbox t x) j
      = Nat.xor (lGetD 0 x j)
          (sbox (if j = 0 then t else lGetD 0 (mdRound sbox t x) (j - 1))) := by
  intro x
  induction x with
  | nil => intro t j h; simp at h
  | cons y ys ih =>
    intro t j h
    cases j with
    | zero =>
      simp [mdRound, lGetD]
    | succ i =>
      simp only [mdRound, lGetD, if_neg (Nat.succ_ne_zero i)]
      have hlen : i < ys.length := by simpa using h
      rw [ih _ i hlen]
      congr 2
      cases i with
      | zero => simp [lGetD, mdRound]
      | succ i' => simp [lGetD]

theorem trajX_zero (sbox : Nat → Nat) (x0 : List Nat) : trajX sbox x0 0 = x0 := rfl

theorem trajT_zero (sbox : Nat → Nat) (x0 : List Nat) : trajT sbox x0 0 = 0 := rfl

theorem trajX_succ (sbox : Nat → Nat) (x0 : List Nat) (j : Nat) :
    trajX sbox x0 (j + 1) = mdRound sbox (trajT sbox x0 j) (trajX sbox x0 j) := rfl

theorem trajT_succ (sbox : Nat → Nat) (x0 : List Nat) (j : Nat) :
    trajT sbox x0 (j + 1) = (lGetD 0 (trajX sbox x0 (j + 1)) 47 + j) % 256 := rfl

theorem trajX_length (sbox : Nat → Nat) (x0 : List Nat) :
    ∀ j, (trajX sbox x0 j).length = x0.length := by
  intro j
  induction j with
  | zero => rfl
  | succ n ih => rw [trajX_succ, mdRound_length, ih]

theorem trajX_lt (sbox : Nat → Nat) (hbox : ByteFun sbox) (x0 : List Nat)
    (hx : ∀ v ∈ x0, v < 256) : ∀ j, ∀ v ∈ trajX sbox x0 j, v < 256 := by
  intro j
  induction j with
  | zero => exact hx
  | succ n ih => rw [trajX_succ]; exact mdRound_lt sbox hbox _ _ ih

theorem zipWith_xor_zero : ∀ (n : Nat) (m : List Nat), m.length = n →
    List.zipWith Nat.xor (List.replicate n 0) m = m := by
  intro n
  induction n with
  | zero => intro m hm; rw [List.eq_nil_of_length_eq_zero hm]; rfl
  | succ j ih =>
    intro m hm
    cases m with
    | nil => simp at hm
    | cons x xs =>
      rw [List.replicate_succ, List.zipWith_cons_cons, ih xs (by simpa using hm)]
      have hz : Nat.xor 0 x = x := Nat.zero_xor x
      rw [hz]

theorem md2_compress_zero_eq (sbox : Nat → Nat) (m : List Nat) (hm : m.length = 16) :
    md2_compress sbox (List.replicate 16 0) m
      = (trajX sbox (List.replicate 16 0 ++ m ++ m) 18).take 16 := by
  rw [md2_compress, trajX, zipWith_xor_zero 16 m hm]

/-! ### The prefilled state's T2/T3 mirror symmetry -/

theorem prefill_mirror (sbox sboxi : Nat → Nat) (k : Nat) (hk1 : 1 ≤ k) (hk2 : k ≤ 14) :
    ∀ d, d ≤ 15 → ∀ r, r ≤ 16 - k →
      get2 (createInitialState sbox sboxi k) r (48 - d)
        = get2 (createInitialState sbox sboxi k) r (32 - d) := by
  have hF := prefill_facts sbox sboxi k hk1 hk2
  intro d
  induction d with
  | zero =>
    intro _ r hr
    rcases Nat.eq_zero_or_pos r with hr0 | hr0
    · subst hr0
      rw [hF.row0, hF.row0]
    · rw [hF.eq48 r hr0 hr, hF.eq32 r hr0 hr]
  | succ e ih =>
    intro hd r hr
    rcases Nat.eq_zero_or_pos r with hr0 | hr0
    · subst hr0
      rw [hF.row0, hF.row0]
    · by_cases hz : 32 - (e + 1) ≤ 32 - r
      · -- both cells are in the untouched zero zone
        rw [hF.zeroT2 r (32 - (e + 1)) hr0 hr (by omega) (by omega),
            hF.zeroT3 r (48 - (e + 1)) hr0 hr (by omega) (by omega)]
      · -- both cells are triangle cells of column `e`
        have hrge : 2 + e ≤ r := by omega
        have h2 := hF.tri2 e r (by omega) hrge hr
        have h3 := hF.tri3 e r (by omega) hrge hr
        have hc2 : 32 - e - 1 = 32 - (e + 1) := by omega
        have hc3 : 48 - e - 1 = 48 - (e + 1) := by omega
        rw [hc2] at h2
        rw [hc3] at h3
        rw [h2, h3, ih (by omega) r hr, ih (by omega) (r - 1) (by omega)]

/-! ### Facts of the table after a message-recovery walk -/

theorem xor_left_cancel (b c : Nat) : Nat.xor b (Nat.xor b c) = c := by
  show b ^^^ (b ^^^ c) = c
  rw [← Nat.xor_assoc, Nat.xor_self, Nat.zero_xor]

theorem xor_cancel_right (a b : Nat) : Nat.xor (Nat.xor a b) b = a := by
  show (a ^^^ b) ^^^ b = a
  rw [Nat.xor_assoc, Nat.xor_self, Nat.xor_zero]

theorem xor_rotate {a b c : Nat} (h : a = Nat.xor b c) : c = Nat.xor b a := by
  subst h
  rw [xor_left_cancel]

theorem bwdReady_of_stateOk (sbox sboxi : Nat → Nat) (hbox : ByteFun sbox)
    (hinv : ∀ x, x < 256 → sbox (sboxi x) = x)
    (k : Nat) (hk1 : 1 ≤ k) (hk2 : k ≤ 14) (s : Tbl) (hs : StateOk sbox sboxi k s)
    (b : List Nat) (hb : b.length = k) (hbv : ByteVec b) :
    BwdReady sbox (16 - k) (bwdFill sbox (16 - k) (writeTrial (16 - k) s b)) := by
  have hF := prefill_facts sbox sboxi k hk1 hk2
  set rows : Nat := 16 - k with hrows
  have hrows2 : 2 ≤ rows := by omega
  have hrows15 : rows ≤ 15 := by omega
  set W : Tbl := bwdFill sbox rows (writeTrial rows s b) with hW
  -- transport of op-immune cells down to the prefilled state
  have himm : ∀ r c, opImmune rows k r c →
      get2 W r c = get2 (createInitialState sbox sboxi k) r c := by
    intro r c h
    have h1 : get2 W r c = get2 s r c := by
      rw [hW]
      exact get2_applyOp_immune sbox rows k s (WalkOp.bwd b) ⟨hb, hbv⟩ r c h
    rw [h1]
    exact hs.agree r c h
  have hWt : Shape (writeTrial rows s b) := shape_writeTrial _ _ _ hs.shape
  have hWsh : Shape W := by
    rw [hW, bwdFill_eq_bwdN, bwdN]
    exact foldl_pres Shape _ _ (fun s i _ hq => shape_bwdRow sbox s i hq) _ hWt
  have hWbdd : Bdd W := by
    rw [hW]
    exact bdd_applyOp sbox hbox rows s (WalkOp.bwd b) hbv hs.bdd
  have hwalk := bwdN_facts sbox rows (by omega) (writeTrial rows s b) hWt
  -- immune-cell classification used repeatedly below
  have himmLow : ∀ r c, r ≤ rows → c ≤ 16 → opImmune rows k r c := by
    intro r c h1 h2
    rw [opImmune, fwdW, trialW]
    omega
  have himm48 : ∀ r, r ≤ rows → opImmune rows k r 48 := by
    intro r h1
    rw [opImmune, fwdW, trialW]
    omega
  have himm32 : ∀ r, 1 ≤ r → r ≤ rows → opImmune rows k r 32 := by
    intro r h0 h1
    rw [opImmune, fwdW, trialW]
    omega
  have himmT : ∀ r, r ≤ rows + 1 → opImmune rows k r 0 := by
    intro r h1
    rw [opImmune, fwdW, trialW]
    omega
  have himmTri : ∀ r c, 1 ≤ r → r ≤ rows → 33 - r ≤ c → c ≤ 31 → opImmune rows k r c := by
    intro r c h1 h2 h3 h4
    rw [opImmune, fwdW, trialW]
    omega
  refine ⟨hWsh, hWbdd, ?_, ?_, ?_, ?_, ?_, ?_, ?_⟩
  · -- T1 recurrence
    intro r c h1 h2 h3 h4
    rw [himm r c (himmLow r c h2 (by omega)),
        himm r (c - 1) (himmLow r (c - 1) h2 (by omega)),
        himm (r - 1) c (himmLow (r - 1) c (by omega) (by omega))]
    exact hF.t1 r c h1 h2 h3 h4
  · intro r h1 h2
    rw [himm r 32 (himm32 r h1 h2), himm r 16 (himmLow r 16 h2 (by omega))]
    exact hF.eq32 r h1 h2
  · intro r h1 h2
    rw [himm r 48 (himm48 r h2), himm r 16 (himmLow r 16 h2 (by omega))]
    exact hF.eq48 r h1 h2
  · intro r h1 h2
    rw [himm r 0 (himmT r h2), himm (r - 1) 48 (himm48 (r - 1) (by omega))]
    exact hF.tcol r h1 h2
  · rw [himm 1 0 (himmT 1 (by omega))]
    exact hF.tcol1
  · intro c hc
    rw [himm 0 c (himmLow 0 c (by omega) hc)]
    exact hF.row0 c
  · -- T2 recurrence, walk and triangle zones
    intro r c h1 h2 h3 h4
    by_cases hzone : c ≤ 33 - r
    · -- walk zone: invert the backward write
      have hrec := hwalk.recur r c h1 h2 h3 hzone
      rw [hW, bwdFill_eq_bwdN]
      exact xor_rotate hrec
    · -- triangle zone: the prefilled triangle equation, pushed through sbox
      have hcol : 34 - r ≤ c := by omega
      have htri := hF.tri2 (32 - c) r (by omega) (by omega) h2
      have hc1 : 32 - (32 - c) - 1 = c - 1 := by omega
      have hc2 : 32 - (32 - c) = c := by omega
      rw [hc1, hc2] at htri
      -- every cell of the triangle equation is op-immune
      have e1 : get2 W r (c - 1) = get2 (createInitialState sbox sboxi k) r (c - 1) := by
        rcases Nat.lt_or_ge (c - 1) 32 with hh | hh
        · exact himm r (c - 1) (himmTri r (c - 1) h1 h2 (by omega) (by omega))
        · have : c - 1 = 32 := by omega
          rw [this]
          exact himm r 32 (himm32 r h1 h2)
      have e2 : get2 W r c = get2 (createInitialState sbox sboxi k) r c := by
        rcases Nat.lt_or_ge c 32 with hh | hh
        · exact himm r c (himmTri r c h1 h2 (by omega) (by omega))
        · have : c = 32 := by omega
          rw [this]
          exact himm r 32 (himm32 r h1 h2)
      have e3 : get2 W (r - 1) c = get2 (createInitialState sbox sboxi k) (r - 1) c := by
        have hr1 : 1 ≤ r - 1 := by omega
        rcases Nat.lt_or_ge c 32 with hh | hh
        · exact himm (r - 1) c (himmTri (r - 1) c hr1 (by omega) (by omega) (by omega))
        · have : c = 32 := by omega
          rw [this]
          exact himm (r - 1) 32 (himm32 (r - 1) hr1 (by omega))
      rw [e1, e2, e3]
      -- apply sbox to the triangle equation and rearrange; the xor of two
      -- table bytes is a byte (bounds come from `W`, which stores the same values)
      have hlt2 : get2 (createInitialState sbox sboxi k) r c < 256 := by
        rw [← e2]; exact get2_lt hWbdd r c
      have hlt3 : get2 (createInitialState sbox sboxi k) (r - 1) c < 256 := by
        rw [← e3]; exact get2_lt hWbdd (r - 1) c
      have hxlt : Nat.xor (get2 (createInitialState sbox sboxi k) r c)
          (get2 (createInitialState sbox sboxi k) (r - 1) c) < 256 :=
        Nat.xor_lt_two_pow (n := 8) hlt2 hlt3
      have hsbox : sbox (get2 (createInitialState sbox sboxi k) r (c - 1))
          = Nat.xor (get2 (createInitialState sbox sboxi k) r c)
              (get2 (createInitialState sbox sboxi k) (r - 1) c) := by
        rw [htri]
        exact hinv _ hxlt
      rw [hsbox]
      exact (xor_cancel_right _ _).symm

/-! ### The trajectory of the recovered message agrees with the table -/

theorem xor_comm' (a b : Nat) : Nat.xor a b = Nat.xor b a := Nat.xor_comm a b

theorem lGetD_append_left {α : Type} (d : α) (a b : List α) (i : Nat) (h : i < a.length) :
    lGetD d (a ++ b) i = lGetD d a i := by
  induction a generalizing i with
  | nil => simp at h
  | cons x xs ih =>
    cases i with
    | zero => rfl
    | succ j =>
      simp only [List.length_cons, Nat.succ_lt_succ_iff] at h
      simpa [lGetD] using ih j h

theorem lGetD_append_right {α : Type} (d : α) (a b : List α) (i : Nat) (h : a.length ≤ i) :
    lGetD d (a ++ b) i = lGetD d b (i - a.length) := by
  induction a generalizing i with
  | nil => simp
  | cons x xs ih =>
    cases i with
    | zero => simp at h
    | succ j =>
      simp only [List.length_cons, Nat.succ_le_succ_iff] at h
      simpa [lGetD] using ih j h

theorem lGetD_map_range' (f : Nat → Nat) : ∀ (n s i : Nat), i < n →
    lGetD 0 ((List.range' s n).map f) i = f (s + i) := by
  intro n
  induction n with
  | zero => intro s i h; omega
  | succ m ih =>
    intro s i h
    rw [List.range'_succ, List.map_cons]
    cases i with
    | zero => rfl
    | succ j =>
      have := ih (s + 1) j (by omega)
      simp only [lGetD]
      rw [this]
      congr 1
      omega

theorem lGetD_replicate_lt {α : Type} (d a : α) : ∀ (n i : Nat), i < n →
    lGetD d (List.replicate n a) i = a := by
  intro n
  induction n with
  | zero => intro i h; omega
  | succ m ih =>
    intro i h
    rw [List.replicate_succ]
    cases i with
    | zero => rfl
    | succ j => exact ih j (by omega)

theorem msgOf_length (W : Tbl) : (msgOf W).length = 16 := by
  rw [msgOf, List.length_map]
  simp

theorem msgOf_getD (W : Tbl) (i : Nat) (h : i < 16) :
    lGetD 0 (msgOf W) i = get2 W 0 (17 + i) := by
  rw [msgOf, lGetD_map_range' _ 16 17 i h]

theorem msgOf_lt (W : Tbl) (hb : Bdd W) : ∀ v ∈ msgOf W, v < 256 := by
  intro v hv
  rw [msgOf, List.mem_map] at hv
  obtain ⟨r, _, rfl⟩ := hv
  exact get2_lt hb _ _

theorem x0Of_length (W : Tbl) : (x0Of W).length = 48 := by
  rw [x0Of]
  simp [msgOf_length]

theorem x0Of_lt (W : Tbl) (hb : Bdd W) : ∀ v ∈ x0Of W, v < 256 := by
  intro v hv
  rw [x0Of] at hv
  rcases List.mem_append.mp hv with h | h
  · rcases List.mem_append.mp h with h2 | h2
    · rw [List.eq_of_mem_replicate h2]; omega
    · exact msgOf_lt W hb v h2
  · exact msgOf_lt W hb v h

theorem x0Of_getD_low (W : Tbl) (i : Nat) (h : i ≤ 15) : lGetD 0 (x0Of W) i = 0 := by
  rw [x0Of, lGetD_append_left _ _ _ i (by simp [msgOf_length]; omega),
      lGetD_append_left _ _ _ i (by simp; omega), lGetD_replicate_lt _ _ 16 i (by omega)]

theorem x0Of_getD_mid (W : Tbl) (i : Nat) (h1 : 16 ≤ i) (h2 : i ≤ 31) :
    lGetD 0 (x0Of W) i = get2 W 0 (i + 1) := by
  rw [x0Of, lGetD_append_left _ _ _ i (by simp [msgOf_length]; omega),
      lGetD_append_right _ _ _ i (by simp; omega)]
  have hlen : (List.replicate 16 (0 : Nat)).length = 16 := by simp
  rw [hlen, msgOf_getD W (i - 16) (by omega)]
  congr 1
  omega

theorem x0Of_getD_high (W : Tbl) (i : Nat) (h1 : 32 ≤ i) (h2 : i ≤ 47) :
    lGetD 0 (x0Of W) i = get2 W 0 (i - 15) := by
  rw [x0Of, lGetD_append_right _ _ _ i (by simp [msgOf_length]; omega)]
  have hlen : (List.replicate 16 (0 : Nat) ++ msgOf W).length = 32 := by
    simp [msgOf_length]
  rw [hlen, msgOf_getD W (i - 32) (by omega)]
  congr 1
  omega

/-- Master upward agreement: for a `BwdReady` table `W` with recovered message
`m`, the genuine MD2 trajectory of `m` from the zero state reproduces the
table's columns 1..32 on every row up to `rows`, mirrors T2 into T3, and
reproduces the t column. -/
theorem traj_agrees (sbox : Nat → Nat) (rows : Nat) (W : Tbl) (hR : BwdReady sbox rows W) :
    ∀ r, r ≤ rows →
      (∀ i, i ≤ 31 → lGetD 0 (trajX sbox (x0Of W) r) i = get2 W r (i + 1))
      ∧ (∀ i, 16 ≤ i → i ≤ 31 →
          lGetD 0 (trajX sbox (x0Of W) r) (i + 16) = lGetD 0 (trajX sbox (x0Of W) r) i)
      ∧ trajT sbox (x0Of W) r = get2 W (r + 1) 0 := by
  intro r
  induction r with
  | zero =>
    intro _
    refine ⟨?_, ?_, ?_⟩
    · intro i hi
      rw [trajX_zero]
      rcases Nat.lt_or_ge i 16 with h16 | h16
      · rw [x0Of_getD_low W i (by omega), hR.row0 (i + 1) (by omega)]
      · rw [x0Of_getD_mid W i h16 hi]
    · intro i h1 h2
      rw [trajX_zero, x0Of_getD_mid W i h1 h2, x0Of_getD_high W (i + 16) (by omega) (by omega)]
      have hc : i + 16 - 15 = i + 1 := by omega
      rw [hc]
    · rw [trajT_zero, hR.tcol1]
  | succ n ih =>
    intro hr
    obtain ⟨ih1, ih2, ih3⟩ := ih (by omega)
    have hlen : (trajX sbox (x0Of W) n).length = 48 := by
      rw [trajX_length, x0Of_length]
    -- columns 1..32 of the new row
    have hP1 : ∀ i, i ≤ 31 →
        lGetD 0 (trajX sbox (x0Of W) (n + 1)) i = get2 W (n + 1) (i + 1) := by
      intro i
      induction i with
      | zero =>
        intro _
        rw [trajX_succ, mdRound_getD sbox _ _ 0 (by omega), if_pos rfl]
        rw [ih3, ih1 0 (by omega)]
        show Nat.xor (get2 W n 1) (sbox (get2 W (n + 1) 0)) = get2 W (n + 1) 1
        rw [hR.t1 (n + 1) 1 (by omega) hr (by omega) (by omega)]
        rw [xor_comm']
        rfl
      | succ j ihj =>
        intro hj31
        rw [trajX_succ, mdRound_getD sbox _ _ (j + 1) (by omega),
            if_neg (Nat.succ_ne_zero j), ← trajX_succ]
        have hjj : j + 1 - 1 = j := by omega
        rw [hjj, ihj (by omega), ih1 (j + 1) hj31]
        have hrec : get2 W (n + 1) (j + 1 + 1)
            = Nat.xor (sbox (get2 W (n + 1) (j + 1))) (get2 W n (j + 1 + 1)) := by
          rcases Nat.lt_or_ge (j + 1) 16 with h16 | h16
          · have := hR.t1 (n + 1) (j + 2) (by omega) hr (by omega) (by omega)
            have hc : j + 2 - 1 = j + 1 := by omega
            rw [hc] at this
            have hc2 : n + 1 - 1 = n := by omega
            rw [hc2] at this
            exact this
          · have := hR.t2 (n + 1) (j + 2) (by omega) hr (by omega) (by omega)
            have hc : j + 2 - 1 = j + 1 := by omega
            rw [hc] at this
            have hc2 : n + 1 - 1 = n := by omega
            rw [hc2] at this
            exact this
        rw [hrec, xor_comm']
    -- the T3 mirror of the new row
    have hP2 : ∀ i, 16 ≤ i → i ≤ 31 →
        lGetD 0 (trajX sbox (x0Of W) (n + 1)) (i + 16)
          = lGetD 0 (trajX sbox (x0Of W) (n + 1)) i := by
      intro i
      induction i with
      | zero => intro h _; omega
      | succ j ihj =>
        intro h16 h31
        rw [trajX_succ, mdRound_getD sbox _ _ (j + 1 + 16) (by omega),
            mdRound_getD sbox _ _ (j + 1) (by omega),
            if_neg (by omega), if_neg (Nat.succ_ne_zero j), ← trajX_succ]
        have ha : lGetD 0 (trajX sbox (x0Of W) n) (j + 1 + 16)
            = lGetD 0 (trajX sbox (x0Of W) n) (j + 1) := ih2 (j + 1) h16 h31
        rw [ha]
        congr 2
        have hc : j + 1 + 16 - 1 = j + 16 := by omega
        have hc2 : j + 1 - 1 = j := by omega
        rw [hc, hc2]
        by_cases hj15 : j = 15
        · subst hj15
          -- boundary: columns 32 and 16 of the table coincide
          rw [hP1 31 (by omega), hP1 15 (by omega)]
          show get2 W (n + 1) 32 = get2 W (n + 1) 16
          exact hR.eq32 (n + 1) (by omega) hr
        · exact ihj (by omega) (by omega)
    -- the t column of the new row
    have hP3 : trajT sbox (x0Of W) (n + 1) = get2 W (n + 1 + 1) 0 := by
      rw [trajT_succ]
      have h47 : lGetD 0 (trajX sbox (x0Of W) (n + 1)) 47 = get2 W (n + 1) 48 := by
        have hm := hP2 31 (by omega) (by omega)
        rw [show (47 : Nat) = 31 + 16 from rfl, hm, hP1 31 (by omega)]
        rw [hR.eq32 (n + 1) (by omega) hr, ← hR.eq48 (n + 1) (by omega) hr]
      rw [h47, hR.tcol (n + 2) (by omega) (by omega)]
      have hc : n + 2 - 1 = n + 1 := by omega
      rw [hc]
      omega
    exact ⟨hP1, hP2, hP3⟩

/-! ### Determinism of the walks -/

theorem lGetD_map_range (f : Nat → Nat) (n i : Nat) (h : i < n) :
    lGetD 0 ((List.range n).map f) i = f i := by
  rw [List.range_eq_range', lGetD_map_range' f n 0 i h]
  rw [Nat.zero_add]

theorem lists_eq_of_lGetD : ∀ (l l' : List Nat), l.length = l'.length →
    (∀ i, i < l.length → lGetD 0 l i = lGetD 0 l' i) → l = l' := by
  intro l
  induction l with
  | nil =>
    intro l' hl _
    exact (List.eq_nil_of_length_eq_zero hl.symm).symm
  | cons x xs ih =>
    intro l' hl hp
    cases l' with
    | nil => simp at hl
    | cons y ys =>
      have hx : x = y := hp 0 (by simp)
      have hxs : xs = ys := by
        refine ih ys (by simpa using hl) ?_
        intro i hi
        exact hp (i + 1) (by simp; omega)
      rw [hx, hxs]

theorem lGetD_take : ∀ (l : List Nat) (n i : Nat), i < n →
    lGetD 0 (l.take n) i = lGetD 0 l i := by
  intro l
  induction l with
  | nil => intro n i _; rw [List.take_nil]
  | cons x xs ih =>
    intro n i h
    cases n with
    | zero => omega
    | succ m =>
      rw [List.take_succ_cons]
      cases i with
      | zero => rfl
      | succ j => exact ih m j (by omega)

theorem lGetD_drop : ∀ (l : List Nat) (n i : Nat), lGetD 0 (l.drop n) i = lGetD 0 l (n + i) := by
  intro l
  induction l with
  | nil => intro n i; rw [List.drop_nil]; rfl
  | cons x xs ih =>
    intro n i
    cases n with
    | zero => rw [List.drop_zero, Nat.zero_add]
    | succ m =>
      rw [List.drop_succ_cons, ih m i]
      have harith : m + 1 + i = (m + i) + 1 := by omega
      rw [harith]
      rfl

/-- Two tables agreeing on the operation-immune cells carry the identical
row `rows` after the same trial write. -/
theorem writeTrial_row_agree (k : Nat) (hk1 : 1 ≤ k) (hk2 : k ≤ 14)
    (s s' : Tbl) (hs : Shape s) (hs' : Shape s')
    (hag : ∀ r c, opImmune (16 - k) k r c → get2 s r c = get2 s' r c)
    (b : List Nat) (hb : b.length = k) :
    ∀ c, c ≤ 48 →
      get2 (writeTrial (16 - k) s b) (16 - k) c
        = get2 (writeTrial (16 - k) s' b) (16 - k) c := by
  intro c hc
  by_cases h17 : 17 ≤ c ∧ c < 17 + k
  · have hi : c - 17 < b.length := by omega
    have h1 := get2_writeTrial_eq17 (16 - k) s b (c - 17) hs (by omega) (by omega) hi
    have h1' := get2_writeTrial_eq17 (16 - k) s' b (c - 17) hs' (by omega) (by omega) hi
    have hcc : 17 + (c - 17) = c := by omega
    rw [hcc] at h1 h1'
    rw [h1, h1']
  · by_cases h33 : 33 ≤ c ∧ c < 33 + k
    · have hi : c - 33 < b.length := by omega
      have h1 := get2_writeTrial_eq33 (16 - k) s b (c - 33) hs (by omega) (by omega) hi
      have h1' := get2_writeTrial_eq33 (16 - k) s' b (c - 33) hs' (by omega) (by omega) hi
      have hcc : 33 + (c - 33) = c := by omega
      rw [hcc] at h1 h1'
      rw [h1, h1']
    · have hfr : ¬ trialW (16 - k) b.length (16 - k) c := by
        rw [trialW, hb]; omega
      rw [get2_writeTrial_frame _ _ _ _ _ hfr, get2_writeTrial_frame _ _ _ _ _ hfr]
      exact hag _ _ ⟨by rw [fwdW]; omega, by omega, by rw [trialW]; omega⟩

/-- The forward walk is deterministic: two tables agreeing on the
operation-immune cells produce identical walked rows (and final t byte) for
the same trial. -/
theorem fwd_agree (sbox : Nat → Nat) (k : Nat) (hk1 : 1 ≤ k) (hk2 : k ≤ 14)
    (s s' : Tbl) (hs : Shape s) (hs' : Shape s')
    (hag : ∀ r c, opImmune (16 - k) k r c → get2 s r c = get2 s' r c)
    (b : List Nat) (hb : b.length = k) :
    (∀ r, 16 - k + 1 ≤ r → r ≤ 17 → ∀ c, c ≤ 48 →
      get2 (fwdFill sbox (16 - k) (writeTrial (16 - k) s b)) r c
        = get2 (fwdFill sbox (16 - k) (writeTrial (16 - k) s' b)) r c)
    ∧ get2 (fwdFill sbox (16 - k) (writeTrial (16 - k) s b)) 18 0
        = get2 (fwdFill sbox (16 - k) (writeTrial (16 - k) s' b)) 18 0 := by
  have hrows1 : 1 ≤ 16 - k := by omega
  have hTsh : Shape (writeTrial (16 - k) s b) := shape_writeTrial _ _ _ hs
  have hTsh' : Shape (writeTrial (16 - k) s' b) := shape_writeTrial _ _ _ hs'
  have hrow := writeTrial_row_agree k hk1 hk2 s s' hs hs' hag b hb
  have hF := fwdN_facts sbox (16 - k) hrows1 (17 - (16 - k)) (by omega) _ hTsh
  have hF' := fwdN_facts sbox (16 - k) hrows1 (17 - (16 - k)) (by omega) _ hTsh'
  simp only [fwdFill_eq_fwdN]
  set F : Tbl := fwdN sbox (16 - k) (17 - (16 - k)) (writeTrial (16 - k) s b) with hFdef
  set F' : Tbl := fwdN sbox (16 - k) (17 - (16 - k)) (writeTrial (16 - k) s' b) with hFdef'
  clear_value F F'
  have hbase : ∀ c, c ≤ 48 → get2 F (16 - k) c = get2 F' (16 - k) c := by
    intro c hc
    rw [hF.frame (16 - k) c (by rw [fwdW]; omega), hF'.frame (16 - k) c (by rw [fwdW]; omega)]
    exact hrow c hc
  have hQ : ∀ r, r ≤ 17 → 16 - k + 1 ≤ r → ∀ c, c ≤ 48 → get2 F r c = get2 F' r c := by
    intro r
    induction r with
    | zero => intro _ hge; omega
    | succ m ihm =>
      intro h17 hge
      have hprev : ∀ c', c' ≤ 48 → get2 F m c' = get2 F' m c' := by
        rcases Nat.lt_or_ge m (16 - k + 1) with hm | hm
        · have hmr : m = 16 - k := by omega
          intro c' hc'
          rw [hmr]
          exact hbase c' hc'
        · exact fun c' hc' => ihm (by omega) hm c' hc'
      intro c
      induction c with
      | zero =>
        intro _
        rcases Nat.lt_or_ge (m + 1) (16 - k + 2) with hm2 | hm2
        · rw [hF.frame (m + 1) 0 (by rw [fwdW]; omega),
              hF'.frame (m + 1) 0 (by rw [fwdW]; omega),
              get2_writeTrial_frame _ _ _ _ _ (by rw [trialW, hb]; omega),
              get2_writeTrial_frame _ _ _ _ _ (by rw [trialW, hb]; omega)]
          exact hag _ _ ⟨by rw [fwdW]; omega, by omega, by rw [trialW]; omega⟩
        · have ht := hF.tcolF m (by omega) (by omega)
          have ht' := hF'.tcolF m (by omega) (by omega)
          rw [ht, ht', hprev 48 (by omega)]
      | succ c2 ihc =>
        intro hc
        have hr1 := hF.recur (m + 1) (c2 + 1) hge (by omega) (by omega) (by omega)
        have hr2 := hF'.recur (m + 1) (c2 + 1) hge (by omega) (by omega) (by omega)
        rw [hr1, hr2]
        have hcc : c2 + 1 - 1 = c2 := by omega
        have hmm : m + 1 - 1 = m := by omega
        rw [hcc, hmm, ihc (by omega), hprev (c2 + 1) hc]
  refine ⟨fun r h1 h2 c hc => hQ r h2 h1 c hc, ?_⟩
  show get2 F (17 + 1) 0 = get2 F' (17 + 1) 0
  rw [hF.tcolF 17 (by omega) (by omega), hF'.tcolF 17 (by omega) (by omega),
      hQ 17 (by omega) (by omega) 48 (by omega)]

/-- The fingerprint of a trial does not depend on the table's mutable
(non-immune) cells. -/
theorem keyOf_det (sbox : Nat → Nat) (k : Nat) (hk1 : 1 ≤ k) (hk2 : k ≤ 14)
    (s s' : Tbl) (hs : Shape s) (hs' : Shape s')
    (hag : ∀ r c, opImmune (16 - k) k r c → get2 s r c = get2 s' r c)
    (b : List Nat) (hb : b.length = k) :
    keyOf (fwdFill sbox (16 - k) (writeTrial (16 - k) s b)) (16 - k)
      = keyOf (fwdFill sbox (16 - k) (writeTrial (16 - k) s' b)) (16 - k) := by
  obtain ⟨hQ, h18⟩ := fwd_agree sbox k hk1 hk2 s s' hs hs' hag b hb
  rw [keyOf, keyOf]
  refine List.map_congr_left ?_
  intro i hi
  rw [List.mem_range] at hi
  rcases Nat.lt_or_ge i k with hik | hik
  · exact hQ (16 - k + 2 + i) (by omega) (by omega) 0 (by omega)
  · have hi18 : 16 - k + 2 + i = 18 := by omega
    rw [hi18]
    exact h18

/-- The backward walk is deterministic: two tables agreeing on the
operation-immune cells produce identical recovered rows for the same trial. -/
theorem bwd_agree (sbox : Nat → Nat) (k : Nat) (hk1 : 1 ≤ k) (hk2 : k ≤ 14)
    (s s' : Tbl) (hs : Shape s) (hs' : Shape s')
    (hag : ∀ r c, opImmune (16 - k) k r c → get2 s r c = get2 s' r c)
    (b : List Nat) (hb : b.length = k) :
    ∀ d, d ≤ 16 - k → ∀ c, 16 ≤ c → c ≤ 33 - (16 - k - d) →
      get2 (bwdFill sbox (16 - k) (writeTrial (16 - k) s b)) (16 - k - d) c
        = get2 (bwdFill sbox (16 - k) (writeTrial (16 - k) s' b)) (16 - k - d) c := by
  have hTsh : Shape (writeTrial (16 - k) s b) := shape_writeTrial _ _ _ hs
  have hTsh' : Shape (writeTrial (16 - k) s' b) := shape_writeTrial _ _ _ hs'
  have hrow := writeTrial_row_agree k hk1 hk2 s s' hs hs' hag b hb
  have hB := bwdN_facts sbox (16 - k) (by omega) _ hTsh
  have hB' := bwdN_facts sbox (16 - k) (by omega) _ hTsh'
  simp only [bwdFill_eq_bwdN]
  set B : Tbl := bwdN sbox (16 - k) (writeTrial (16 - k) s b) with hBdef
  set B' : Tbl := bwdN sbox (16 - k) (writeTrial (16 - k) s' b) with hBdef'
  clear_value B B'
  intro d
  induction d with
  | zero =>
    intro _ c hc1 hc2
    rw [Nat.sub_zero] at hc2 ⊢
    rw [hB.frame (16 - k) c (by omega), hB'.frame (16 - k) c (by omega)]
    exact hrow c (by omega)
  | succ e ihe =>
    intro hd c hc1 hc2
    by_cases hrec : 17 ≤ c ∧ c ≤ 33 - (16 - k - e)
    · -- a cell written by the walk, via the inverted recurrence
      have h1 := hB.recur (16 - k - e) c (by omega) (by omega) hrec.1 hrec.2
      have h2 := hB'.recur (16 - k - e) c (by omega) (by omega) hrec.1 hrec.2
      have hee : 16 - k - e - 1 = 16 - k - (e + 1) := by omega
      rw [hee] at h1 h2
      rw [h1, h2, ihe (by omega) (c - 1) (by omega) (by omega),
          ihe (by omega) c (by omega) (by omega)]
    · -- a cell the walk never writes, immune under the trial write
      have hfr : ¬(16 - k - (e + 1) < 16 - k ∧ 17 ≤ c ∧ c ≤ 32 - (16 - k - (e + 1))) := by
        omega
      rw [hB.frame _ c hfr, hB'.frame _ c hfr,
          get2_writeTrial_frame _ _ _ _ _ (by rw [trialW, hb]; omega),
          get2_writeTrial_frame _ _ _ _ _ (by rw [trialW, hb]; omega)]
      exact hag _ _ ⟨by rw [fwdW]; omega, by omega, by rw [trialW]; omega⟩

/-- The recovered message of a trial does not depend on the table's mutable
(non-immune) cells. -/
theorem msgOf_det (sbox : Nat → Nat) (k : Nat) (hk1 : 1 ≤ k) (hk2 : k ≤ 14)
    (s s' : Tbl) (hs : Shape s) (hs' : Shape s')
    (hag : ∀ r c, opImmune (16 - k) k r c → get2 s r c = get2 s' r c)
    (b : List Nat) (hb : b.length = k) :
    msgOf (bwdFill sbox (16 - k) (writeTrial (16 - k) s b))
      = msgOf (bwdFill sbox (16 - k) (writeTrial (16 - k) s' b)) := by
  rw [msgOf, msgOf]
  refine List.map_congr_left ?_
  intro c hc
  rw [List.mem_range'_1] at hc
  have h0 := bwd_agree sbox k hk1 hk2 s s' hs hs' hag b hb (16 - k) (by omega) c
    (by omega) (by omega)
  rw [Nat.sub_self] at h0
  exact h0

/-- **C8**: walker determinism.  For any trial `b`, the forward walk's
fingerprint and the backward walk's recovered message are the same no matter
which (well-formed) trial operations were processed on the shared mutable
table beforehand: two arbitrary operation histories `ops1`, `ops2` applied to
the prefilled state lead to identical results for `b`. -/
theorem C8_walker_determinism (sbox sboxi : Nat → Nat) (hbox : ByteFun sbox)
    (hboxi : ByteFun sboxi) (k : Nat) (hk1 : 1 ≤ k) (hk2 : k ≤ 14)
    (ops1 ops2 : List WalkOp) (h1 : ∀ op ∈ ops1, OpOk k op)
    (h2 : ∀ op ∈ ops2, OpOk k op) (b : List Nat) (hb : b.length = k) :
    keyOf (fwdFill sbox (16 - k) (writeTrial (16 - k)
        (applyOps sbox (16 - k) (createInitialState sbox sboxi k) ops1) b)) (16 - k)
      = keyOf (fwdFill sbox (16 - k) (writeTrial (16 - k)
        (applyOps sbox (16 - k) (createInitialState sbox sboxi k) ops2) b)) (16 - k)
    ∧ msgOf (bwdFill sbox (16 - k) (writeTrial (16 - k)
        (applyOps sbox (16 - k) (createInitialState sbox sboxi k) ops1) b))
      = msgOf (bwdFill sbox (16 - k) (writeTrial (16 - k)
        (applyOps sbox (16 - k) (createInitialState sbox sboxi k) ops2) b)) := by
  have hs1 := stateOk_applyOps sbox sboxi hbox k ops1 h1
    (stateOk_initial sbox sboxi hbox hboxi k)
  have hs2 := stateOk_applyOps sbox sboxi hbox k ops2 h2
    (stateOk_initial sbox sboxi hbox hboxi k)
  have hag : ∀ r c, opImmune (16 - k) k r c →
      get2 (applyOps sbox (16 - k) (createInitialState sbox sboxi k) ops1) r c
        = get2 (applyOps sbox (16 - k) (createInitialState sbox sboxi k) ops2) r c :=
    fun r c h => (hs1.agree r c h).trans (hs2.agree r c h).symm
  exact ⟨keyOf_det sbox k hk1 hk2 _ _ hs1.shape hs2.shape hag b hb,
         msgOf_det sbox k hk1 hk2 _ _ hs1.shape hs2.shape hag b hb⟩

/-- **C5 witness**: the byte counter claims at `k = 1` with no extra calls. -/
theorem C5_witness :
    brEmit ⟨List.replicate 1 0, false⟩ (256 ^ 1 + 0)
        = (List.range (256 ^ 1)).map (natToBytes 1)
    ∧ (brEmit ⟨List.replicate 1 0, false⟩ (256 ^ 1 + 0)).length = 256 ^ 1
    ∧ (brEmit ⟨List.replicate 1 0, false⟩ (256 ^ 1 + 0)).Nodup
    ∧ (∀ v ∈ brEmit ⟨List.replicate 1 0, false⟩ (256 ^ 1 + 0), v.length = 1)
    ∧ (brEmit ⟨List.replicate 1 0, false⟩ (256 ^ 1 + 0)).Pairwise (List.Lex (· < ·))
    ∧ (brEmit ⟨List.replicate 1 0, false⟩ (256 ^ 1 + 0)).headD [] = List.replicate 1 0
    ∧ List.replicate 1 255 ∈ brEmit ⟨List.replicate 1 0, false⟩ (256 ^ 1 + 0) :=
  C5_byte_counter 1 (by omega) 0

/-- **C3 witness**: the prefill equalities at `k = 1`, row 1, with the
byte-identity S-box. -/
theorem C3_witness :
    (get2 (createInitialState byteId byteId 1) 1 16
        = get2 (createInitialState byteId byteId 1) 1 32
     ∧ get2 (createInitialState byteId byteId 1) 1 32
        = get2 (createInitialState byteId byteId 1) 1 48)
    ∧ (∀ b : List Nat, b.length = 1 →
        get2 (writeTrial (16 - 1) (createInitialState byteId byteId 1) b) 1 16
           = get2 (writeTrial (16 - 1) (createInitialState byteId byteId 1) b) 1 32
         ∧ get2 (writeTrial (16 - 1) (createInitialState byteId byteId 1) b) 1 32
           = get2 (writeTrial (16 - 1) (createInitialState byteId byteId 1) b) 1 48)
    ∧ (∀ b : List Nat, b.length = 1 → ∀ r' c,
        ¬(r' = 16 - 1 ∧ ((17 ≤ c ∧ c < 17 + 1) ∨ (33 ≤ c ∧ c < 33 + 1))) →
        get2 (writeTrial (16 - 1) (createInitialState byteId byteId 1) b) r' c
          = get2 (createInitialState byteId byteId 1) r' c) :=
  C3_prefill_equalities byteId byteId 1 (by omega) (by omega) 1 (by omega) (by omega)

/-- **C4 witness**: the fingerprint shape at `k = 1` on the prefilled state
with trial `[0]`. -/
theorem C4_witness :
    keyOf (fwdFill byteId (16 - 1)
        (writeTrial (16 - 1) (createInitialState byteId byteId 1) [0])) (16 - 1)
        = (List.range' (16 - 1 + 2) (17 - (16 - 1))).map
            (fun r => get2 (fwdFill byteId (16 - 1)
              (writeTrial (16 - 1) (createInitialState byteId byteId 1) [0])) r 0)
    ∧ (keyOf (fwdFill byteId (16 - 1)
        (writeTrial (16 - 1) (createInitialState byteId byteId 1) [0])) (16 - 1)).length
        = 17 - (16 - 1) :=
  C4_fingerprint byteId 1 (by omega) (by omega) (createInitialState byteId byteId 1) [0]

/-- **C6 witness**: the T3 triangle recurrence at `k = 1`, `col = 0`,
`row = 2`. -/
theorem C6_witness :
    get2 (createInitialState byteId byteId 1) 2 (48 - 0 - 1)
      = byteId (Nat.xor (get2 (createInitialState byteId byteId 1) 2 (48 - 0))
                        (get2 (createInitialState byteId byteId 1) (2 - 1) (48 - 0))) :=
  C6_t3_triangle byteId byteId 1 (by omega) (by omega) 0 2 (by omega) (by omega) (by omega)

/-- **C7 witness**: the amended frame claims at `k = 1` on the prefilled
state with trial `[0]`. -/
theorem C7_witness :
    (∀ r c, ¬(r = 16 - 1 ∧ 17 ≤ c ∧ c ≤ 48) → r < 16 - 1 + 1 →
        get2 (fwdFill byteId (16 - 1)
            (writeTrial (16 - 1) (createInitialState byteId byteId 1) [0])) r c
          = get2 (createInitialState byteId byteId 1) r c)
    ∧ (∀ r c, ¬(r < 16 - 1 ∧ 17 ≤ c ∧ c ≤ 32 - r) →
        ¬(r = 16 - 1 ∧ ((17 ≤ c ∧ c < 17 + 1) ∨ (33 ≤ c ∧ c < 33 + 1))) →
        get2 (bwdFill byteId (16 - 1)
            (writeTrial (16 - 1) (createInitialState byteId byteId 1) [0])) r c
          = get2 (createInitialState byteId byteId 1) r c)
    ∧ (∀ r c, 1 ≤ r → r ≤ 16 - 1 → 1 ≤ c → c ≤ 16 →
        get2 (fwdFill byteId (16 - 1)
            (writeTrial (16 - 1) (createInitialState byteId byteId 1) [0])) r c
          = get2 (createInitialState byteId byteId 1) r c
        ∧ get2 (bwdFill byteId (16 - 1)
            (writeTrial (16 - 1) (createInitialState byteId byteId 1) [0])) r c
          = get2 (createInitialState byteId byteId 1) r c)
    ∧ (∀ r, r ≤ 16 - 1 + 1 →
        get2 (fwdFill byteId (16 - 1)
            (writeTrial (16 - 1) (createInitialState byteId byteId 1) [0])) r 0
          = get2 (createInitialState byteId byteId 1) r 0
        ∧ get2 (bwdFill byteId (16 - 1)
            (writeTrial (16 - 1) (createInitialState byteId byteId 1) [0])) r 0
          = get2 (createInitialState byteId byteId 1) r 0) :=
  C7_walker_frames byteId 1 (by omega) (by omega) (createInitialState byteId byteId 1) [0] rfl

theorem canonF_eq (sbox sboxi : Nat → Nat) (k : Nat) (b : List Nat) :
    canonF sbox sboxi k b
      = fwdN sbox (16 - k) (17 - (16 - k))
          (writeTrial (16 - k) (createInitialState sbox sboxi k) b) := rfl

theorem rowSlice_length (s : Tbl) (r : Nat) : (rowSlice s r).length = 48 := by
  rw [rowSlice, List.length_map, List.length_range']

theorem rowSlice_getD (s : Tbl) (r i : Nat) (h : i < 48) :
    lGetD 0 (rowSlice s r) i = get2 s r (1 + i) := by
  rw [rowSlice, lGetD_map_range' _ 48 1 i h]

/-- In the trial-written prefilled row, T3 mirrors T2 on all of columns
17..32 (trial bytes match by construction, prefilled bytes by the triangle
mirror symmetry). -/
theorem writeTrial_prefill_mirror (sbox sboxi : Nat → Nat) (k : Nat) (hk1 : 1 ≤ k)
    (hk2 : k ≤ 14) (b : List Nat) (hb : b.length = k) :
    ∀ c, 17 ≤ c → c ≤ 32 →
      get2 (writeTrial (16 - k) (createInitialState sbox sboxi k) b) (16 - k) (c + 16)
        = get2 (writeTrial (16 - k) (createInitialState sbox sboxi k) b) (16 - k) c := by
  intro c hc1 hc2
  have hS : Shape (createInitialState sbox sboxi k) := shape_createInitialState sbox sboxi k
  by_cases htr : c < 17 + k
  · have hi : c - 17 < b.length := by omega
    have h33 := get2_writeTrial_eq33 (16 - k) _ b (c - 17) hS (by omega) (by omega) hi
    have h17 := get2_writeTrial_eq17 (16 - k) _ b (c - 17) hS (by omega) (by omega) hi
    have hc33 : 33 + (c - 17) = c + 16 := by omega
    have hc17 : 17 + (c - 17) = c := by omega
    rw [hc33] at h33
    rw [hc17] at h17
    rw [h33, h17]
  · rw [get2_writeTrial_frame _ _ _ _ _ (by rw [trialW, hb]; omega),
        get2_writeTrial_frame _ _ _ _ _ (by rw [trialW, hb]; omega)]
    have hm := prefill_mirror sbox sboxi k hk1 hk2 (32 - c) (by omega) (16 - k) (by omega)
    have h1 : 48 - (32 - c) = c + 16 := by omega
    have h2 : 32 - (32 - c) = c := by omega
    rw [h1, h2] at hm
    exact hm

set_option maxHeartbeats 1000000 in
/-- The genuine MD2 trajectory of a recovered message, beyond the prefilled
zone, walks the canonical forward table of the same trial: rows
`rows..17` (columns 1..48) and the t column. -/
theorem traj_fwd_agrees (sbox sboxi : Nat → Nat) (hbox : ByteFun sbox)
    (hinv : ∀ x, x < 256 → sbox (sboxi x) = x)
    (k : Nat) (hk1 : 1 ≤ k) (hk2 : k ≤ 14) (s : Tbl) (hs : StateOk sbox sboxi k s)
    (b : List Nat) (hb : b.length = k) (hbv : ByteVec b) :
    ∀ r, 16 - k ≤ r → r ≤ 17 →
      (∀ i, i ≤ 47 →
        lGetD 0 (trajX sbox (x0Of (bwdFill sbox (16 - k) (writeTrial (16 - k) s b))) r) i
          = get2 (canonF sbox sboxi k b) r (i + 1))
      ∧ trajT sbox (x0Of (bwdFill sbox (16 - k) (writeTrial (16 - k) s b))) r
          = get2 (canonF sbox sboxi k b) (r + 1) 0 := by
  have hS0sh : Shape (createInitialState sbox sboxi k) := shape_createInitialState sbox sboxi k
  have hR := bwdReady_of_stateOk sbox sboxi hbox hinv k hk1 hk2 s hs b hb hbv
  have hTA := traj_agrees sbox (16 - k) _ hR
  have hTsh : Shape (writeTrial (16 - k) (createInitialState sbox sboxi k) b) :=
    shape_writeTrial _ _ _ hS0sh
  have hFF := fwdN_facts sbox (16 - k) (by omega) (17 - (16 - k)) (by omega) _ hTsh
  have hrowT := writeTrial_row_agree k hk1 hk2 s (createInitialState sbox sboxi k)
    hs.shape hS0sh hs.agree b hb
  have hmirror := writeTrial_prefill_mirror sbox sboxi k hk1 hk2 b hb
  simp only [canonF_eq]
  intro r
  induction r with
  | zero => intro hge _; omega
  | succ m ihm =>
    intro hge h17
    rcases Nat.lt_or_ge m (16 - k) with hcase | hcase
    · -- base row: `m + 1 = rows`
      have hmr : m + 1 = 16 - k := by omega
      rw [hmr]
      refine ⟨?_, ?_⟩
      · intro i hi47
        rcases Nat.lt_or_ge i 32 with hi32 | hi32
        · rw [(hTA (16 - k) (le_refl _)).1 i (by omega)]
          rw [get2_bwdFill_frame sbox (16 - k) _ (16 - k) (i + 1) (by omega)]
          rw [hrowT (i + 1) (by omega)]
          rw [hFF.frame (16 - k) (i + 1) (by rw [fwdW]; omega)]
        · have hp2 := (hTA (16 - k) (le_refl _)).2.1 (i - 16) (by omega) (by omega)
          have hii : i - 16 + 16 = i := by omega
          rw [hii] at hp2
          rw [hp2, (hTA (16 - k) (le_refl _)).1 (i - 16) (by omega)]
          have hi15 : i - 16 + 1 = i - 15 := by omega
          rw [hi15]
          rw [get2_bwdFill_frame sbox (16 - k) _ (16 - k) (i - 15) (by omega)]
          rw [hrowT (i - 15) (by omega)]
          have hmir := hmirror (i - 15) (by omega) (by omega)
          have hc16 : i - 15 + 16 = i + 1 := by omega
          rw [hc16] at hmir
          rw [← hmir]
          rw [hFF.frame (16 - k) (i + 1) (by rw [fwdW]; omega)]
      · rw [(hTA (16 - k) (le_refl _)).2.2]
        rw [get2_bwdFill_frame sbox (16 - k) _ (16 - k + 1) 0 (by omega)]
        rw [get2_writeTrial_frame _ _ _ _ _ (by rw [trialW, hb]; omega)]
        rw [hs.agree (16 - k + 1) 0 ⟨by rw [fwdW]; omega, by omega, by rw [trialW]; omega⟩]
        rw [hFF.frame (16 - k + 1) 0 (by rw [fwdW]; omega)]
        rw [get2_writeTrial_frame _ _ _ _ _ (by rw [trialW, hb]; omega)]
    · -- step row
      obtain ⟨ih1, ih2⟩ := ihm hcase (by omega)
      have hlen : (trajX sbox (x0Of (bwdFill sbox (16 - k) (writeTrial (16 - k) s b))) m).length
          = 48 := by
        rw [trajX_length, x0Of_length]
      have hP1 : ∀ i, i ≤ 47 →
          lGetD 0 (trajX sbox (x0Of (bwdFill sbox (16 - k) (writeTrial (16 - k) s b)))
              (m + 1)) i
            = get2 (fwdN sbox (16 - k) (17 - (16 - k))
                (writeTrial (16 - k) (createInitialState sbox sboxi k) b)) (m + 1) (i + 1) := by
        intro i
        induction i with
        | zero =>
          intro _
          rw [trajX_succ, mdRound_getD sbox _ _ 0 (by rw [hlen]; omega), if_pos rfl]
          rw [ih2, ih1 0 (by omega)]
          have hrec := hFF.recur (m + 1) 1 (by omega) (by omega) (by omega) (by omega)
          rw [hrec, xor_comm']
          rfl
        | succ j ihj =>
          intro hj
          rw [trajX_succ, mdRound_getD sbox _ _ (j + 1) (by rw [hlen]; omega),
              if_neg (Nat.succ_ne_zero j), ← trajX_succ]
          have hjj : j + 1 - 1 = j := by omega
          rw [hjj, ihj (by omega), ih1 (j + 1) (by omega)]
          have hrec := hFF.recur (m + 1) (j + 1 + 1) (by omega) (by omega) (by omega) (by omega)
          have hc1 : j + 1 + 1 - 1 = j + 1 := by omega
          have hc2 : m + 1 - 1 = m := by omega
          rw [hc1, hc2] at hrec
          rw [hrec, xor_comm']
      refine ⟨hP1, ?_⟩
      rw [trajT_succ, hP1 47 (by omega)]
      have ht := hFF.tcolF (m + 1) (by omega) (by omega)
      rw [ht, show (47 : Nat) + 1 = 48 from rfl]
      omega

set_option maxHeartbeats 2000000 in
/-- The digest of a recovered message is read off the canonical forward
table of its trial: the trajectory equals row 17 before the final round and
`state[18][0]` is the final round's entering t. -/
theorem digest_via_canonF (sbox sboxi : Nat → Nat) (hbox : ByteFun sbox)
    (hinv : ∀ x, x < 256 → sbox (sboxi x) = x)
    (k : Nat) (hk1 : 1 ≤ k) (hk2 : k ≤ 14) (s : Tbl) (hs : StateOk sbox sboxi k s)
    (b : List Nat) (hb : b.length = k) (hbv : ByteVec b) :
    md2_compress sbox (List.replicate 16 0)
        (msgOf (bwdFill sbox (16 - k) (writeTrial (16 - k) s b)))
      = finalRound sbox (canonF sbox sboxi k b) := by
  obtain ⟨h17a, h17t⟩ :=
    traj_fwd_agrees sbox sboxi hbox hinv k hk1 hk2 s hs b hb hbv 17 (by omega) (le_refl _)
  rw [md2_compress_zero_eq sbox _ (msgOf_length _)]
  rw [show List.replicate 16 0
        ++ msgOf (bwdFill sbox (16 - k) (writeTrial (16 - k) s b))
        ++ msgOf (bwdFill sbox (16 - k) (writeTrial (16 - k) s b))
      = x0Of (bwdFill sbox (16 - k) (writeTrial (16 - k) s b)) from rfl]
  have hx17 : trajX sbox (x0Of (bwdFill sbox (16 - k) (writeTrial (16 - k) s b))) 17
      = rowSlice (canonF sbox sboxi k b) 17 := by
    refine lists_eq_of_lGetD _ _ ?_ ?_
    · rw [trajX_length, x0Of_length, rowSlice_length]
    · intro i hi
      rw [trajX_length, x0Of_length] at hi
      have hmi : 1 + i = i + 1 := by omega
      rw [h17a i (by omega), rowSlice_getD _ _ i hi, hmi]
  rw [finalRound]
  rw [show (18 : Nat) = 17 + 1 from rfl, trajX_succ, hx17, h17t]

/-- Columns 0..16 of the walked rows, and the final t byte, are determined by
the fingerprint alone (the prefilled T1 block is shared, and the t column is
the fingerprint). -/
theorem key_t1_agree (sbox sboxi : Nat → Nat) (k : Nat) (hk1 : 1 ≤ k) (hk2 : k ≤ 14)
    (b1 b2 : List Nat) (hb1 : b1.length = k) (hb2 : b2.length = k)
    (hkey : keyOf (canonF sbox sboxi k b1) (16 - k)
      = keyOf (canonF sbox sboxi k b2) (16 - k)) :
    (∀ r, 16 - k ≤ r → r ≤ 17 → ∀ c, c ≤ 16 →
      get2 (canonF sbox sboxi k b1) r c = get2 (canonF sbox sboxi k b2) r c)
    ∧ get2 (canonF sbox sboxi k b1) 18 0 = get2 (canonF sbox sboxi k b2) 18 0 := by
  have hS0sh : Shape (createInitialState sbox sboxi k) := shape_createInitialState sbox sboxi k
  have hT1 : Shape (writeTrial (16 - k) (createInitialState sbox sboxi k) b1) :=
    shape_writeTrial _ _ _ hS0sh
  have hT2 : Shape (writeTrial (16 - k) (createInitialState sbox sboxi k) b2) :=
    shape_writeTrial _ _ _ hS0sh
  have hFF1 : FwdNFacts sbox (16 - k) (17 - (16 - k))
      (writeTrial (16 - k) (createInitialState sbox sboxi k) b1) (canonF sbox sboxi k b1) := by
    rw [canonF_eq]
    exact fwdN_facts sbox (16 - k) (by omega) (17 - (16 - k)) (by omega) _ hT1
  have hFF2 : FwdNFacts sbox (16 - k) (17 - (16 - k))
      (writeTrial (16 - k) (createInitialState sbox sboxi k) b2) (canonF sbox sboxi k b2) := by
    rw [canonF_eq]
    exact fwdN_facts sbox (16 - k) (by omega) (17 - (16 - k)) (by omega) _ hT2
  rw [keyOf, keyOf] at hkey
  have hkeyp : ∀ i, i < 17 - (16 - k) →
      get2 (canonF sbox sboxi k b1) (16 - k + 2 + i) 0
        = get2 (canonF sbox sboxi k b2) (16 - k + 2 + i) 0 := by
    intro i hi
    have h1 : lGetD 0 ((List.range (17 - (16 - k))).map
        (fun j => get2 (canonF sbox sboxi k b1) (16 - k + 2 + j) 0)) i
        = get2 (canonF sbox sboxi k b1) (16 - k + 2 + i) 0 := lGetD_map_range _ _ i hi
    have h2 : lGetD 0 ((List.range (17 - (16 - k))).map
        (fun j => get2 (canonF sbox sboxi k b2) (16 - k + 2 + j) 0)) i
        = get2 (canonF sbox sboxi k b2) (16 - k + 2 + i) 0 := lGetD_map_range _ _ i hi
    rw [← h1, ← h2, hkey]
  have hcol0 : ∀ r', 16 - k + 1 ≤ r' → r' ≤ 18 →
      get2 (canonF sbox sboxi k b1) r' 0 = get2 (canonF sbox sboxi k b2) r' 0 := by
    intro r' hr1 hr2
    rcases Nat.lt_or_ge r' (16 - k + 2) with hlt | hge
    · rw [hFF1.frame r' 0 (by rw [fwdW]; omega), hFF2.frame r' 0 (by rw [fwdW]; omega),
          get2_writeTrial_frame _ _ _ _ _ (by rw [trialW, hb1]; omega),
          get2_writeTrial_frame _ _ _ _ _ (by rw [trialW, hb2]; omega)]
    · have hi := hkeyp (r' - (16 - k) - 2) (by omega)
      have hr : 16 - k + 2 + (r' - (16 - k) - 2) = r' := by omega
      rw [hr] at hi
      exact hi
  have hT1c : ∀ r, r ≤ 17 → 16 - k ≤ r → ∀ c, c ≤ 16 →
      get2 (canonF sbox sboxi k b1) r c = get2 (canonF sbox sboxi k b2) r c := by
    intro r
    induction r with
    | zero => intro _ hge; omega
    | succ m ihm =>
      intro h17 hge
      rcases Nat.lt_or_ge m (16 - k) with hcase | hcase
      · intro c hc
        have hmr : m + 1 = 16 - k := by omega
        rw [hmr]
        rw [hFF1.frame (16 - k) c (by rw [fwdW]; omega),
            hFF2.frame (16 - k) c (by rw [fwdW]; omega),
            get2_writeTrial_frame _ _ _ _ _ (by rw [trialW, hb1]; omega),
            get2_writeTrial_frame _ _ _ _ _ (by rw [trialW, hb2]; omega)]
      · have hprev := ihm (by omega) hcase
        intro c
        induction c with
        | zero => intro _; exact hcol0 (m + 1) (by omega) (by omega)
        | succ c2 ihc =>
          intro hc
          have hr1 := hFF1.recur (m + 1) (c2 + 1) (by omega) (by omega) (by omega) (by omega)
          have hr2 := hFF2.recur (m + 1) (c2 + 1) (by omega) (by omega) (by omega) (by omega)
          rw [hr1, hr2]
          have hcc : c2 + 1 - 1 = c2 := by omega
          have hmm : m + 1 - 1 = m := by omega
          rw [hcc, hmm, ihc (by omega), hprev (c2 + 1) (by omega)]
  exact ⟨fun r h1 h2 c hc => hT1c r h2 h1 c hc, hcol0 18 (by omega) (by omega)⟩

/-- The first 16 bytes of an MD2 round depend only on the entering t and the
first 16 bytes of the block. -/
theorem mdRound_prefix_det (sbox : Nat → Nat) (t : Nat) (x x' : List Nat)
    (hx : 16 ≤ x.length) (hx' : 16 ≤ x'.length)
    (hagree : ∀ i, i ≤ 15 → lGetD 0 x i = lGetD 0 x' i) :
    ∀ i, i ≤ 15 → lGetD 0 (mdRound sbox t x) i = lGetD 0 (mdRound sbox t x') i := by
  intro i
  induction i with
  | zero =>
    intro _
    rw [mdRound_getD sbox x t 0 (by omega), mdRound_getD sbox x' t 0 (by omega),
        if_pos rfl, if_pos rfl, hagree 0 (by omega)]
  | succ j ihj =>
    intro hj
    rw [mdRound_getD sbox x t (j + 1) (by omega), mdRound_getD sbox x' t (j + 1) (by omega),
        if_neg (Nat.succ_ne_zero j), if_neg (Nat.succ_ne_zero j)]
    have hjj : j + 1 - 1 = j := by omega
    rw [hjj, ihj (by omega), hagree (j + 1) hj]

/-- Trials with the same fingerprint have the same final-round digest. -/
theorem finalRound_eq_of_key (sbox sboxi : Nat → Nat) (k : Nat) (hk1 : 1 ≤ k) (hk2 : k ≤ 14)
    (b1 b2 : List Nat) (hb1 : b1.length = k) (hb2 : b2.length = k)
    (hkey : keyOf (canonF sbox sboxi k b1) (16 - k)
      = keyOf (canonF sbox sboxi k b2) (16 - k)) :
    finalRound sbox (canonF sbox sboxi k b1) = finalRound sbox (canonF sbox sboxi k b2) := by
  obtain ⟨ht1, ht18⟩ := key_t1_agree sbox sboxi k hk1 hk2 b1 b2 hb1 hb2 hkey
  rw [finalRound, finalRound, ht18]
  refine lists_eq_of_lGetD _ _ ?_ ?_
  · rw [List.length_take, List.length_take, mdRound_length, mdRound_length,
        rowSlice_length, rowSlice_length]
  · intro i hi
    rw [List.length_take, mdRound_length, rowSlice_length] at hi
    rw [lGetD_take _ 16 i (by omega), lGetD_take _ 16 i (by omega)]
    refine mdRound_prefix_det sbox _ _ _ (by rw [rowSlice_length]; omega)
      (by rw [rowSlice_length]; omega) ?_ i (by omega)
    intro i2 hi2
    rw [rowSlice_getD _ _ i2 (by omega), rowSlice_getD _ _ i2 (by omega)]
    exact ht1 17 (by omega) (by omega) (1 + i2) (by omega)

/-! ### The search loop and the recovery fold -/

/-- Invariant of the search loop: the table stays a reachable engine state
and every recorded trial is well-formed and filed under its canonical
fingerprint. -/
theorem trialLoop_inv (sbox sboxi : Nat → Nat) (hbox : ByteFun sbox) (k : Nat)
    (hk1 : 1 ≤ k) (hk2 : k ≤ 14) :
    ∀ (bs : List (List Nat)), (∀ b ∈ bs, b.length = k ∧ ByteVec b) →
    ∀ (p : Tbl × KMap), StateOk sbox sboxi k p.1 →
      (∀ e ∈ p.2, ∀ b ∈ e.2, b.length = k ∧ ByteVec b
        ∧ e.1 = keyOf (canonF sbox sboxi k b) (16 - k)) →
      StateOk sbox sboxi k (bs.foldl (trialStep sbox (16 - k)) p).1
      ∧ (∀ e ∈ (bs.foldl (trialStep sbox (16 - k)) p).2, ∀ b ∈ e.2,
          b.length = k ∧ ByteVec b
          ∧ e.1 = keyOf (canonF sbox sboxi k b) (16 - k)) := by
  intro bs
  induction bs with
  | nil => intro _ p h1 h2; exact ⟨h1, h2⟩
  | cons b rest ih =>
    intro hbs p hp1 hp2
    rw [List.foldl_cons]
    have hb := hbs b (List.mem_cons_self _ _)
    refine ih (fun b' hb' => hbs b' (List.mem_cons_of_mem _ hb')) _ ?_ ?_
    · have hss : (trialStep sbox (16 - k) p b).1 = applyOp sbox (16 - k) p.1 (WalkOp.fwd b) :=
        rfl
      rw [hss]
      exact stateOk_applyOp sbox sboxi hbox k hp1 (WalkOp.fwd b) ⟨hb.1, hb.2⟩
    · have hkey : keyOf (fwdFill sbox (16 - k) (writeTrial (16 - k) p.1 b)) (16 - k)
          = keyOf (canonF sbox sboxi k b) (16 - k) :=
        keyOf_det sbox k hk1 hk2 p.1 (createInitialState sbox sboxi k) hp1.shape
          (shape_createInitialState sbox sboxi k) hp1.agree b hb.1
      have hts : (trialStep sbox (16 - k) p b).2
          = insertMap p.2
              (keyOf (fwdFill sbox (16 - k) (writeTrial (16 - k) p.1 b)) (16 - k)) b := rfl
      intro e he b' hb'
      rw [hts] at he
      rcases insertMap_cases p.2 _ b e he with hold | ⟨hek, vs, hev, hvs⟩
      · exact hp2 e hold b' hb'
      · rw [hev] at hb'
        rcases List.mem_append.mp hb' with hmem | hmem
        · rcases hvs with hvs | hvs
          · have h := hp2 _ hvs b' hmem
            exact ⟨h.1, h.2.1, hek.trans h.2.2⟩
          · rw [hvs] at hmem
            simp at hmem
        · rw [List.mem_singleton] at hmem
          subst hmem
          exact ⟨hb.1, hb.2, hek.trans hkey⟩

/-- Invariant of one bucket's recovery fold: the table stays a reachable
engine state and every recovered message's digest is the final round of its
trial's canonical table. -/
theorem recover_fold_inv (sbox sboxi : Nat → Nat) (hbox : ByteFun sbox)
    (hinv : ∀ x, x < 256 → sbox (sboxi x) = x) (k : Nat) (hk1 : 1 ≤ k) (hk2 : k ≤ 14)
    (K : List Nat) :
    ∀ (bs : List (List Nat)),
      (∀ b ∈ bs, b.length = k ∧ ByteVec b ∧ K = keyOf (canonF sbox sboxi k b) (16 - k)) →
    ∀ (q : Tbl × List (List Nat)), StateOk sbox sboxi k q.1 →
      (∀ m ∈ q.2, ∃ b', (b'.length = k ∧ ByteVec b'
          ∧ K = keyOf (canonF sbox sboxi k b') (16 - k))
        ∧ md2_compress sbox (List.replicate 16 0) m
            = finalRound sbox (canonF sbox sboxi k b')) →
      StateOk sbox sboxi k (bs.foldl (recoverMsg sbox (16 - k)) q).1
      ∧ (∀ m ∈ (bs.foldl (recoverMsg sbox (16 - k)) q).2, ∃ b',
          (b'.length = k ∧ ByteVec b' ∧ K = keyOf (canonF sbox sboxi k b') (16 - k))
          ∧ md2_compress sbox (List.replicate 16 0) m
              = finalRound sbox (canonF sbox sboxi k b')) := by
  intro bs
  induction bs with
  | nil => intro _ q h1 h2; exact ⟨h1, h2⟩
  | cons b rest ih =>
    intro hbs q hq1 hq2
    rw [List.foldl_cons]
    have hb := hbs b (List.mem_cons_self _ _)
    refine ih (fun b' h => hbs b' (List.mem_cons_of_mem _ h)) _ ?_ ?_
    · have hss : (recoverMsg sbox (16 - k) q b).1 = applyOp sbox (16 - k) q.1 (WalkOp.bwd b) :=
        rfl
      rw [hss]
      exact stateOk_applyOp sbox sboxi hbox k hq1 (WalkOp.bwd b) ⟨hb.1, hb.2.1⟩
    · intro m hm
      have hr2 : (recoverMsg sbox (16 - k) q b).2
          = q.2 ++ [msgOf (bwdFill sbox (16 - k) (writeTrial (16 - k) q.1 b))] := rfl
      rw [hr2] at hm
      rcases List.mem_append.mp hm with hm | hm
      · exact hq2 m hm
      · rw [List.mem_singleton] at hm
        subst hm
        exact ⟨b, hb,
          digest_via_canonF sbox sboxi hbox hinv k hk1 hk2 q.1 hq1 b hb.1 hb.2.1⟩

/-- Invariant of the bucket-by-bucket recovery: every emitted bucket's
messages share one digest. -/
theorem recoverBuckets_inv (sbox sboxi : Nat → Nat) (hbox : ByteFun sbox)
    (hinv : ∀ x, x < 256 → sbox (sboxi x) = x) (k : Nat) (hk1 : 1 ≤ k) (hk2 : k ≤ 14) :
    ∀ (bss : List (List (List Nat))),
      (∀ bs ∈ bss, ∃ K, ∀ b ∈ bs, b.length = k ∧ ByteVec b
          ∧ K = keyOf (canonF sbox sboxi k b) (16 - k)) →
    ∀ (p : Tbl × List (List (List Nat))), StateOk sbox sboxi k p.1 →
      (∀ msgs ∈ p.2, ∀ m1 ∈ msgs, ∀ m2 ∈ msgs,
          md2_compress sbox (List.replicate 16 0) m1
            = md2_compress sbox (List.replicate 16 0) m2) →
      StateOk sbox sboxi k (bss.foldl (recoverBucket sbox (16 - k)) p).1
      ∧ (∀ msgs ∈ (bss.foldl (recoverBucket sbox (16 - k)) p).2, ∀ m1 ∈ msgs, ∀ m2 ∈ msgs,
          md2_compress sbox (List.replicate 16 0) m1
            = md2_compress sbox (List.replicate 16 0) m2) := by
  intro bss
  induction bss with
  | nil => intro _ p h1 h2; exact ⟨h1, h2⟩
  | cons bs rest ih =>
    intro hbss p hp1 hp2
    rw [List.foldl_cons]
    obtain ⟨K, hK⟩ := hbss bs (List.mem_cons_self _ _)
    have hin := recover_fold_inv sbox sboxi hbox hinv k hk1 hk2 K bs hK (p.1, []) hp1
      (by intro m hm; simp at hm)
    refine ih (fun bs' h => hbss bs' (List.mem_cons_of_mem _ h)) _ ?_ ?_
    · have hss : (recoverBucket sbox (16 - k) p bs).1
          = (bs.foldl (recoverMsg sbox (16 - k)) (p.1, [])).1 := rfl
      rw [hss]
      exact hin.1
    · have hsn : (recoverBucket sbox (16 - k) p bs).2
          = p.2 ++ [(bs.foldl (recoverMsg sbox (16 - k)) (p.1, [])).2] := rfl
      intro msgs hmsgs m1 hm1 m2 hm2
      rw [hsn] at hmsgs
      rcases List.mem_append.mp hmsgs with hmsgs | hmsgs
      · exact hp2 msgs hmsgs m1 hm1 m2 hm2
      · rw [List.mem_singleton] at hmsgs
        subst hmsgs
        obtain ⟨b1', hb1', hd1⟩ := hin.2 m1 hm1
        obtain ⟨b2', hb2', hd2⟩ := hin.2 m2 hm2
        rw [hd1, hd2]
        exact finalRound_eq_of_key sbox sboxi k hk1 hk2 b1' b2' hb1'.1 hb2'.1
          (hb1'.2.2.symm.trans hb2'.2.2)

/-- **C1**: collision correctness.  Every bucket `find_collisions` emits
(buckets of size ≥ 2, turned into recovered 16-byte messages) consists of
messages whose digests under the checksum-free MD2 compression oracle,
started from the all-zero 16-byte state, all coincide — in particular
consecutive ones do. -/
theorem C1_collision_correctness (sbox sboxi : Nat → Nat) (hbox : ByteFun sbox)
    (hboxi : ByteFun sboxi) (hinv : ∀ x, x < 256 → sbox (sboxi x) = x)
    (k : Nat) (hk1 : 1 ≤ k) (hk2 : k ≤ 14) :
    ∀ msgs ∈ findCollisions sbox sboxi k, ∀ m1 ∈ msgs, ∀ m2 ∈ msgs,
      md2_compress sbox (List.replicate 16 0) m1
        = md2_compress sbox (List.replicate 16 0) m2 := by
  have htl : ∀ b ∈ trialList k, b.length = k ∧ ByteVec b :=
    fun b hb => mem_trialList k b hb
  have hloop := trialLoop_inv sbox sboxi hbox k hk1 hk2 (trialList k) htl
    (createInitialState sbox sboxi k, []) (stateOk_initial sbox sboxi hbox hboxi k)
    (by intro e he; simp at he)
  obtain ⟨hsF, hmap⟩ := hloop
  have hbss : ∀ bs ∈ ((trialLoop sbox (16 - k) k (createInitialState sbox sboxi k)).2.filter
      (fun e => decide (1 < e.2.length))).map Prod.snd,
      ∃ K, ∀ b ∈ bs, b.length = k ∧ ByteVec b
        ∧ K = keyOf (canonF sbox sboxi k b) (16 - k) := by
    intro bs hbs
    rw [List.mem_map] at hbs
    obtain ⟨e, he, rfl⟩ := hbs
    rw [List.mem_filter] at he
    exact ⟨e.1, fun b hb => hmap e he.1 b hb⟩
  have hrec := recoverBuckets_inv sbox sboxi hbox hinv k hk1 hk2 _ hbss
    ((trialLoop sbox (16 - k) k (createInitialState sbox sboxi k)).1, []) hsF
    (by intro msgs h; simp at h)
  intro msgs hmsgs m1 hm1 m2 hm2
  have hfc : findCollisions sbox sboxi k
      = ((((trialLoop sbox (16 - k) k (createInitialState sbox sboxi k)).2.filter
            (fun e => decide (1 < e.2.length))).map Prod.snd).foldl
          (recoverBucket sbox (16 - k))
          ((trialLoop sbox (16 - k) k (createInitialState sbox sboxi k)).1, [])).2 := rfl
  rw [hfc] at hmsgs
  exact hrec.2 msgs hmsgs m1 hm1 m2 hm2

/-- **C1 witness**: the hypotheses hold of the byte-identity S-box (its own
inverse on bytes) with `k = 1`. -/
theorem C1_witness :
    ByteFun byteId
    ∧ (∀ msgs ∈ findCollisions byteId byteId 1, ∀ m1 ∈ msgs, ∀ m2 ∈ msgs,
        md2_compress byteId (List.replicate 16 0) m1
          = md2_compress byteId (List.replicate 16 0) m2) :=
  ⟨byteId_byteFun,
   C1_collision_correctness byteId byteId byteId_byteFun byteId_byteFun byteId_inverse 1
     (by omega) (by omega)⟩

/-! ### `decompress` rolls the trajectory back -/

theorem rollfold_length (sbox : Nat → Nat) : ∀ (cl : List Nat) (x : List Nat),
    (cl.foldl (fun x col => lSet x col
      (Nat.xor (lGetD 0 x col) (sbox (lGetD 0 x (col - 1))))) x).length = x.length := by
  intro cl
  induction cl with
  | nil => intro x; rfl
  | cons c cl ih => intro x; rw [List.foldl_cons, ih, length_lSet]

/-- The descending column-rollback fold, characterized: every visited column
becomes its own xor with the S-box image of its left neighbour (both read from
the original block), every other position is untouched. -/
theorem rollfold_charn (sbox : Nat → Nat) : ∀ (cl : List Nat),
    cl.Pairwise (fun a b => b < a) →
    ∀ x : List Nat, (∀ c ∈ cl, c < x.length) →
      (∀ c ∈ cl, lGetD 0 (cl.foldl (fun x col => lSet x col
          (Nat.xor (lGetD 0 x col) (sbox (lGetD 0 x (col - 1))))) x) c
        = Nat.xor (lGetD 0 x c) (sbox (lGetD 0 x (c - 1))))
      ∧ (∀ c, c ∉ cl → lGetD 0 (cl.foldl (fun x col => lSet x col
          (Nat.xor (lGetD 0 x col) (sbox (lGetD 0 x (col - 1))))) x) c = lGetD 0 x c) := by
  intro cl
  induction cl with
  | nil =>
    intro _ x _
    exact ⟨by intro c hc; simp at hc, fun c _ => rfl⟩
  | cons col rest ih =>
    intro hpw x hbnd
    have hpw' : rest.Pairwise (fun a b => b < a) := hpw.of_cons
    have hlt : ∀ c ∈ rest, c < col := (List.pairwise_cons.mp hpw).1
    rw [List.foldl_cons]
    obtain ⟨ihm, ihf⟩ := ih hpw'
      (lSet x col (Nat.xor (lGetD 0 x col) (sbox (lGetD 0 x (col - 1)))))
      (by intro c hc; rw [length_lSet]; exact hbnd c (List.mem_cons_of_mem _ hc))
    constructor
    · intro c hc
      rcases List.mem_cons.mp hc with hc | hc
      · subst hc
        rw [ihf c (fun hmem => absurd (hlt c hmem) (lt_irrefl c))]
        rw [lGetD_lSet_eq _ _ _ _ (hbnd c (List.mem_cons_self _ _))]
      · have hcol : c < col := hlt c hc
        rw [ihm c hc, lGetD_lSet_ne _ _ _ _ _ (by omega), lGetD_lSet_ne _ _ _ _ _ (by omega)]
    · intro c hc
      have hc1 : c ∉ rest := fun h => hc (List.mem_cons_of_mem _ h)
      have hc2 : c ≠ col := fun h => hc (h ▸ List.mem_cons_self _ _)
      rw [ihf c hc1, lGetD_lSet_ne _ _ _ _ _ (by omega)]

theorem rollCols_length (sbox : Nat → Nat) (x : List Nat) :
    (rollCols sbox x).length = x.length := by
  rw [rollCols, rollfold_length]

theorem rollCols_charn (sbox : Nat → Nat) (x : List Nat) (hlen : x.length = 48) :
    (∀ c, 1 ≤ c → c ≤ 47 → lGetD 0 (rollCols sbox x) c
        = Nat.xor (lGetD 0 x c) (sbox (lGetD 0 x (c - 1))))
    ∧ lGetD 0 (rollCols sbox x) 0 = lGetD 0 x 0 := by
  have hpw : ((List.range' 1 47).reverse).Pairwise (fun a b => b < a) := by
    rw [List.pairwise_reverse]
    exact List.pairwise_lt_range' 1 47
  obtain ⟨hmain, hframe⟩ := rollfold_charn sbox _ hpw x (by
    intro c hc
    rw [List.mem_reverse, List.mem_range'_1] at hc
    omega)
  rw [rollCols]
  constructor
  · intro c h1 h2
    exact hmain c (by rw [List.mem_reverse, List.mem_range'_1]; omega)
  · exact hframe 0 (by rw [List.mem_reverse, List.mem_range'_1]; omega)

theorem rollRound_eq (sbox : Nat → Nat) (x : List Nat) (r : Nat) :
    rollRound sbox x r
      = lSet (rollCols sbox x) 0
          (Nat.xor (lGetD 0 (rollCols sbox x) 0)
            (sbox ((lGetD 0 (rollCols sbox x) 47 + r + 255) % 256))) := rfl

theorem rollRound_length (sbox : Nat → Nat) (x : List Nat) (r : Nat) :
    (rollRound sbox x r).length = x.length := by
  rw [rollRound_eq, length_lSet, rollCols_length]

theorem lGetD_rollRound_pos (sbox : Nat → Nat) (x : List Nat) (r i : Nat) (hi : 1 ≤ i) :
    lGetD 0 (rollRound sbox x r) i = lGetD 0 (rollCols sbox x) i := by
  rw [rollRound_eq, lGetD_lSet_ne _ _ _ _ _ (by omega)]

/-- For rounds `r ≥ 1`, `decompress`'s round rollback exactly inverts the MD2
round (the recomputed t equals the forward t). -/
theorem rollRound_inv (sbox : Nat → Nat) (x : List Nat) (hlen : x.length = 48)
    (r t : Nat) (hr : 1 ≤ r) (ht : t = (lGetD 0 x 47 + (r - 1)) % 256) :
    rollRound sbox (mdRound sbox t x) r = x := by
  have hmlen : (mdRound sbox t x).length = 48 := by rw [mdRound_length, hlen]
  obtain ⟨hmain, hframe⟩ := rollCols_charn sbox (mdRound sbox t x) hmlen
  have hcols : ∀ c, 1 ≤ c → c ≤ 47 →
      lGetD 0 (rollCols sbox (mdRound sbox t x)) c = lGetD 0 x c := by
    intro c h1 h2
    rw [hmain c h1 h2, mdRound_getD sbox x t c (by omega), if_neg (by omega)]
    exact xor_cancel_right _ _
  have hcol0 : lGetD 0 (rollCols sbox (mdRound sbox t x)) 0
      = Nat.xor (lGetD 0 x 0) (sbox t) := by
    rw [hframe, mdRound_getD sbox x t 0 (by omega), if_pos rfl]
  have htt : (lGetD 0 (rollCols sbox (mdRound sbox t x)) 47 + r + 255) % 256 = t := by
    rw [hcols 47 (by omega) (by omega), ht]
    omega
  rw [rollRound_eq, htt, hcol0]
  have hv : Nat.xor (Nat.xor (lGetD 0 x 0) (sbox t)) (sbox t) = lGetD 0 x 0 :=
    xor_cancel_right _ _
  rw [hv]
  refine lists_eq_of_lGetD _ _ ?_ ?_
  · rw [length_lSet, rollCols_length, hmlen, hlen]
  · intro i hi
    rw [length_lSet, rollCols_length, hmlen] at hi
    rcases Nat.eq_zero_or_pos i with h0 | h0
    · subst h0
      rw [lGetD_lSet_eq _ _ _ _ (by rw [rollCols_length, hmlen]; omega)]
    · rw [lGetD_lSet_ne _ _ _ _ _ (by omega), hcols i (by omega) (by omega)]

theorem decompressLoop_zero (sbox : Nat → Nat) (x : List Nat) :
    decompressLoop sbox x 0 = x := by
  simp [decompressLoop]

theorem decompressLoop_succ (sbox : Nat → Nat) (x : List Nat) (r : Nat) :
    decompressLoop sbox x (r + 1) = decompressLoop sbox (rollRound sbox x r) r := by
  simp [decompressLoop]

/-- Rolling the trajectory back from round `r` lands on the (t-corrupting but
column-exact) round-0 rollback of the first round's block. -/
theorem decompressLoop_traj (sbox : Nat → Nat) (x0 : List Nat) (hlen : x0.length = 48) :
    ∀ r, 1 ≤ r → decompressLoop sbox (trajX sbox x0 r) r
      = rollRound sbox (trajX sbox x0 1) 0 := by
  intro r
  induction r with
  | zero => intro h; omega
  | succ m ih =>
    intro _
    rcases Nat.eq_zero_or_pos m with h0 | h0
    · subst h0
      rw [decompressLoop_succ, decompressLoop_zero]
    · have hstep : decompressLoop sbox (trajX sbox x0 (m + 1)) (m + 1)
          = decompressLoop sbox (rollRound sbox (trajX sbox x0 (m + 1)) m) m :=
        decompressLoop_succ sbox _ m
      have hroll : rollRound sbox (trajX sbox x0 (m + 1)) m = trajX sbox x0 m := by
        rw [trajX_succ sbox x0 m]
        refine rollRound_inv sbox (trajX sbox x0 m) (by rw [trajX_length, hlen]) m
          (trajT sbox x0 m) h0 ?_
        cases m with
        | zero => omega
        | succ j =>
          rw [trajT_succ]
          have hc : j + 1 - 1 = j := by omega
          rw [hc]
      rw [hstep, hroll]
      exact ih h0

/-- `decompress`, applied to the trajectory block at any round `r ≥ 1`,
returns bytes 16..31 of the original 48-byte block. -/
theorem decompress_traj (sbox : Nat → Nat) (x0 : List Nat) (hlen : x0.length = 48)
    (rows : Nat) (hrows : 1 ≤ rows) :
    decompress sbox (trajX sbox x0 rows) rows = (x0.drop 16).take 16 := by
  rw [decompress, decompressLoop_traj sbox x0 hlen rows hrows]
  have hx1 : trajX sbox x0 1 = mdRound sbox 0 x0 := rfl
  have hm1 : (trajX sbox x0 1).length = 48 := by rw [trajX_length, hlen]
  obtain ⟨hmain, _⟩ := rollCols_charn sbox (trajX sbox x0 1) hm1
  have hcols : ∀ c, 1 ≤ c → c ≤ 47 →
      lGetD 0 (rollCols sbox (trajX sbox x0 1)) c = lGetD 0 x0 c := by
    intro c h1 h2
    rw [hmain c h1 h2, hx1, mdRound_getD sbox x0 0 c (by omega), if_neg (by omega)]
    exact xor_cancel_right _ _
  refine lists_eq_of_lGetD _ _ ?_ ?_
  · rw [List.length_take, List.length_drop, List.length_take, List.length_drop,
        rollRound_length, hm1, hlen]
  · intro i hi
    rw [List.length_take, List.length_drop, rollRound_length, hm1] at hi
    rw [lGetD_take _ 16 i (by omega), lGetD_drop, lGetD_take _ 16 i (by omega), lGetD_drop,
        lGetD_rollRound_pos sbox _ 0 (16 + i) (by omega),
        hcols (16 + i) (by omega) (by omega)]

set_option maxHeartbeats 1000000 in
/-- **C10**: the two message-recovery implementations agree — for every
reachable engine state and every trial `b`, the 16-byte message lib.rs's
`decompress` recovers from the trial-written 48-byte row `rows` equals the
message `state[0][17..33]` that main.rs's upward walk recovers. -/
theorem C10_recovery_agreement (sbox sboxi : Nat → Nat) (hbox : ByteFun sbox)
    (hinv : ∀ x, x < 256 → sbox (sboxi x) = x)
    (k : Nat) (hk1 : 1 ≤ k) (hk2 : k ≤ 14) (s : Tbl) (hs : StateOk sbox sboxi k s)
    (b : List Nat) (hb : b.length = k) (hbv : ByteVec b) :
    decompress sbox (rowSlice (writeTrial (16 - k) s b) (16 - k)) (16 - k)
      = msgOf (bwdFill sbox (16 - k) (writeTrial (16 - k) s b)) := by
  obtain ⟨hP1, _⟩ := traj_fwd_agrees sbox sboxi hbox hinv k hk1 hk2 s hs b hb hbv
    (16 - k) (le_refl _) (by omega)
  have hS0sh : Shape (createInitialState sbox sboxi k) := shape_createInitialState sbox sboxi k
  have hrowT := writeTrial_row_agree k hk1 hk2 s (createInitialState sbox sboxi k)
    hs.shape hS0sh hs.agree b hb
  have hTsh : Shape (writeTrial (16 - k) (createInitialState sbox sboxi k) b) :=
    shape_writeTrial _ _ _ hS0sh
  have hFF : FwdNFacts sbox (16 - k) (17 - (16 - k))
      (writeTrial (16 - k) (createInitialState sbox sboxi k) b) (canonF sbox sboxi k b) := by
    rw [canonF_eq]
    exact fwdN_facts sbox (16 - k) (by omega) (17 - (16 - k)) (by omega) _ hTsh
  have hx : rowSlice (writeTrial (16 - k) s b) (16 - k)
      = trajX sbox (x0Of (bwdFill sbox (16 - k) (writeTrial (16 - k) s b))) (16 - k) := by
    refine lists_eq_of_lGetD _ _ ?_ ?_
    · rw [rowSlice_length, trajX_length, x0Of_length]
    · intro i hi
      rw [rowSlice_length] at hi
      rw [rowSlice_getD _ _ i hi, hP1 i (by omega)]
      rw [hFF.frame (16 - k) (i + 1) (by rw [fwdW]; omega)]
      have h1i : 1 + i = i + 1 := by omega
      rw [h1i, hrowT (i + 1) (by omega)]
  rw [hx, decompress_traj sbox _ (by rw [x0Of_length]) (16 - k) (by omega)]
  rw [x0Of, List.append_assoc]
  rw [List.drop_left' (by simp : (List.replicate 16 (0 : Nat)).length = 16)]
  rw [List.take_left' (msgOf_length _)]

/-- **C10 witness**: recovery agreement at the prefilled state with the
byte-identity S-box, `k = 1` and trial `[0]`. -/
theorem C10_witness :
    decompress byteId
        (rowSlice (writeTrial (16 - 1) (createInitialState byteId byteId 1) [0]) (16 - 1))
        (16 - 1)
      = msgOf (bwdFill byteId (16 - 1)
          (writeTrial (16 - 1) (createInitialState byteId byteId 1) [0])) :=
  C10_recovery_agreement byteId byteId byteId_byteFun byteId_inverse 1
    (by omega) (by omega) (createInitialState byteId byteId 1)
    (stateOk_initial byteId byteId byteId_byteFun byteId_byteFun 1)
    [0] rfl (by intro x hx; simp at hx; omega)

/-- **C8 witness**: determinism instantiated with the byte-identity S-box,
`k = 1`, histories `[]` and `[fwd [3]]`, and trial `[7]`. -/
theorem C8_witness :
    keyOf (fwdFill byteId (16 - 1) (writeTrial (16 - 1)
        (applyOps byteId (16 - 1) (createInitialState byteId byteId 1) []) [7])) (16 - 1)
      = keyOf (fwdFill byteId (16 - 1) (writeTrial (16 - 1)
        (applyOps byteId (16 - 1) (createInitialState byteId byteId 1)
          [WalkOp.fwd [3]]) [7])) (16 - 1)
    ∧ msgOf (bwdFill byteId (16 - 1) (writeTrial (16 - 1)
        (applyOps byteId (16 - 1) (createInitialState byteId byteId 1) []) [7]))
      = msgOf (bwdFill byteId (16 - 1) (writeTrial (16 - 1)
        (applyOps byteId (16 - 1) (createInitialState byteId byteId 1)
          [WalkOp.fwd [3]]) [7])) :=
  C8_walker_determinism byteId byteId byteId_byteFun byteId_byteFun 1
    (by omega) (by omega) [] [WalkOp.fwd [3]]
    (by intro op hop; simp at hop)
    (by
      intro op hop
      rw [List.mem_singleton] at hop
      subst hop
      exact ⟨rfl, by intro x hx; simp [WalkOp.bytes] at hx; omega⟩)
    [7] rfl

end MD2Coll
